import Mathlib

/- Verification development for the NeoPrompt recipe engine.

   Shallow embedding of the core modules referenced by the claims:
   `backend/app/engine_ir/planner/plan.py` (operator planner),
   `backend/app/bandit.py` and `backend/app/optimizer.py` (bandit selection),
   `backend/app/recipes.py` (recipe compilation, cache, reload paths).

   Modelling conventions:
   - Python floats are modelled as exact rationals (`Rat`); the arithmetic
     used by the embedding is expressed through `Rat.divInt`-based helpers
     (`ratAdd`, `ratSub`, `ratDiv`, `ratAbs`) so that every definition
     evaluates inside the kernel; bridge lemmas identify them with the
     ordinary field operations for reasoning;
   - Python strings are manipulated through their character lists
     (`PyStr.*`), again so that concrete runs reduce;
   - Python dicts are modelled as insertion-ordered association lists, with
     `setKey` replacing an existing key in place and appending a new one,
     mirroring CPython dict semantics;
   - the filesystem, the process environment, and the YAML text parser are
     oracles supplied by a `World` record: a file's parse outcome is a field
     of the world, everything after parsing is embedded from the source;
   - Python `random.Random` is modelled by a record carrying the one unit
     draw and the one choice index a single selection call can consume. -/

/-! ## Kernel-reducing rational helpers (exact models of float ops) -/

def ratAdd (a b : Rat) : Rat := Rat.divInt (a.num * b.den + b.num * a.den) (a.den * b.den)

def ratSub (a b : Rat) : Rat := Rat.divInt (a.num * b.den - b.num * a.den) (a.den * b.den)

def ratDiv (a b : Rat) : Rat := Rat.divInt (a.num * b.den) (b.num * a.den)

def ratAbs (q : Rat) : Rat := if q < 0 then Rat.neg q else q

/-! ## Kernel-reducing string helpers (models of Python str methods) -/

namespace PyStr

def strip (s : String) : String :=
  ⟨((s.data.dropWhile Char.isWhitespace).reverse.dropWhile Char.isWhitespace).reverse⟩

def startsWith (s p : String) : Bool := p.data.isPrefixOf s.data

def endsWith (s p : String) : Bool := p.data.isSuffixOf s.data

def drop (s : String) (n : Nat) : String := ⟨s.data.drop n⟩

/- Strict lexicographic code-point order, Python's `<` on strings. -/
def listLtChars : List Char → List Char → Bool
  | [], [] => false
  | [], _ :: _ => true
  | _ :: _, [] => false
  | a :: as, b :: bs =>
      if a.toNat < b.toNat then true
      else if b.toNat < a.toNat then false
      else listLtChars as bs

def lt (a b : String) : Bool := listLtChars a.data b.data

end PyStr

/-! ## `backend/app/engine_ir/planner/plan.py` (operator planner) -/

namespace Planner

/- `_parse_position_spec` accepts `None`, ints and strings; any other
   runtime type falls through to `("end", None)`, which the `pyOther`
   constructor stands for. -/
inductive PySpec where
  | pyNone
  | pyInt (n : Int)
  | pyStr (s : String)
  | pyOther
deriving DecidableEq

/- The `(kind, value)` pairs returned by `_parse_position_spec`; the source's
   `("end", None)` is constructor `stop` because `end` is reserved in Lean. -/
inductive PosKind where
  | start
  | stop
  | before (anchor : String)
  | after (anchor : String)
  | index (n : Int)
deriving DecidableEq

def digitsVal (s : String) : Nat :=
  s.data.foldl (fun a c => a * 10 + (c.toNat - 48)) 0

def _parse_position_spec : PySpec → PosKind
  | .pyNone => .stop
  | .pyInt n => .index n
  | .pyStr spec =>
      let s := PyStr.strip spec
      if s = "start" then .start
      else if s = "end" then .stop
      else if PyStr.startsWith s "before:" then .before (PyStr.strip (PyStr.drop s 7))
      else if PyStr.startsWith s "after:" then .after (PyStr.strip (PyStr.drop s 6))
      else if s.data.length ≠ 0 && s.data.all Char.isDigit then .index (digitsVal s)
      else .stop
  | .pyOther => .stop

/- Python `list.insert(idx, a)` for `idx ≤ len` (the only way it is called). -/
def pyInsert (l : List α) (idx : Nat) (a : α) : List α :=
  match l, idx with
  | l, 0 => a :: l
  | [], _ + 1 => [a]
  | x :: xs, n + 1 => x :: pyInsert xs n a

def _reposition (plan : List String) (op : String) (spec : PySpec) : List String :=
  let kind := _parse_position_spec spec
  let plan1 := if plan.contains op then plan else plan ++ [op]
  let plan2 := plan1.filter (fun x => x ≠ op)
  let idx : Nat :=
    match kind with
    | .start => 0
    | .stop => plan2.length
    | .before v => if plan2.contains v then plan2.indexOf v else plan2.length
    | .after v => if plan2.contains v then plan2.indexOf v + 1 else plan2.length
    | .index n => (max 0 (min n plan2.length)).toNat
  pyInsert plan2 idx op

/- `_dedup_preserve_order`, with the `seen` set made explicit. -/
def dedupGo (seen : List String) : List String → List String
  | [] => []
  | x :: xs =>
      if seen.contains x then dedupGo seen xs
      else x :: dedupGo (x :: seen) xs

def _dedup_preserve_order (items : List String) : List String :=
  dedupGo [] items

/- Stable ascending sort, as Python's `sorted` on (unique) dict keys. -/
def insertSorted (x : String) : List String → List String
  | [] => [x]
  | y :: ys => if PyStr.lt x y then x :: y :: ys else y :: insertSorted x ys

def sortStrings : List String → List String
  | [] => []
  | x :: xs => insertSorted x (sortStrings xs)

/- The documented directives shape `{"operators": {"include": [...],
   "exclude": [...], "insert_at": {...}}}` consumed by
   `build_operator_plan`; `insertAt` keeps dict key uniqueness implicitly
   (later lookups take the first binding, as a dict would). -/
structure OpDirectives where
  includeOps : List String
  excludeOps : List String
  insertAt : List (String × PySpec)
deriving DecidableEq

def build_operator_plan (d : OpDirectives) (baseline_ops : List String) : List String :=
  let plan0 := _dedup_preserve_order (baseline_ops ++ d.includeOps)
  let plan1 :=
    if d.excludeOps.isEmpty then plan0
    else plan0.filter (fun op => !(d.excludeOps.contains op))
  let keysSorted := sortStrings (d.insertAt.map Prod.fst)
  let plan2 := keysSorted.foldl
    (fun pl opName =>
      if d.excludeOps.contains opName then pl
      else
        match d.insertAt.lookup opName with
        | some spec => _reposition pl opName spec
        | none => pl)
    plan1
  _dedup_preserve_order plan2

end Planner

/-! ## YAML values (mutual inductive, so all recursion is structural) -/

mutual
inductive Yaml where
  | null
  | b (v : Bool)
  | i (v : Int)
  | f (v : Rat)
  | s (v : String)
  | list (xs : YList)
  | map (kvs : YMap)
deriving DecidableEq, Repr
inductive YList where
  | nil
  | cons (hd : Yaml) (tl : YList)
deriving DecidableEq, Repr
inductive YMap where
  | nil
  | cons (k : String) (v : Yaml) (tl : YMap)
deriving DecidableEq, Repr
end

def YList.ofList : List Yaml → YList
  | [] => .nil
  | x :: xs => .cons x (YList.ofList xs)

def YList.toList : YList → List Yaml
  | .nil => []
  | .cons x xs => x :: xs.toList

def YMap.ofList : List (String × Yaml) → YMap
  | [] => .nil
  | (k, v) :: xs => .cons k v (YMap.ofList xs)

def YMap.toList : YMap → List (String × Yaml)
  | .nil => []
  | .cons k v tl => (k, v) :: tl.toList

/- Python `dict.get` (first binding wins; keys are unique by construction). -/
def YMap.lookup : YMap → String → Option Yaml
  | .nil, _ => none
  | .cons k' v tl, k => if k' = k then some v else tl.lookup k

/- CPython dict assignment: replace in place if the key exists, else append. -/
def YMap.setKey : YMap → String → Yaml → YMap
  | .nil, k, v => .cons k v .nil
  | .cons k' v' tl, k, v => if k' = k then .cons k' v tl else .cons k' v' (tl.setKey k v)

/- Python `dict.pop(k, None)`: drop the binding, keep the rest in order. -/
def YMap.removeKey : YMap → String → YMap
  | .nil, _ => .nil
  | .cons k' v tl, k => if k' = k then tl else .cons k' v (tl.removeKey k)

def YMap.keyList : YMap → List String
  | .nil => []
  | .cons k _ tl => k :: tl.keyList

def YMap.hasKey (m : YMap) (k : String) : Bool := (m.lookup k).isSome

/- Python truthiness on YAML-derived values (`or {}`, `if not s`, ...). -/
def Yaml.falsy : Yaml → Bool
  | .null => true
  | .b v => !v
  | .i n => n == 0
  | .f q => q == 0
  | .s st => st.data.isEmpty
  | .list .nil => true
  | .list _ => false
  | .map .nil => true
  | .map _ => false

/-! ## `RecipeModel` (recipes.py pydantic model, the fields the loader sets) -/

structure RecipeModel where
  id : String
  assistant : String
  category : String
  operators : List String
  hparams : YMap
  guards : YMap
  examples : List String
  description : Option String := none
  tags : List String := []
  version : Option String := none
deriving DecidableEq, Repr

/-! ## `backend/app/bandit.py` (ε-greedy selector) and
      `backend/app/optimizer.py` (`_eligible` safety filter) -/

namespace Bandit

structure BanditConfig where
  min_initial_samples : Rat := 1
  optimistic_initial_value : Rat := 0
deriving DecidableEq, Repr

/- `get_group_stats` produces a dict recipe_id -> dict of float counters;
   modelled exactly as that nested association structure so that
   `stats.get(rid, {}).get(key, 0.0)` and `if not s` keep their semantics. -/
def StatsMap := List (String × List (String × Rat))

def innerGet (s : List (String × Rat)) (k : String) (dflt : Rat) : Rat :=
  (s.lookup k).getD dflt

/- `float(stats.get(r.id, {}).get("sample_count", 0.0))` -/
def sampleCountOf (stats : StatsMap) (rid : String) : Rat :=
  innerGet ((List.lookup rid stats).getD []) "sample_count" 0

def _average_for (recipe_id : String) (stats : StatsMap) (optimistic : Rat) : Rat :=
  match List.lookup recipe_id stats with
  | none => optimistic
  | some s =>
      if s.isEmpty then optimistic
      else
        let cnt := innerGet s "sample_count" 0
        if cnt ≤ 0 then optimistic
        else ratDiv (innerGet s "reward_sum" 0) cnt

/- One `epsilon_greedy_select` call consumes at most one `rng.random()` and
   one `rng.choice(...)`; the record carries those two outcomes. `choice`
   on a non-empty list returns the element at `choiceIdx` modulo its
   length, so every index identifies one possible draw. -/
structure Rng where
  unitDraw : Rat
  choiceIdx : Nat

def rchoice (k : Nat) (l : List α) : Option α := l.get? (k % l.length)

/- `1e-12`, the exploit tie tolerance. -/
def tieTol : Rat := Rat.divInt 1 1000000000000

def coldStartSet (candidates : List RecipeModel) (stats : StatsMap)
    (config : BanditConfig) : List RecipeModel :=
  candidates.filter (fun r => sampleCountOf stats r.id < config.min_initial_samples)

def exploitStep (stats : StatsMap) (optimistic : Rat)
    (acc : Option Rat × List RecipeModel) (r : RecipeModel) :
    Option Rat × List RecipeModel :=
  let score := _average_for r.id stats optimistic
  match acc.1 with
  | none => (some score, [r])
  | some bs =>
      if ratAdd bs tieTol < score then (some score, [r])
      else if ratAbs (ratSub score bs) ≤ tieTol then (acc.1, acc.2 ++ [r])
      else acc

def exploitPool (candidates : List RecipeModel) (stats : StatsMap)
    (config : BanditConfig) : List RecipeModel :=
  let best := (candidates.foldl (exploitStep stats config.optimistic_initial_value) (none, [])).2
  if best.isEmpty then candidates else best

def epsilon_greedy_select (candidates : List RecipeModel) (stats : StatsMap)
    (epsilon : Rat) (config : BanditConfig) (rng : Rng) :
    Option (RecipeModel × Rat × String × Bool) :=
  if candidates.isEmpty then none
  else
    let under := coldStartSet candidates stats config
    if !under.isEmpty then
      (rchoice rng.choiceIdx under).map (fun c => (c, 1, "coldstart", true))
    else if rng.unitDraw < epsilon then
      (rchoice rng.choiceIdx candidates).map (fun c => (c, epsilon, "explore", true))
    else
      (rchoice rng.choiceIdx (exploitPool candidates stats config)).map
        (fun c => (c, ratSub 1 epsilon, "exploit", false))

/- Modelled from the spec for the C5 refinement comparison only: "pick the
   candidate(s) achieving the maximum score within a small numerical
   tolerance"; this is NOT the code's tie set. -/
def listMaxRat (l : List Rat) : Rat := l.foldl max (l.headD 0)

def specExploitTieSet (candidates : List RecipeModel) (stats : StatsMap)
    (optimistic : Rat) : List RecipeModel :=
  let m := listMaxRat (candidates.map (fun r => _average_for r.id stats optimistic))
  candidates.filter (fun r => m ≤ ratAdd (_average_for r.id stats optimistic) tieTol)

end Bandit

namespace Optimizer

/- The feedback table, seen through `_last_n_rewards`'s query: for each
   recipe id, its rewards ordered by feedback timestamp descending. -/
def FeedbackDb := String → List Rat

def _last_n_rewards (db : FeedbackDb) (recipe_id : String) (n : Nat) : List Rat :=
  (db recipe_id).take n

def _eligible (recipes : List RecipeModel) (db : FeedbackDb)
    (safety_threshold : Rat) : List RecipeModel :=
  recipes.filter (fun r =>
    let last3 := _last_n_rewards db r.id 3
    !(last3.length == 3 && last3.all (fun rv => rv < safety_threshold)))

end Optimizer

namespace Bandit

/- `BanditService.select_recipe`, selection-result semantics: the safety
   filter with its fail-open fallback, then `epsilon_greedy_select` over
   the group stats.  The TTL stats cache, metrics, logging and the
   `increment_selection` write are I/O side effects that do not alter the
   returned tuple; `stats` is whatever the read path yielded. -/
def selectRecipeService (config : BanditConfig) (db : Optimizer.FeedbackDb)
    (stats : StatsMap) (candidates : List RecipeModel) (epsilon : Rat)
    (rng : Rng) : Option (RecipeModel × Rat × String × Bool) :=
  let eligible := Optimizer._eligible candidates db (Rat.divInt 2 10)
  let eligible2 := if eligible.isEmpty then candidates else eligible
  epsilon_greedy_select eligible2 stats epsilon config rng

end Bandit

/-! ## Concrete inputs used by witnesses and counterexamples -/

def rmX : RecipeModel :=
  { id := "x", assistant := "chatgpt", category := "coding",
    operators := ["role_hdr"], hparams := .nil, guards := .nil, examples := [] }

def rmY : RecipeModel :=
  { id := "y", assistant := "chatgpt", category := "coding",
    operators := ["role_hdr"], hparams := .nil, guards := .nil, examples := [] }

def rmZ : RecipeModel :=
  { id := "z", assistant := "claude", category := "science",
    operators := ["io_format"], hparams := .nil, guards := .nil, examples := [] }

/- Stats giving x mean 0.7 and y mean 0.6 over 10 samples each. -/
def statsXY : Bandit.StatsMap :=
  [("x", [("sample_count", 10), ("reward_sum", 7)]),
   ("y", [("sample_count", 10), ("reward_sum", 6)])]

/- Scores 0, 0.6e-12 and 1.2e-12: the two upper ones lie within 1e-12 of
   the maximum, yet the running-best scan keeps only the top one. -/
def statsDrift : Bandit.StatsMap :=
  [("x", [("sample_count", 1), ("reward_sum", 0)]),
   ("y", [("sample_count", 1), ("reward_sum", Rat.divInt 6 10000000000000)]),
   ("z", [("sample_count", 1), ("reward_sum", Rat.divInt 12 10000000000000)])]


/- x has no stats row (sample_count 0 through the default); y has 5. -/
def statsColdY : Bandit.StatsMap := [("y", [("sample_count", 5), ("reward_sum", 2)])]

/- Feedback history: x's last three rewards are each 0.1; y has none. -/
def fdbC6 : Optimizer.FeedbackDb := fun rid =>
  if rid = "x" then [Rat.divInt 1 10, Rat.divInt 1 10, Rat.divInt 1 10] else []

/-! ## `filter_recipes` (recipes.py fallback tier ladder) -/

namespace Recipes

def tierExact (recipes : List RecipeModel) (assistant category : String) : List RecipeModel :=
  recipes.filter (fun r => r.assistant == assistant && r.category == category)

def tierBaseline (recipes : List RecipeModel) (assistant : String) : List RecipeModel :=
  recipes.filter (fun r => r.assistant == assistant && PyStr.endsWith r.id ".baseline")

def tierAssistant (recipes : List RecipeModel) (assistant : String) : List RecipeModel :=
  recipes.filter (fun r => r.assistant == assistant)

def tierCategory (recipes : List RecipeModel) (category : String) : List RecipeModel :=
  recipes.filter (fun r => r.category == category)

def filter_recipes (recipes : List RecipeModel) (assistant category : String) :
    List RecipeModel × String × List String :=
  let tier1 := tierExact recipes assistant category
  if !tier1.isEmpty then (tier1, "assistant+category", ["tier=assistant+category"])
  else
    let tier2 := tierBaseline recipes assistant
    if !tier2.isEmpty then (tier2.take 1, "assistant+baseline", ["tier=assistant+baseline"])
    else
      let tier3 := tierAssistant recipes assistant
      if !tier3.isEmpty then (tier3.take 1, "assistant+any", ["tier=assistant+any"])
      else
        let tier4 := tierCategory recipes category
        if !tier4.isEmpty then (tier4.take 1, "any+category", ["tier=any+category"])
        else
          if !recipes.isEmpty then (recipes.take 1, "any+any", ["tier=any+any"])
          else ([], "none", [])

end Recipes

/- A `<assistant>.<cat>.baseline`-suffixed recipe for the C8 witness. -/
def rmBase : RecipeModel :=
  { id := "chatgpt.coding.baseline", assistant := "chatgpt", category := "coding",
    operators := ["role_hdr"], hparams := .nil, guards := .nil, examples := [] }


/-! ## `backend/app/recipes.py`: world model and YAML document loader -/

namespace Recipes

/- Outcome of `open(path)` + `yaml.safe_load(f)` on one file, as the
   filesystem oracle reports it: a parsed value, a `MarkedYAMLError` with a
   0-based problem-mark line, another `YAMLError`, or an OS error. -/
inductive ReadResult where
  | ok (v : Yaml)
  | markedErr (msg : String) (line : Option Nat)
  | yamlErr (msg : String)
  | ioErr (msg : String)
deriving DecidableEq, Repr

structure RecipeError where
  file_path : String
  error : String
  error_type : String
  line_number : Option Nat := none
deriving DecidableEq, Repr

/- The process environment and filesystem as `recipes.py` consumes them.
   `statSize`/`mtimeNs` return `none` for `FileNotFoundError`; `readYaml`
   is the oracle for text parsing; `jsonValidator` is the optional loaded
   JSON Schema validator (`none` when the dependency or schema file is
   absent), returning an error message on failure. -/
structure World where
  recipesDir : String
  scanFilesResult : List String
  statSize : String → Option Nat
  mtimeNs : String → Option Nat
  readYaml : String → ReadResult
  pathExists : String → Bool
  env : String → Option String
  dotenvValues : String → Option String
  maxFileSize : Nat
  jsonValidator : Option (YMap → Option String)
  nowNs : Nat

def World.strict (w : World) : Bool := w.env "VALIDATION_STRICT" == some "1"

/- `_parse_yaml`: the size guard fires before any parsing; a missing file
   at `os.stat` passes size 0 and then fails at `open` as `io_error`; the
   `yaml.safe_load(f) or {}` idiom coerces every falsy root (null, false,
   0, empty string/list/map) to the empty mapping.  Error message texts
   are abbreviated. -/
def _parse_yaml (w : World) (path : String) : Option Yaml × Option RecipeError :=
  let size := (w.statSize path).getD 0
  if w.maxFileSize < size then
    (none, some ⟨path, "file too large", "security_validation", none⟩)
  else
    match w.readYaml path with
    | .ok v => (some (if v.falsy then .map .nil else v), none)
    | .markedErr msg line => (none, some ⟨path, msg, "yaml_parse", line.map (· + 1)⟩)
    | .yamlErr msg => (none, some ⟨path, msg, "yaml_parse", none⟩)
    | .ioErr msg => (none, some ⟨path, msg, "io_error", none⟩)

/-! ### Path arithmetic (all paths are absolute, `/`-separated) -/

def splitOnCharGo (c : Char) : List Char → List Char → List String
  | [], acc => [⟨acc.reverse⟩]
  | x :: xs, acc =>
      if x = c then (⟨acc.reverse⟩ : String) :: splitOnCharGo c xs []
      else splitOnCharGo c xs (x :: acc)

def splitOnChar (c : Char) (s : String) : List String :=
  splitOnCharGo c s.data []

/- `Path.resolve()` segment normalisation: drop empty and `.` segments,
   let `..` pop. -/
def normSegs (p : String) : List String :=
  (splitOnChar '/' p).foldl
    (fun acc seg =>
      if seg = "" then acc
      else if seg = "." then acc
      else if seg = ".." then acc.dropLast
      else acc ++ [seg])
    []

def joinSegs : List String → String
  | [] => ""
  | [s] => s
  | s :: rest => s ++ "/" ++ joinSegs rest

/- `target.relative_to(root)`: `none` models the raised `ValueError`. -/
def relTo (root : String) (target : String) : Option String :=
  let rs := normSegs root
  let ts := normSegs target
  if rs.isPrefixOf ts then some (joinSegs (ts.drop rs.length)) else none

def pathJoin (dir rel : String) : String := dir ++ "/" ++ rel

def listIsInfix (needle : List Char) : List Char → Bool
  | [] => needle.isEmpty
  | c :: rest => needle.isPrefixOf (c :: rest) || listIsInfix needle rest

def strContains (s sub : String) : Bool := listIsInfix sub.data s.data

/- Python `str()` on YAML scalars (ids are strings in practice; containers
   get a placeholder rendering). -/
def natToStrGo : Nat → Nat → List Char → List Char
  | 0, _, acc => acc
  | fuel + 1, n, acc =>
      let d := Char.ofNat (48 + n % 10)
      if n < 10 then d :: acc else natToStrGo fuel (n / 10) (d :: acc)

def natToStr (n : Nat) : String := ⟨natToStrGo (n + 1) n []⟩

def intToStr (i : Int) : String :=
  if i < 0 then "-" ++ natToStr i.natAbs else natToStr i.natAbs

def pyStrOf : Yaml → String
  | .null => "None"
  | .b true => "True"
  | .b false => "False"
  | .i n => intToStr n
  | .f _ => "<float>"
  | .s v => v
  | .list _ => "<list>"
  | .map _ => "<dict>"

/- Decimal string accepted by Python `float(str)` (sign, digits, optional
   fraction; exponent forms are out of scope of the claims). -/
def parseDigits (cs : List Char) : Option Nat :=
  if cs.isEmpty then none
  else if cs.all Char.isDigit then
    some (cs.foldl (fun a c => a * 10 + (c.toNat - 48)) 0)
  else none

def parseDecimal (s : String) : Option Rat :=
  let cs := (PyStr.strip s).data
  let signed : Bool × List Char :=
    match cs with
    | '-' :: rest => (true, rest)
    | '+' :: rest => (false, rest)
    | _ => (false, cs)
  let neg := signed.1
  let body := signed.2
  let mk := fun (q : Rat) => some (if neg then Rat.neg q else q)
  match body.splitOn '.' with
  | [w] =>
      match parseDigits w with
      | some n => mk n
      | none => none
  | [w, fr] =>
      match parseDigits (if w.isEmpty then ['0'] else w),
            parseDigits (if fr.isEmpty then ['0'] else fr) with
      | some wn, some fn => mk (ratAdd wn (Rat.divInt fn (10 ^ fr.length)))
      | _, _ => none
  | _ => none

/- Python `float(x)` on YAML values: bools are 1.0/0.0, numeric strings
   parse, anything else raises (`none`). -/
def pyFloat : Yaml → Option Rat
  | .i n => some n
  | .f q => some q
  | .b v => some (if v then 1 else 0)
  | .s str => parseDecimal str
  | _ => none

end Recipes

namespace Recipes

/-! ### Environment substitution (`${ENV:VAR[:-default]}` and `${VAR}`) -/

def isVarStart (c : Char) : Bool := c.isAlpha || c = '_'

def isVarChar (c : Char) : Bool := c.isAlphanum || c = '_'

/- The lazy `(.*?)` default of `ENV_PATTERN`: shortest run up to the first
   closing brace, no newline (`.` does not match newlines). -/
def takeUntilBrace : List Char → Option (List Char × List Char)
  | [] => none
  | c :: rest =>
      if c = '\x7d' then some ([], rest)
      else if c = '\n' then none
      else (takeUntilBrace rest).map (fun p => (c :: p.1, p.2))

/- Match `ENV_PATTERN` at the head of the character stream; returns
   (var, optional default, rest). -/
def matchEnvPattern (cs : List Char) : Option (String × Option String × List Char) :=
  match cs with
  | '$' :: '\x7b' :: 'E' :: 'N' :: 'V' :: ':' :: c :: cs2 =>
      if isVarStart c then
        let varChars := cs2.takeWhile isVarChar
        let rest2 := cs2.dropWhile isVarChar
        let var : String := ⟨c :: varChars⟩
        match rest2 with
        | '\x7d' :: rest3 => some (var, none, rest3)
        | ':' :: '-' :: rest3 =>
            match takeUntilBrace rest3 with
            | some (dflt, rest4) => some (var, some ⟨dflt⟩, rest4)
            | none => none
        | _ => none
      else none
  | _ => none

/- Match `_ENV_RE` at the head of the stream. -/
def matchVarPattern (cs : List Char) : Option (String × List Char) :=
  match cs with
  | '$' :: '\x7b' :: c :: cs2 =>
      if isVarStart c then
        let varChars := cs2.takeWhile isVarChar
        let rest2 := cs2.dropWhile isVarChar
        match rest2 with
        | '\x7d' :: rest3 => some (⟨c :: varChars⟩, rest3)
        | _ => none
      else none
  | _ => none

/- The `[s.strip() for s in value.split(",") if s.strip()]` idiom. -/
def splitCommaStrip (s : String) : List String :=
  ((splitOnChar ',' s).map PyStr.strip).filter (fun x => x ≠ "")

def braceL : String := ⟨['\x7b']⟩

def braceR : String := ⟨['\x7d']⟩

def envMatchText (var : String) (dflt : Option String) : String :=
  "$" ++ braceL ++ "ENV:" ++ var
    ++ (match dflt with | some d => ":-" ++ d | none => "") ++ braceR

/- `_subst_env_str`: the policy-gated form, resolving allow/deny lists from
   the environment at substitution time; one `security_validation` error
   per blocked occurrence.  The scanner walks left to right as `re.sub`
   does; replacements are not rescanned. -/
def substEnvGo (w : World) (file_path : String) :
    Nat → List Char → List Char → List RecipeError → List Char × List RecipeError
  | 0, cs, acc, errs => (acc ++ cs, errs)
  | fuel + 1, cs, acc, errs =>
      match cs with
      | [] => (acc, errs)
      | c :: cs' =>
          match matchEnvPattern cs with
          | some (var, dflt, rest) =>
              let allowlist := splitCommaStrip ((w.env "RECIPES_ENV_ALLOWLIST").getD "")
              let denylist := splitCommaStrip ((w.env "RECIPES_ENV_DENYLIST").getD "")
              let denied := denylist.any (fun p => PyStr.startsWith var p || var == p)
              let allowed :=
                allowlist.isEmpty || allowlist.any (fun p => PyStr.startsWith var p || var == p)
              if denied || !allowed then
                let repl := dflt.getD (envMatchText var dflt)
                substEnvGo w file_path fuel rest (acc ++ repl.data)
                  (errs ++ [⟨file_path, "env var blocked by policy", "security_validation", none⟩])
              else
                let repl := (w.env var).getD (dflt.getD (envMatchText var dflt))
                substEnvGo w file_path fuel rest (acc ++ repl.data) errs
          | none => substEnvGo w file_path fuel cs' (acc ++ [c]) errs

def _subst_env_str (w : World) (val : String) (file_path : String) :
    String × List RecipeError :=
  let r := substEnvGo w file_path (val.data.length + 1) val.data [] []
  (⟨r.1⟩, r.2)

/- The legacy `${VAR}` whitelist form applied by `_apply_env_substitution`
   after the policy form: non-whitelisted variables stay literal, a
   whitelisted but unset variable leaves the literal and records a
   `semantic_validation` error. -/
def substVarGo (w : World) (whitelist : List String) (file_path : String) (rid : Option String) :
    Nat → List Char → List Char → List RecipeError → List Char × List RecipeError
  | 0, cs, acc, errs => (acc ++ cs, errs)
  | fuel + 1, cs, acc, errs =>
      match cs with
      | [] => (acc, errs)
      | c :: cs' =>
          match matchVarPattern cs with
          | some (var, rest) =>
              if !(whitelist.contains var) then
                substVarGo w whitelist file_path rid fuel rest
                  (acc ++ ("$" ++ braceL ++ var ++ braceR).data) errs
              else
                match (w.env var).orElse (fun _ => w.dotenvValues var) with
                | some v => substVarGo w whitelist file_path rid fuel rest (acc ++ v.data) errs
                | none =>
                    substVarGo w whitelist file_path rid fuel rest
                      (acc ++ ("$" ++ braceL ++ var ++ braceR).data)
                      (errs ++ [⟨file_path, "ENV var not set", "semantic_validation", none⟩])
          | none => substVarGo w whitelist file_path rid fuel cs' (acc ++ [c]) errs

def envWhitelist (w : World) : List String :=
  splitCommaStrip ((w.env "ENV_WHITELIST").getD "")

def substString (w : World) (file_path : String) (rid : Option String) (s : String) :
    String × List RecipeError :=
  let r1 := _subst_env_str w s file_path
  let r := substVarGo w (envWhitelist w) file_path rid (r1.1.data.length + 1) r1.1.data [] []
  (⟨r.1⟩, r1.2 ++ r.2)

/- `_apply_env_substitution`: walk the merged tree, substituting every
   string; errors collect in walk order. -/
mutual
def substYaml (w : World) (file_path : String) (rid : Option String) :
    Yaml → List RecipeError → Yaml × List RecipeError
  | .s str, errs =>
      let r := substString w file_path rid str
      (.s r.1, errs ++ r.2)
  | .list xs, errs =>
      let r := substYList w file_path rid xs errs
      (.list r.1, r.2)
  | .map kvs, errs =>
      let r := substYMap w file_path rid kvs errs
      (.map r.1, r.2)
  | v, errs => (v, errs)
def substYList (w : World) (file_path : String) (rid : Option String) :
    YList → List RecipeError → YList × List RecipeError
  | .nil, errs => (.nil, errs)
  | .cons x tl, errs =>
      let r1 := substYaml w file_path rid x errs
      let r2 := substYList w file_path rid tl r1.2
      (.cons r1.1 r2.1, r2.2)
def substYMap (w : World) (file_path : String) (rid : Option String) :
    YMap → List RecipeError → YMap × List RecipeError
  | .nil, errs => (.nil, errs)
  | .cons k v tl, errs =>
      let r1 := substYaml w file_path rid v errs
      let r2 := substYMap w file_path rid tl r1.2
      (.cons k r1.1 r2.1, r2.2)
end

def _apply_env_substitution (w : World) (m : YMap) (file_path : String) (rid : Option String) :
    YMap × List RecipeError :=
  match substYaml w file_path rid (.map m) [] with
  | (.map m', errs) => (m', errs)
  | (_, errs) => (m, errs)

end Recipes

namespace Recipes

/-! ### Merge helpers and operator algebra -/

def ylistAppend : YList → YList → YList
  | .nil, ys => ys
  | .cons x tl, ys => .cons x (ylistAppend tl ys)

/- `_dedupe_preserve_order` over YAML values (Python `in seen`). -/
def ylistDedup (seen : List Yaml) : YList → YList
  | .nil => .nil
  | .cons x tl =>
      if seen.contains x then ylistDedup seen tl
      else .cons x (ylistDedup (x :: seen) tl)

/- `RecipesCache._deep_merge`: dict×dict recurses, otherwise the overlay
   value wins; assignment keeps an existing key in place. -/
def _deep_merge (base : YMap) : YMap → YMap
  | .nil => base
  | .cons k v tl =>
      let newOut :=
        match base.lookup k, v with
        | some (.map m1), .map m2 => base.setKey k (.map (_deep_merge m1 m2))
        | _, _ => base.setKey k v
      _deep_merge newOut tl

/- `RecipesCache._apply_operators_plus`: `pop` removes the key first; a
   non-list `operators+` value leaves `operators` untouched; a non-list
   `operators` contributes an empty base. -/
def _apply_operators_plus (merged : YMap) : YMap :=
  match merged.lookup "operators+" with
  | none => merged
  | some opsPlus =>
      let m1 := merged.removeKey "operators+"
      let baseOps : YList :=
        match m1.lookup "operators" with
        | some (.list l) => l
        | _ => .nil
      match opsPlus with
      | .list plus => m1.setKey "operators" (.list (ylistDedup [] (ylistAppend baseOps plus)))
      | _ => m1

/- `{k: v for k, v in raw.items() if k not in ("include", "extends")}` -/
def dropIncludeExtends : YMap → YMap
  | .nil => .nil
  | .cons k v tl =>
      if k = "include" || k = "extends" then dropIncludeExtends tl
      else .cons k v (dropIncludeExtends tl)

/-! ### Fragment reading and model validation -/

def fragmentLegalKeys : List String := ["operators", "hparams", "guards", "examples"]

def _validate_fragment_schema (frag : YMap) (frag_file : String) (_ref_file : String) :
    Bool × List RecipeError :=
  let illegal := frag.keyList.filter (fun k => !(fragmentLegalKeys.contains k))
  if illegal.isEmpty then (true, [])
  else (false, [⟨frag_file, "fragment contains illegal keys", "schema_validation", none⟩])

/- `read_fragment` (the closure shared by both reload paths). -/
def read_fragment (w : World) (rel : String) (ref_file : String) :
    Option YMap × List RecipeError :=
  let abs_path := pathJoin w.recipesDir rel
  if !(w.pathExists abs_path) then
    (none, [⟨ref_file, "include not found", "cross_file_validation", none⟩])
  else
    match _parse_yaml w abs_path with
    | (_, some perr) => (none, [perr])
    | (some (.map m), none) =>
        match _validate_fragment_schema m abs_path ref_file with
        | (true, _) => (some m, [])
        | (false, errs) => (none, errs)
    | (_, none) =>
        (none, [⟨abs_path, "fragment YAML root must be a mapping", "schema_validation", none⟩])

def ylistStrings : YList → Option (List String)
  | .nil => some []
  | .cons (.s v) tl => (ylistStrings tl).map (fun l => v :: l)
  | .cons _ _ => none

/- `RecipeModel(**model_input)`: pydantic acceptance modelled as the
   declared field shapes (string fields, list-of-string fields, mapping
   fields). -/
def mkRecipeModel (mi : YMap) : Option RecipeModel :=
  match mi.lookup "id", mi.lookup "assistant", mi.lookup "category",
      mi.lookup "operators", mi.lookup "hparams", mi.lookup "guards",
      mi.lookup "examples" with
  | some (.s i), some (.s a), some (.s c), some (.list ops), some (.map hp),
      some (.map gd), some (.list ex) =>
      match ylistStrings ops, ylistStrings ex with
      | some opsS, some exS => some ⟨i, a, c, opsS, hp, gd, exS, none, [], none⟩
      | _, _ => none
  | _, _, _, _, _, _, _ => none

def known_assistants : List String := ["chatgpt", "claude", "gemini", "deepseek"]

def known_categories : List String := ["coding", "science", "psychology", "law", "politics"]

def category_caps : List (String × Rat) :=
  [("law", Rat.divInt 3 10), ("medical", Rat.divInt 3 10),
   ("psychology", Rat.divInt 35 100), ("politics", Rat.divInt 35 100),
   ("science", Rat.divInt 4 10), ("coding", Rat.divInt 4 10)]

def validate_recipe (recipe : RecipeModel) : List String :=
  (if !(known_assistants.contains recipe.assistant) then ["unknown assistant"] else [])
  ++ (if !(known_categories.contains recipe.category) then ["unknown category"] else [])
  ++ (if recipe.operators.isEmpty then ["operators list must not be empty"] else [])
  ++ (match List.lookup recipe.category category_caps with
      | none => []
      | some cap =>
          match recipe.guards.lookup "max_temperature" with
          | none => []
          | some .null => []
          | some v =>
              match pyFloat v with
              | some x => if cap < x then ["max_temperature exceeds cap"] else []
              | none => ["guards.max_temperature must be a number"])

def allowed_operators : List String :=
  ["role_hdr", "constraints", "io_format", "examples", "quality_bar"]

end Recipes

namespace Recipes

def resolveAbs (p : String) : String := "/" ++ joinSegs (normSegs p)

def looksLikePathRef (ex : String) : Bool :=
  strContains ex "/" || PyStr.startsWith ex "./" || PyStr.endsWith ex ".txt"
    || PyStr.endsWith ex ".md" || PyStr.endsWith ex ".yaml" || PyStr.endsWith ex ".yml"

/- The per-id compile body shared (duplicated) by `ensure_loaded` and
   `apply_fs_events` (steps 2-12 of the compiler): parent merge, fragment
   merge, self merge, operator algebra, env substitution, operator
   whitelist, model-input assembly, id-prefix and extends-compatibility
   checks, optional JSON Schema check, pydantic construction, example
   references, semantic validation. Returns (model_input, constructed
   model or `none` for the `except ValidationError: continue` path,
   blocking flag, errors in append order). -/
def compileOne (w : World) (strict : Bool) (idToFile : List (String × String))
    (compiledById : List (String × YMap)) (parents : List String)
    (includes : List String) (raw : YMap) (rid : String) (file_path : String) :
    YMap × Option RecipeModel × Bool × List RecipeError :=
  let s1 := parents.foldl
    (fun (acc : YMap × Bool × List RecipeError) parent =>
      match List.lookup parent compiledById with
      | some p => (_deep_merge acc.1 p, acc.2.1, acc.2.2)
      | none => (acc.1, acc.2.1 || strict,
          acc.2.2 ++ [⟨file_path, "missing parent id", "cross_file_validation", none⟩]))
    (YMap.nil, false, [])
  let s2 := includes.foldl
    (fun (acc : YMap × Bool × List RecipeError) rel =>
      match read_fragment w rel file_path with
      | (some frag, fe) => (_deep_merge acc.1 frag, acc.2.1, acc.2.2 ++ fe)
      | (none, fe) => (acc.1, acc.2.1 || strict, acc.2.2 ++ fe))
    s1
  let merged3 := _deep_merge s2.1 (dropIncludeExtends raw)
  let merged4 := _apply_operators_plus merged3
  let sub := _apply_env_substitution w merged4 file_path (some rid)
  let merged5 := sub.1
  let errs5 := s2.2.2 ++ sub.2
  let block5 := s2.2.1
  let opsCheck : Bool × List RecipeError :=
    match merged5.lookup "operators" with
    | some (.list l) =>
        l.toList.foldl
          (fun (acc : Bool × List RecipeError) op =>
            match op with
            | .s name =>
                if allowed_operators.contains name then acc
                else (acc.1 || strict,
                  acc.2 ++ [⟨file_path, "unknown operator", "schema_validation", none⟩])
            | _ => (acc.1 || strict,
                acc.2 ++ [⟨file_path, "unknown operator", "schema_validation", none⟩]))
          (false, [])
    | _ => (false, [])
  let block6 := block5 || opsCheck.1
  let errs6 := errs5 ++ opsCheck.2
  let model_input : YMap := YMap.ofList
    [("id", (merged5.lookup "id").getD .null),
     ("assistant", (merged5.lookup "assistant").getD .null),
     ("category", (merged5.lookup "category").getD .null),
     ("operators", (merged5.lookup "operators").getD (.list .nil)),
     ("hparams", (merged5.lookup "hparams").getD (.map .nil)),
     ("guards", (merged5.lookup "guards").getD (.map .nil)),
     ("examples", (merged5.lookup "examples").getD (.list .nil))]
  let asstY := (model_input.lookup "assistant").getD .null
  let catY := (model_input.lookup "category").getD .null
  let prefixCheck : Bool × List RecipeError :=
    match model_input.lookup "id" with
    | some (.s idv) =>
        if 2 ≤ (idv.data.filter (fun c => c = '.')).length then
          let parts := splitOnChar '.' idv
          match parts.get? 0, parts.get? 1 with
          | some p0, some p1 =>
              if known_assistants.contains p0 && known_categories.contains p1 then
                if !(Yaml.s p0 == asstY) || !(Yaml.s p1 == catY) then
                  (strict, [⟨file_path, "assistant/category fields must match id prefix",
                    "semantic_validation", none⟩])
                else (false, [])
              else (false, [])
          | _, _ => (false, [])
        else (false, [])
    | _ => (false, [])
  let compatCheck : Bool × List RecipeError := parents.foldl
    (fun (acc : Bool × List RecipeError) parent =>
      match List.lookup parent idToFile, List.lookup parent compiledById with
      | some pf, some p =>
          if pf ≠ "" then
            let pa := (p.lookup "assistant").getD .null
            let pc := (p.lookup "category").getD .null
            if !pa.falsy && !pc.falsy && (!(pa == asstY) || !(pc == catY)) then
              (acc.1 || strict, acc.2 ++ [⟨file_path, "extends parent assistant/category mismatch",
                "cross_file_validation", none⟩])
            else acc
          else acc
      | _, _ => acc)
    (false, [])
  let jsEnabled := strict || (w.env "PROMPT_TEMPLATES_JSONSCHEMA" == some "1")
  let jsCheck : Bool × List RecipeError :=
    if jsEnabled then
      match w.jsonValidator with
      | some f =>
          match f model_input with
          | some msg => (strict, [⟨file_path, msg, "schema_validation", none⟩])
          | none => (false, [])
      | none => (false, [])
    else (false, [])
  let block7 := block6 || prefixCheck.1 || compatCheck.1 || jsCheck.1
  let errs7 := errs6 ++ prefixCheck.2 ++ compatCheck.2 ++ jsCheck.2
  match mkRecipeModel model_input with
  | none => (model_input, none, block7,
      errs7 ++ [⟨file_path, "model validation failed", "schema_validation", none⟩])
  | some model =>
      let exCheck : Bool × List RecipeError := model.examples.foldl
        (fun (acc : Bool × List RecipeError) ex =>
          if looksLikePathRef ex then
            match relTo w.recipesDir (pathJoin w.recipesDir ex) with
            | none => (acc.1 || strict,
                acc.2 ++ [⟨file_path, "examples reference escapes recipes dir",
                  "cross_file_validation", none⟩])
            | some _ =>
                if !(w.pathExists (resolveAbs (pathJoin w.recipesDir ex))) then
                  (acc.1 || strict, acc.2 ++ [⟨file_path, "examples reference not found",
                    "cross_file_validation", none⟩])
                else acc
          else acc)
        (false, [])
      let semIssues := validate_recipe model
      let semBlock := strict && !semIssues.isEmpty
      let semErrs := semIssues.map
        (fun msg => (⟨file_path, msg, "semantic_validation", none⟩ : RecipeError))
      (model_input, some model, block7 || exCheck.1 || semBlock, errs7 ++ exCheck.2 ++ semErrs)

end Recipes

namespace Recipes

/-! ### Association-list dict helpers (CPython ordered-dict semantics) -/

def setA {β : Type} : List (String × β) → String → β → List (String × β)
  | [], k, v => [(k, v)]
  | (k', v') :: tl, k, v =>
      if k' = k then (k, v) :: tl else (k', v') :: setA tl k v

/- `d.setdefault(k, []).append(x)` -/
def appendAssocList {β : Type} : List (String × List β) → String → β → List (String × List β)
  | [], k, x => [(k, [x])]
  | (k', xs) :: tl, k, x =>
      if k' = k then (k', xs ++ [x]) :: tl else (k', xs) :: appendAssocList tl k x

/- `d.setdefault(k, set()).add(x)` (sets modelled as insertion-ordered,
   duplicate-free lists) -/
def addToSetAssoc : List (String × List String) → String → String → List (String × List String)
  | [], k, x => [(k, [x])]
  | (k', xs) :: tl, k, x =>
      if k' = k then (k', if xs.contains x then xs else xs ++ [x]) :: tl
      else (k', xs) :: addToSetAssoc tl k x

/-! ### `RecipesCache` state and full reload (`ensure_loaded`) -/

structure CacheState where
  recipes : List RecipeModel
  errors : List RecipeError
  mtimes : List (String × Nat)
  rawDocsByFile : List (String × YMap)
  definesByFile : List (String × List String)
  includesByFile : List (String × List String)
  idToFile : List (String × String)
  idGraph : List (String × List String)
  idGraphRev : List (String × List String)
  compiledById : List (String × YMap)
  lastKnownGoodById : List (String × YMap)
  lastLoadedNs : Nat
deriving DecidableEq, Repr

def emptyCache : CacheState := ⟨[], [], [], [], [], [], [], [], [], [], [], 0⟩

structure ScanAcc where
  errors : List RecipeError
  mtimes : List (String × Nat)
  rawDocs : List (String × YMap)
  definesByFile : List (String × List String)
  includesByFile : List (String × List String)
  idToFile : List (String × String)
  duplicates : List (String × List String)
deriving Repr

/- The per-file body of `ensure_loaded`'s scan loop (parse, mtime,
   fragment-location rule for id-less files, defines/duplicates tracking,
   include validation). Non-string ids pass through Python `str()`
   (`pyStrOf`). -/
def processFile (w : World) (acc0 : ScanAcc) (path : String) : ScanAcc :=
  let m := (w.mtimeNs path).getD 0
  let acc := { acc0 with mtimes := setA acc0.mtimes path m }
  match _parse_yaml w path with
  | (_, some perr) => { acc with errors := acc.errors ++ [perr] }
  | (some (.map dm), none) =>
      let acc := { acc with rawDocs := setA acc.rawDocs path dm }
      let ridTruthy :=
        match dm.lookup "id" with
        | some v => !v.falsy
        | none => false
      let fragErrs :=
        if !ridTruthy then
          match relTo w.recipesDir path with
          | some rel =>
              if !(strContains rel "/_fragments/") && !(PyStr.startsWith rel "_fragments/") then
                [(⟨path, "file without id must be a fragment under _fragments",
                  "schema_validation", none⟩ : RecipeError)]
              else []
          | none => []
        else []
      let acc := { acc with errors := acc.errors ++ fragErrs }
      let acc :=
        if ridTruthy then
          let ridS := pyStrOf ((dm.lookup "id").getD .null)
          let acc := { acc with definesByFile := appendAssocList acc.definesByFile path ridS }
          match List.lookup ridS acc.idToFile with
          | some old =>
              { acc with duplicates :=
                  appendAssocList (appendAssocList acc.duplicates ridS old) ridS path }
          | none => { acc with idToFile := setA acc.idToFile ridS path }
        else acc
      let incsR : List String × List RecipeError :=
        match dm.lookup "include" with
        | none => ([], [])
        | some (.list l) =>
            l.toList.foldl
              (fun (a : List String × List RecipeError) ent =>
                match ent with
                | .s es =>
                    if PyStr.startsWith es "/" then
                      (a.1, a.2 ++ [⟨path, "absolute paths not allowed in include",
                        "cross_file_validation", none⟩])
                    else
                      match relTo w.recipesDir (pathJoin w.recipesDir es) with
                      | none => (a.1, a.2 ++ [⟨path, "include escapes recipes dir",
                          "cross_file_validation", none⟩])
                      | some relp =>
                          if !(strContains relp "/_fragments/")
                              && !(PyStr.startsWith relp "_fragments/") then
                            (a.1, a.2 ++ [⟨path, "include must reference _fragments",
                              "cross_file_validation", none⟩])
                          else (a.1 ++ [relp], a.2)
                | _ => (a.1, a.2 ++ [⟨path, "include entries must be strings",
                    "schema_validation", none⟩]))
              ([], [])
        | some _ => ([], [⟨path, "include must be a list of relative file paths",
            "schema_validation", none⟩])
      { acc with includesByFile := setA acc.includesByFile path incsR.1,
                 errors := acc.errors ++ incsR.2 }
  | (some _, none) =>
      { acc with errors := acc.errors ++ [⟨path, "YAML root must be a mapping",
          "schema_validation", none⟩] }
  | (none, none) => acc

/- `extends` graph build over the raw documents, in file order. -/
def buildGraph (rawDocs : List (String × YMap)) :
    List (String × List String) × List (String × List String) × List RecipeError :=
  rawDocs.foldl
    (fun (acc : List (String × List String) × List (String × List String) × List RecipeError)
        pd =>
      let dm := pd.2
      let ridTruthy :=
        match dm.lookup "id" with
        | some v => !v.falsy
        | none => false
      if !ridTruthy then acc
      else
        let ridS := pyStrOf ((dm.lookup "id").getD .null)
        let parentsR : List String × List RecipeError :=
          match dm.lookup "extends" with
          | none => ([], [])
          | some (.s e) => ([e], [])
          | some (.list l) =>
              match ylistStrings l with
              | some ss => (ss, [])
              | none => ([], [⟨pd.1, "extends must be string or list of strings",
                  "schema_validation", none⟩])
          | some _ => ([], [⟨pd.1, "extends must be string or list of strings",
              "schema_validation", none⟩])
        let g2 := setA acc.1 ridS parentsR.1
        let grev2 := parentsR.1.foldl (fun gr p => addToSetAssoc gr p ridS) acc.2.1
        (g2, grev2, acc.2.2 ++ parentsR.2))
    ([], [], [])

/-! ### Cycle detection (`_detect_cycles`, white/gray/black DFS) -/

structure DfsSt where
  temp : List String
  perm : List String
  stack : List String
  cycles : List (List String)

def dfsVisit (graph : List (String × List String)) : Nat → String → DfsSt → DfsSt
  | 0, _, st => st
  | fuel + 1, n, st =>
      if st.perm.contains n then st
      else if st.temp.contains n then
        if st.stack.contains n then
          let i := st.stack.indexOf n
          { st with cycles := st.cycles ++ [st.stack.drop i ++ [n]] }
        else st
      else
        let st1 := { st with temp := st.temp ++ [n], stack := st.stack ++ [n] }
        let st2 := ((List.lookup n graph).getD []).foldl (fun s m => dfsVisit graph fuel m s) st1
        { st2 with stack := st2.stack.dropLast,
                   temp := st2.temp.filter (fun x => x ≠ n),
                   perm := st2.perm ++ [n] }

def _detect_cycles (graph : List (String × List String)) : List (List String) :=
  let fuel := graph.length + (graph.foldl (fun a kv => a + kv.2.length) 0) + 1
  (graph.foldl (fun st kv => dfsVisit graph fuel kv.1 st) ⟨[], [], [], []⟩).cycles

/-! ### Kahn toposort over the full `extends` graph -/

def bumpAssoc (l : List (String × Nat)) (k : String) : List (String × Nat) :=
  setA l k ((List.lookup k l).getD 0 + 1)

/- The `while queue` loop: pop front, skip visited, append to order,
   decrement children (`max(0, get(child, 1) - 1)` is Nat subtraction),
   enqueue new zeros. Fuel bounds the pops; the chosen fuel covers the
   initial queue plus every possible enqueue. -/
def kahnLoopFull (idGraphRev : List (String × List String)) :
    Nat → List String → List (String × Nat) → List String → List String →
    List String × List (String × Nat)
  | 0, _, indeg, _, order => (order, indeg)
  | _ + 1, [], indeg, _, order => (order, indeg)
  | fuel + 1, n :: rest, indeg, visited, order =>
      if visited.contains n then kahnLoopFull idGraphRev fuel rest indeg visited order
      else
        let children := (List.lookup n idGraphRev).getD []
        let step := children.foldl
          (fun (acc : List (String × Nat) × List String) child =>
            let d := (List.lookup child acc.1).getD 1
            let ind2 := setA acc.1 child (d - 1)
            if ((List.lookup child ind2).getD 0) = 0 then (ind2, acc.2 ++ [child])
            else (ind2, acc.2))
          (indeg, rest)
        kahnLoopFull idGraphRev fuel step.2 step.1 (visited ++ [n]) (order ++ [n])

def kahnFull (idGraph idGraphRev : List (String × List String))
    (idToFile : List (String × String)) : List String × List (String × Nat) :=
  let indeg0 := idGraph.map (fun kv => (kv.1, 0))
  let indeg1 := idGraph.foldl
    (fun ind kv => kv.2.foldl (fun ind2 _ => bumpAssoc ind2 kv.1) ind) indeg0
  let queue0 := (indeg1.filter (fun kv => kv.2 = 0)).map Prod.fst
  let seeded := idToFile.foldl
    (fun (acc : List (String × Nat) × List String) kv =>
      if (List.lookup kv.1 acc.1).isSome then acc
      else (setA acc.1 kv.1 0, acc.2 ++ [kv.1]))
    (indeg1, queue0)
  let revTotal := idGraphRev.foldl (fun a kv => a + kv.2.length) 0
  kahnLoopFull idGraphRev (seeded.2.length + revTotal + 1) seeded.2 seeded.1 [] []

/-! ### The compile loop and state swap of `ensure_loaded` -/

structure CompileSt where
  errors : List RecipeError
  compiledById : List (String × YMap)
  outModels : List RecipeModel
  lkg : List (String × YMap)
deriving Repr

def compileLoopStep (w : World) (strict : Bool) (scan : ScanAcc)
    (idGraph : List (String × List String)) (indegFinal : List (String × Nat))
    (st : CompileSt) (rid : String) : CompileSt :=
  if (List.lookup rid scan.duplicates).isSome then st
  else
    match List.lookup rid scan.idToFile with
    | none => st
    | some file_path =>
        let raw := (List.lookup file_path scan.rawDocs).getD .nil
        let parents := (List.lookup rid idGraph).getD []
        let includes := (List.lookup file_path scan.includesByFile).getD []
        match compileOne w strict scan.idToFile st.compiledById parents includes raw rid file_path with
        | (model_input, modelOpt, block0, newErrs) =>
            match modelOpt with
            | none => { st with errors := st.errors ++ newErrs }
            | some model =>
                let inCycle := 0 < ((List.lookup rid indegFinal).getD 0)
                let cycErrs :=
                  if inCycle then
                    [(⟨file_path, "recipe is part of an extends cycle",
                      "cross_file_validation", none⟩ : RecipeError)]
                  else []
                let block := block0 || (inCycle && strict)
                let errs := st.errors ++ newErrs ++ cycErrs
                if block then
                  if !strict then
                    match List.lookup rid st.lkg with
                    | some lkgv =>
                        { errors := errs,
                          compiledById := setA st.compiledById rid lkgv,
                          outModels :=
                            match mkRecipeModel lkgv with
                            | some mdl => st.outModels ++ [mdl]
                            | none => st.outModels,
                          lkg := st.lkg }
                    | none => { st with errors := errs }
                  else { st with errors := errs }
                else
                  { errors := errs,
                    compiledById := setA st.compiledById rid model_input,
                    outModels := st.outModels ++ [model],
                    lkg := setA st.lkg rid model_input }

structure FullReload where
  scan : ScanAcc
  idGraph : List (String × List String)
  idGraphRev : List (String × List String)
  order : List String
  indegFinal : List (String × Nat)
  compile : CompileSt
deriving Repr

def fullReload (w : World) (st : CacheState) : FullReload :=
  let strict := w.strict
  let scan := w.scanFilesResult.foldl (processFile w) ⟨[], [], [], [], [], [], []⟩
  let gb := buildGraph scan.rawDocs
  let idGraph := gb.1
  let idGraphRev := gb.2.1
  let dupErrs := scan.duplicates.map
    (fun kv => (⟨(Planner.sortStrings (Planner._dedup_preserve_order kv.2)).headD "",
      "duplicate id", "cross_file_validation", none⟩ : RecipeError))
  let cycErrs := (_detect_cycles idGraph).map
    (fun cyc =>
      let rid0 := cyc.headD ""
      let f0 := (List.lookup rid0 scan.idToFile).getD
        (((scan.definesByFile.head?).map Prod.fst).getD w.recipesDir)
      (⟨f0, "extends cycle detected", "cross_file_validation", none⟩ : RecipeError))
  let preErrs := scan.errors ++ gb.2.2 ++ dupErrs ++ cycErrs
  let kahn := kahnFull idGraph idGraphRev scan.idToFile
  let order := kahn.1
  let indegFinal := kahn.2
  let compiled := order.foldl (compileLoopStep w strict scan idGraph indegFinal)
    ⟨preErrs, [], [], st.lastKnownGoodById⟩
  ⟨scan, idGraph, idGraphRev, order, indegFinal, compiled⟩

def _need_reload (w : World) (st : CacheState) : Bool :=
  let files := w.scanFilesResult
  let changed := files.any
    (fun p => !(List.lookup p st.mtimes == some ((w.mtimeNs p).getD 0)))
  let removed := st.mtimes.any (fun kv => !(files.contains kv.1))
  changed || removed || (st.recipes.isEmpty && !files.isEmpty)

def ensure_loaded (w : World) (st : CacheState) (force : Bool) :
    CacheState × List RecipeModel × List RecipeError :=
  if !force && !(_need_reload w st) then (st, st.recipes, st.errors)
  else
    let fr := fullReload w st
    let st' :=
      if !fr.compile.outModels.isEmpty then
        { recipes := fr.compile.outModels,
          errors := fr.compile.errors,
          mtimes := fr.scan.mtimes,
          rawDocsByFile := fr.scan.rawDocs,
          definesByFile := fr.scan.definesByFile,
          includesByFile := fr.scan.includesByFile,
          idToFile := fr.scan.idToFile,
          idGraph := fr.idGraph,
          idGraphRev := fr.idGraphRev,
          compiledById := fr.compile.compiledById,
          lastKnownGoodById := fr.compile.lkg,
          lastLoadedNs := w.nowNs }
      else
        { st with errors := fr.compile.errors,
                  lastKnownGoodById := fr.compile.lkg,
                  lastLoadedNs := w.nowNs }
    (st', st'.recipes, st'.errors)

/-! ### Incremental reload (`apply_fs_events`) -/

/- `os.path.join(recipes_dir_abs, "_fragments") + os.sep` -/
def fragsPrefixOf (w : World) : String := resolveAbs w.recipesDir ++ "/_fragments/"

/- The partition loop over the changed `.yaml` paths; `none` models the
   early `return self.ensure_loaded(force=True)` on a missing or
   non-fragment path, otherwise the insertion-ordered set of changed
   fragment paths. -/
def fragsGo (w : World) (pfx : String) : List String → List String → Option (List String)
  | [], acc => some acc
  | p :: ps, acc =>
      if !(w.pathExists p) then none
      else if PyStr.startsWith p pfx then
        fragsGo w pfx ps (if acc.contains p then acc else acc ++ [p])
      else none

/- `rev_includes`: fragment rel path -> set of including recipe files. -/
def revIncludesOf (includesByFile : List (String × List String)) :
    List (String × List String) :=
  includesByFile.foldl
    (fun rv kv => kv.2.foldl (fun rv2 rel => addToSetAssoc rv2 rel kv.1) rv) []

def impactedFilesOf (w : World) (rv : List (String × List String)) (frags : List String) :
    List String :=
  frags.foldl
    (fun acc frag =>
      match relTo (resolveAbs w.recipesDir) frag with
      | none => acc
      | some rel =>
          ((List.lookup rel rv).getD []).foldl
            (fun a rf => if a.contains rf then a else a ++ [rf]) acc)
    []

def seedsOf (definesByFile : List (String × List String)) (files : List String) :
    List String :=
  files.foldl
    (fun acc f =>
      ((List.lookup f definesByFile).getD []).foldl
        (fun a rid => if a.contains rid then a else a ++ [rid]) acc)
    []

/- Breadth-first closure of the impacted id set over the reverse
   `extends` graph (`while queue: ... for child in rev.get(cur, set())`).
   The fuel covers the initial queue plus one pop and one enqueue per
   possible new member. -/
def bfsFold : List String → List String × List String → List String × List String
  | [], a => a
  | c :: cs, a =>
      bfsFold cs (if a.2.contains c then a else (a.1 ++ [c], a.2 ++ [c]))

def bfsGo (rev : List (String × List String)) :
    Nat → List String → List String → List String
  | 0, _, s => s
  | _ + 1, [], s => s
  | fuel + 1, cur :: q, s =>
      let step := bfsFold ((List.lookup cur rev).getD []) (q, s)
      bfsGo rev fuel step.1 step.2

def bfsFuel (rev : List (String × List String)) (seeds : List String) : Nat :=
  let univ := (seeds ++ rev.foldl (fun (a : List String) kv => a ++ kv.2) []).dedup
  seeds.length
    + univ.foldl (fun a x => a + 1 + ((List.lookup x rev).getD []).length) 0 + 1

def bfsClosure (rev : List (String × List String)) (seeds : List String) : List String :=
  bfsGo rev (bfsFuel rev seeds) seeds seeds

/- Fuel accounting for the two worklist loops: each worklist entry costs
   one pop, each potential new member one enqueue plus its children
   scan. -/
def weightSum (rev : List (String × List String)) (xs : List String) : Nat :=
  xs.foldl (fun a x => a + 1 + ((List.lookup x rev).getD []).length) 0

def bfsPotential (rev : List (String × List String)) (univ queue s : List String) : Nat :=
  queue.length + weightSum rev (univ.filter (fun x => !(s.contains x)))

/- The `while queue2` loop restricted to the impacted subgraph: pop, skip
   visited, record order, decrement children that are impacted keys
   (`max(0, get(child, 1) - 1)` is Nat subtraction), enqueue new zeros. -/
def kahnFold : List String → List (String × Nat) × List String →
    List (String × Nat) × List String
  | [], a => a
  | c :: cs, a =>
      kahnFold cs
        (if (List.lookup c a.1).isSome then
          let d := (List.lookup c a.1).getD 1
          let ind2 := setA a.1 c (d - 1)
          if ((List.lookup c ind2).getD 0) = 0 then (ind2, a.2 ++ [c]) else (ind2, a.2)
        else a)

def kahnSubLoop (rev : List (String × List String)) :
    Nat → List String → List (String × Nat) → List String → List String →
    List String × List (String × Nat)
  | 0, _, indeg, _, order => (order, indeg)
  | _ + 1, [], indeg, _, order => (order, indeg)
  | fuel + 1, n :: rest, indeg, visited, order =>
      if visited.contains n then kahnSubLoop rev fuel rest indeg visited order
      else
        let step := kahnFold ((List.lookup n rev).getD []) (indeg, rest)
        kahnSubLoop rev fuel step.2 step.1 (visited ++ [n]) (order ++ [n])

def subIndegInit (graph : List (String × List String)) (impacted : List String) :
    List (String × Nat) :=
  impacted.foldl
    (fun ind n =>
      ((List.lookup n graph).getD []).foldl
        (fun ind2 p => if impacted.contains p then bumpAssoc ind2 n else ind2) ind)
    (impacted.map (fun n => (n, 0)))

def kahnSubFuel (rev : List (String × List String)) (queue0 impacted : List String) : Nat :=
  queue0.length
    + impacted.foldl (fun a n => a + 1 + ((List.lookup n rev).getD []).length) 0 + 1

def kahnSub (graph rev : List (String × List String)) (impacted : List String) :
    List String × List (String × Nat) :=
  let indeg1 := subIndegInit graph impacted
  let queue0 := (indeg1.filter (fun kv => kv.2 = 0)).map Prod.fst
  kahnSubLoop rev (kahnSubFuel rev queue0 impacted) queue0 indeg1 [] []

structure ApplySt where
  errors : List RecipeError
  compiledById : List (String × YMap)
  lkg : List (String × YMap)
deriving Repr

/- The per-id body of `apply_fs_events`' recompile loop: same compile
   pipeline as `ensure_loaded` (shared here through `compileOne`), no
   duplicate or cycle bookkeeping, no output-model list; a blocked
   non-strict id falls back to its last-known-good compiled document. -/
def applyStep (w : World) (strict : Bool) (idToFile : List (String × String))
    (idGraph includesByFile : List (String × List String))
    (rawDocs : List (String × YMap)) (st : ApplySt) (rid : String) : ApplySt :=
  match List.lookup rid idToFile with
  | none => st
  | some fp =>
      if fp = "" then st
      else
        let raw := (List.lookup fp rawDocs).getD .nil
        let parents := (List.lookup rid idGraph).getD []
        let includes := (List.lookup fp includesByFile).getD []
        match compileOne w strict idToFile st.compiledById parents includes raw rid fp with
        | (model_input, modelOpt, block, newErrs) =>
            match modelOpt with
            | none => { st with errors := st.errors ++ newErrs }
            | some _ =>
                if block then
                  if !strict then
                    match List.lookup rid st.lkg with
                    | some lkgv =>
                        { st with errors := st.errors ++ newErrs,
                                  compiledById := setA st.compiledById rid lkgv }
                    | none => { st with errors := st.errors ++ newErrs }
                  else { st with errors := st.errors ++ newErrs }
                else
                  { errors := st.errors ++ newErrs,
                    compiledById := setA st.compiledById rid model_input,
                    lkg := setA st.lkg rid model_input }

/- `apply_fs_events`: non-`.yaml` changed paths are dropped by the
   normalisation filter; a missing or non-fragment `.yaml` path degrades
   to a forced full reload; an all-dropped or no-impact change returns
   the current snapshot unchanged; otherwise the impacted ids (ids
   defined in files including a changed fragment, closed over the
   reverse `extends` graph) are recompiled in restricted topological
   order, the model list is rebuilt preserving load order, and errors
   tied to impacted or changed files are replaced. -/
def apply_fs_events (w : World) (st : CacheState) (changed_paths : List String) :
    CacheState × List RecipeModel × List RecipeError :=
  if st.compiledById.isEmpty then ensure_loaded w st true
  else
    let absChanged := (changed_paths.filter (fun p => PyStr.endsWith p ".yaml")).map resolveAbs
    if absChanged.isEmpty then (st, st.recipes, st.errors)
    else
      match fragsGo w (fragsPrefixOf w) absChanged [] with
      | none => ensure_loaded w st true
      | some changedFragments =>
          if changedFragments.isEmpty then (st, st.recipes, st.errors)
          else
            let rv := revIncludesOf st.includesByFile
            let impactedFiles := impactedFilesOf w rv changedFragments
            if impactedFiles.isEmpty then (st, st.recipes, st.errors)
            else
              let seeds := seedsOf st.definesByFile impactedFiles
              let impactedIds := bfsClosure st.idGraphRev seeds
              if impactedIds.isEmpty then (st, st.recipes, st.errors)
              else
                let kahn := kahnSub st.idGraph st.idGraphRev impactedIds
                if kahn.2.any (fun kv => 0 < kv.2) then ensure_loaded w st true
                else
                  let res := kahn.1.foldl
                    (applyStep w w.strict st.idToFile st.idGraph st.includesByFile
                      st.rawDocsByFile)
                    ⟨[], st.compiledById, st.lastKnownGoodById⟩
                  let idToModel0 := st.recipes.foldl (fun m r => setA m r.id r) []
                  let idToModel := impactedIds.foldl
                    (fun m rid =>
                      match List.lookup rid res.compiledById with
                      | some data =>
                          if data = YMap.nil then m
                          else
                            match mkRecipeModel data with
                            | some mdl => setA m rid mdl
                            | none => m
                      | none => m)
                    idToModel0
                  let pass1 := (st.recipes.map (fun r => r.id)).foldl
                    (fun (a : List RecipeModel × List String) rid =>
                      match List.lookup rid idToModel with
                      | some mdl =>
                          (a.1 ++ [mdl], if a.2.contains rid then a.2 else a.2 ++ [rid])
                      | none => a)
                    ([], [])
                  let newList := res.compiledById.foldl
                    (fun (a : List RecipeModel × List String) kv =>
                      if a.2.contains kv.1 then a
                      else
                        match mkRecipeModel kv.2 with
                        | some mdl => (a.1 ++ [mdl], a.2 ++ [kv.1])
                        | none => a)
                    pass1
                  let impactedFileSet := impactedFiles ++ changedFragments
                  let preserved := st.errors.filter
                    (fun e => !(impactedFileSet.contains e.file_path))
                  let st' := { st with
                    recipes := newList.1,
                    errors := preserved ++ res.errors,
                    compiledById := res.compiledById,
                    lastKnownGoodById := res.lkg,
                    lastLoadedNs := w.nowNs }
                  (st', st'.recipes, st'.errors)

end Recipes

/- Concrete world for the C7 loader claims: an oversized file, an
   unreadable file, a sequence-rooted file, and a `false`-rooted fragment. -/
def wC7 : Recipes.World :=
  { recipesDir := "/r",
    scanFilesResult := ["/r/big.yaml", "/r/io.yaml", "/r/seq.yaml", "/r/_fragments/f.yaml"],
    statSize := fun p => if p = "/r/big.yaml" then some 1000000 else some 10,
    mtimeNs := fun _ => some 1,
    readYaml := fun p =>
      if p = "/r/io.yaml" then .ioErr "permission denied"
      else if p = "/r/seq.yaml" then .ok (.list (.cons (.i 1) .nil))
      else if p = "/r/_fragments/f.yaml" then .ok (.b false)
      else .ok (.map .nil),
    pathExists := fun _ => true,
    env := fun _ => none,
    dotenvValues := fun _ => none,
    maxFileSize := 262144,
    jsonValidator := none,
    nowNs := 0 }

/- C1's concrete example documents: a parent defining `operators` and a
   child that both overrides `operators` and appends via `operators+`. -/
def parentC1 : YMap := YMap.ofList
  [("id", .s "chatgpt.coding.base"),
   ("assistant", .s "chatgpt"), ("category", .s "coding"),
   ("operators", .list (YList.ofList [.s "role_hdr", .s "constraints"]))]

def childC1 : YMap := YMap.ofList
  [("id", .s "chatgpt.coding.child"),
   ("extends", .s "chatgpt.coding.base"),
   ("operators", .list (YList.ofList [.s "io_format"])),
   ("operators+", .list (YList.ofList [.s "quality_bar"]))]

/- Concrete world for the C3 swap-guard witness: one valid recipe file. -/
def wC3 : Recipes.World :=
  { recipesDir := "/r",
    scanFilesResult := ["/r/a.yaml"],
    statSize := fun _ => some 10,
    mtimeNs := fun _ => some 1,
    readYaml := fun _ => .ok (.map (YMap.ofList
      [("id", .s "chatgpt.coding.baseline"),
       ("assistant", .s "chatgpt"), ("category", .s "coding"),
       ("operators", .list (YList.ofList [.s "role_hdr"]))])),
    pathExists := fun _ => true,
    env := fun _ => none,
    dotenvValues := fun _ => none,
    maxFileSize := 262144,
    jsonValidator := none,
    nowNs := 7 }

/- Worlds for the C2 incremental-reload claims: `wC2A` is the initially
   loaded state of the world; in `wC2B` the recipe file's content has
   changed on disk (and `README.md` does not exist), so a full reload
   would produce a different compiled recipe list. -/
def wC2A : Recipes.World :=
  { recipesDir := "/r",
    scanFilesResult := ["/r/a.yaml"],
    statSize := fun _ => some 10,
    mtimeNs := fun _ => some 1,
    readYaml := fun _ => .ok (.map (YMap.ofList
      [("id", .s "chatgpt.coding.baseline"),
       ("assistant", .s "chatgpt"), ("category", .s "coding"),
       ("operators", .list (YList.ofList [.s "role_hdr"]))])),
    pathExists := fun p => p = "/r/a.yaml",
    env := fun _ => none,
    dotenvValues := fun _ => none,
    maxFileSize := 262144,
    jsonValidator := none,
    nowNs := 1 }

def wC2B : Recipes.World :=
  { wC2A with
    mtimeNs := fun _ => some 2,
    readYaml := fun _ => .ok (.map (YMap.ofList
      [("id", .s "chatgpt.coding.baseline"),
       ("assistant", .s "chatgpt"), ("category", .s "coding"),
       ("operators", .list (YList.ofList [.s "io_format", .s "constraints"]))])),
    nowNs := 2 }

/- The cache state left by the initial full load of `wC2A`. -/
def stC2 : Recipes.CacheState := (Recipes.ensure_loaded wC2A Recipes.emptyCache true).1

-- ===== THEOREMS =====

namespace Planner

theorem containsEq (l : List String) (a : String) : l.contains a = true ↔ a ∈ l :=
  List.elem_iff

theorem mem_dedupGo (seen l : List String) (a : String) :
    a ∈ dedupGo seen l ↔ a ∈ l ∧ a ∉ seen := by
  induction l generalizing seen with
  | nil => simp [dedupGo]
  | cons x xs ih =>
      by_cases hx : seen.contains x = true
      · have hxs : x ∈ seen := (containsEq _ _).mp hx
        rw [dedupGo, if_pos hx, ih]
        constructor
        · rintro ⟨h1, h2⟩; exact ⟨List.mem_cons_of_mem _ h1, h2⟩
        · rintro ⟨h1, h2⟩
          rcases List.mem_cons.mp h1 with rfl | h
          · exact absurd hxs h2
          · exact ⟨h, h2⟩
      · have hxs : x ∉ seen := fun hm => hx ((containsEq _ _).mpr hm)
        rw [dedupGo, if_neg hx]
        constructor
        · intro hm
          rcases List.mem_cons.mp hm with rfl | hm'
          · exact ⟨List.mem_cons_self _ _, hxs⟩
          · obtain ⟨h1, h2⟩ := (ih (x :: seen)).mp hm'
            exact ⟨List.mem_cons_of_mem _ h1, fun hs => h2 (List.mem_cons_of_mem _ hs)⟩
        · rintro ⟨h1, h2⟩
          rcases List.mem_cons.mp h1 with rfl | h1'
          · exact List.mem_cons_self _ _
          · by_cases hax : a = x
            · exact hax ▸ List.mem_cons_self _ _
            · refine List.mem_cons_of_mem _ ((ih (x :: seen)).mpr ⟨h1', fun hm => ?_⟩)
              rcases List.mem_cons.mp hm with h | h
              · exact hax h
              · exact h2 h

theorem dedupGo_nodup (seen l : List String) : (dedupGo seen l).Nodup := by
  induction l generalizing seen with
  | nil => simp [dedupGo]
  | cons x xs ih =>
      by_cases hx : seen.contains x = true
      · rw [dedupGo, if_pos hx]; exact ih seen
      · rw [dedupGo, if_neg hx]
        refine List.nodup_cons.mpr ⟨fun hm => ?_, ih (x :: seen)⟩
        exact ((mem_dedupGo _ _ _).mp hm).2 (List.mem_cons_self x seen)

theorem dedupGo_congr (seen1 seen2 l : List String)
    (h : ∀ x, x ∈ seen1 ↔ x ∈ seen2) : dedupGo seen1 l = dedupGo seen2 l := by
  induction l generalizing seen1 seen2 with
  | nil => rfl
  | cons x xs ih =>
      have hc : seen1.contains x = seen2.contains x := by
        by_cases hx : x ∈ seen1
        · rw [(containsEq seen1 x).mpr hx, ((containsEq seen2 x).mpr ((h x).mp hx)).symm]
        · have hx2 : x ∉ seen2 := fun hm => hx ((h x).mpr hm)
          have e1 : seen1.contains x = false :=
            Bool.eq_false_iff.mpr (fun hm => hx ((containsEq _ _).mp hm))
          have e2 : seen2.contains x = false :=
            Bool.eq_false_iff.mpr (fun hm => hx2 ((containsEq _ _).mp hm))
          rw [e1, e2]
      rw [dedupGo, dedupGo, hc]
      by_cases hx : seen2.contains x = true
      · rw [if_pos hx, if_pos hx]; exact ih _ _ h
      · rw [if_neg hx, if_neg hx]
        have h' : ∀ y, y ∈ x :: seen1 ↔ y ∈ x :: seen2 := by
          intro y; simp only [List.mem_cons]; rw [h y]
        rw [ih _ _ h']

theorem dedupGo_append (seen l1 l2 : List String) :
    dedupGo seen (l1 ++ l2) = dedupGo seen l1 ++ dedupGo (l1 ++ seen) l2 := by
  induction l1 generalizing seen with
  | nil => simp [dedupGo]
  | cons x xs ih =>
      by_cases hx : seen.contains x = true
      · rw [List.cons_append, dedupGo, if_pos hx, dedupGo, if_pos hx, ih]
        have h' : ∀ y, y ∈ xs ++ seen ↔ y ∈ (x :: xs) ++ seen := by
          intro y
          simp only [List.mem_append, List.mem_cons]
          have hxseen : x ∈ seen := (containsEq _ _).mp hx
          constructor
          · rintro (h | h)
            · exact Or.inl (Or.inr h)
            · exact Or.inr h
          · rintro ((rfl | h) | h)
            · exact Or.inr hxseen
            · exact Or.inl h
            · exact Or.inr h
        rw [dedupGo_congr _ _ l2 h']
      · rw [List.cons_append, dedupGo, if_neg hx, dedupGo, if_neg hx, ih, List.cons_append]
        have h' : ∀ y, y ∈ xs ++ x :: seen ↔ y ∈ (x :: xs) ++ seen := by
          intro y
          simp only [List.mem_append, List.mem_cons]
          tauto
        rw [dedupGo_congr _ _ l2 h']

theorem dedupGo_eq_self (seen l : List String) (hn : l.Nodup)
    (hs : ∀ x ∈ l, x ∉ seen) : dedupGo seen l = l := by
  induction l generalizing seen with
  | nil => rfl
  | cons x xs ih =>
      have hx : seen.contains x ≠ true := fun hm =>
        hs x (List.mem_cons_self x xs) ((containsEq _ _).mp hm)
      rw [dedupGo, if_neg hx]
      have hxs := List.nodup_cons.mp hn
      rw [ih (x :: seen) hxs.2]
      · intro y hy hm
        rcases List.mem_cons.mp hm with rfl | h
        · exact hxs.1 hy
        · exact hs y (List.mem_cons_of_mem _ hy) h

theorem dedupGo_eq_nil (seen l : List String) (hs : ∀ x ∈ l, x ∈ seen) :
    dedupGo seen l = [] := by
  induction l generalizing seen with
  | nil => rfl
  | cons x xs ih =>
      have hx : seen.contains x = true := (containsEq _ _).mpr (hs x (List.mem_cons_self x xs))
      rw [dedupGo, if_pos hx]
      exact ih seen (fun y hy => hs y (List.mem_cons_of_mem _ hy))

end Planner

namespace Planner

theorem filter_ne_if_append (plan : List String) (op : String) :
    (if plan.contains op then plan else plan ++ [op]).filter (fun x => x ≠ op)
      = plan.filter (fun x => x ≠ op) := by
  by_cases h : plan.contains op = true
  · rw [if_pos h]
  · rw [if_neg h, List.filter_append]
    simp

theorem pyInsert_at_length (l : List String) (a : String) :
    pyInsert l l.length a = l ++ [a] := by
  induction l with
  | nil => rfl
  | cons x xs ih => simpa [pyInsert] using ih

theorem pyInsert_mem (l : List String) (i : Nat) (a : String) :
    a ∈ pyInsert l i a := by
  induction l generalizing i with
  | nil => cases i <;> simp [pyInsert]
  | cons x xs ih =>
      cases i with
      | zero => simp [pyInsert]
      | succ n => simpa [pyInsert] using Or.inr (ih n)

theorem reposition_anchor_missing (plan : List String) (op : String) (spec : PySpec)
    (v : String)
    (hk : _parse_position_spec spec = .before v ∨ _parse_position_spec spec = .after v)
    (hv : (plan.filter (fun x => x ≠ op)).contains v = false) :
    _reposition plan op spec = plan.filter (fun x => x ≠ op) ++ [op] := by
  unfold _reposition
  dsimp only
  rw [filter_ne_if_append]
  rcases hk with hk | hk <;>
    simp only [hk, hv, Bool.false_eq_true, if_false, pyInsert_at_length]

theorem reposition_mem (plan : List String) (op : String) (spec : PySpec) :
    op ∈ _reposition plan op spec := by
  unfold _reposition
  dsimp only
  rw [filter_ne_if_append]
  exact pyInsert_mem _ _ _

theorem predNotMem (excludeOps : List String) (x : String) :
    (!(excludeOps.contains x)) = true ↔ x ∉ excludeOps := by
  rw [Bool.not_eq_true']
  constructor
  · intro h hm
    rw [(containsEq _ _).mpr hm] at h
    cases h
  · intro h
    exact Bool.eq_false_iff.mpr (fun hm => h ((containsEq _ _).mp hm))

theorem build_plan_no_inserts (d : OpDirectives) (baseline_ops : List String)
    (h : d.insertAt = []) :
    build_operator_plan d baseline_ops
      = (dedupGo [] (baseline_ops ++ d.includeOps)).filter (fun op => !(d.excludeOps.contains op)) := by
  unfold build_operator_plan _dedup_preserve_order
  rw [h]
  have hfold : sortStrings (([] : List (String × PySpec)).map Prod.fst) = [] := rfl
  rw [hfold]
  set A := dedupGo [] (baseline_ops ++ d.includeOps) with hA
  by_cases he : d.excludeOps.isEmpty = true
  · have hex : d.excludeOps = [] := List.isEmpty_iff.mp he
    simp only [he, if_true, List.foldl_nil]
    have : A.filter (fun op => !(d.excludeOps.contains op)) = A := by
      apply List.filter_eq_self.mpr
      intro a _
      exact (predNotMem _ _).mpr (by simp [hex])
    rw [this]
    exact dedupGo_eq_self [] A (dedupGo_nodup [] _) (by simp)
  · simp only [he, if_false, List.foldl_nil]
    apply dedupGo_eq_self
    · exact (dedupGo_nodup [] _).filter _
    · simp

theorem build_plan_idem_no_inserts (d : OpDirectives) (baseline_ops : List String)
    (h : d.insertAt = []) :
    build_operator_plan d (build_operator_plan d baseline_ops)
      = build_operator_plan d baseline_ops := by
  rw [build_plan_no_inserts d baseline_ops h, build_plan_no_inserts d _ h]
  set pred := fun op => !(d.excludeOps.contains op) with hpred
  set A := dedupGo [] (baseline_ops ++ d.includeOps) with hA
  set P1 := A.filter pred with hP1
  have hP1nodup : P1.Nodup := (dedupGo_nodup [] _).filter _
  have hsplit : dedupGo [] (P1 ++ d.includeOps) = P1 ++ dedupGo P1 d.includeOps := by
    rw [dedupGo_append]
    rw [dedupGo_eq_self [] P1 hP1nodup (by simp)]
    rw [dedupGo_congr (P1 ++ []) P1 _ (by intro y; simp)]
  rw [hsplit, List.filter_append]
  have h1 : P1.filter pred = P1 := by
    apply List.filter_eq_self.mpr
    intro a ha
    exact List.of_mem_filter ha
  have h2 : (dedupGo P1 d.includeOps).filter pred = [] := by
    apply List.filter_eq_nil_iff.mpr
    intro a ha hpa
    obtain ⟨hinc, hnp⟩ := (mem_dedupGo _ _ _).mp ha
    apply hnp
    rw [hP1]
    apply List.mem_filter.mpr
    refine ⟨?_, hpa⟩
    rw [hA]
    rw [mem_dedupGo]
    exact ⟨List.mem_append_right _ hinc, by simp⟩
  rw [h1, h2, List.append_nil]

end Planner

/-- C9: operator-plan uniqueness and (amended) idempotence. For every
directives tree and baseline list the plan returned by
`build_operator_plan` contains no duplicate operator names; re-applying
`build_operator_plan` with the same directives to its own output yields the
same plan whenever the directives carry no `insert_at` entries (with
`insert_at` entries the order can change on re-application, see the
counterexample); an `insert_at` position whose `before:`/`after:` anchor is
not present in the current plan degrades to `end` (the target is appended);
and the repositioned target operator is always a member of the resulting
plan, whether or not it was in the plan before. -/
theorem C9_operator_plan (d : Planner.OpDirectives) (baseline_ops plan : List String)
    (op v : String) (spec : Planner.PySpec) :
    (Planner.build_operator_plan d baseline_ops).Nodup
    ∧ (d.insertAt = [] →
        Planner.build_operator_plan d (Planner.build_operator_plan d baseline_ops)
          = Planner.build_operator_plan d baseline_ops)
    ∧ ((Planner._parse_position_spec spec = .before v
          ∨ Planner._parse_position_spec spec = .after v) →
        (plan.filter (fun x => x ≠ op)).contains v = false →
        Planner._reposition plan op spec = plan.filter (fun x => x ≠ op) ++ [op])
    ∧ op ∈ Planner._reposition plan op spec := by
  refine ⟨Planner.dedupGo_nodup [] _, ?_, ?_, Planner.reposition_mem plan op spec⟩
  · intro h
    exact Planner.build_plan_idem_no_inserts d baseline_ops h
  · intro hk hv
    exact Planner.reposition_anchor_missing plan op spec v hk hv

/-- C9 witness: the amended idempotence and anchor-degradation facts at
concrete inputs, each hypothesis discharged by evaluation. -/
theorem C9_operator_plan_witness :
    Planner.build_operator_plan ⟨["io_format"], ["quality_bar"], []⟩
        (Planner.build_operator_plan ⟨["io_format"], ["quality_bar"], []⟩ ["role_hdr"])
      = Planner.build_operator_plan ⟨["io_format"], ["quality_bar"], []⟩ ["role_hdr"]
    ∧ Planner._reposition ["a", "b"] "c" (.pyStr "after:zz")
      = (["a", "b"].filter (fun x => x ≠ "c")) ++ ["c"] := by
  constructor
  · exact (C9_operator_plan ⟨["io_format"], ["quality_bar"], []⟩ ["role_hdr"] [] "x" "y"
      .pyNone).2.1 rfl
  · exact (C9_operator_plan ⟨[], [], []⟩ [] ["a", "b"] "c" "zz"
      (.pyStr "after:zz")).2.2.1 (Or.inr (by decide)) (by decide)

/-- C9 counterexample: `build_operator_plan` is not idempotent as claimed.
With directives `insert_at = {a: "after:z", z: "start"}` and baseline
`[m, z]`, the first application yields `[z, m, a]` but re-applying the same
directives to that output yields `[z, a, m]`. -/
theorem C9_counterexample :
    Planner.build_operator_plan ⟨[], [], [("a", .pyStr "after:z"), ("z", .pyStr "start")]⟩
        (Planner.build_operator_plan
          ⟨[], [], [("a", .pyStr "after:z"), ("z", .pyStr "start")]⟩ ["m", "z"])
      ≠ Planner.build_operator_plan
          ⟨[], [], [("a", .pyStr "after:z"), ("z", .pyStr "start")]⟩ ["m", "z"] := by
  decide

theorem ratAdd_eq (a b : Rat) : ratAdd a b = a + b := by
  unfold ratAdd
  rw [Rat.divInt_eq_div]
  have ha : (a.den : ℚ) ≠ 0 := Nat.cast_ne_zero.mpr a.den_nz
  have hb : (b.den : ℚ) ≠ 0 := Nat.cast_ne_zero.mpr b.den_nz
  conv_rhs => rw [← Rat.num_div_den a, ← Rat.num_div_den b]
  rw [div_add_div _ _ ha hb]
  push_cast
  ring_nf

theorem ratSub_eq (a b : Rat) : ratSub a b = a - b := by
  unfold ratSub
  rw [Rat.divInt_eq_div]
  have ha : (a.den : ℚ) ≠ 0 := Nat.cast_ne_zero.mpr a.den_nz
  have hb : (b.den : ℚ) ≠ 0 := Nat.cast_ne_zero.mpr b.den_nz
  conv_rhs => rw [← Rat.num_div_den a, ← Rat.num_div_den b]
  rw [div_sub_div _ _ ha hb]
  push_cast
  ring_nf

theorem ratDiv_eq (a b : Rat) : ratDiv a b = a / b := by
  unfold ratDiv
  by_cases hb : b = 0
  · subst hb
    simp [Rat.divInt_eq_div]
  · rw [Rat.divInt_eq_div]
    have ha : (a.den : ℚ) ≠ 0 := Nat.cast_ne_zero.mpr a.den_nz
    have hbd : (b.den : ℚ) ≠ 0 := Nat.cast_ne_zero.mpr b.den_nz
    have hbn : (b.num : ℚ) ≠ 0 := by
      simpa using Rat.num_ne_zero.mpr hb
    conv_rhs => rw [← Rat.num_div_den a, ← Rat.num_div_den b]
    push_cast
    rw [div_div_div_eq]
    ring_nf

theorem ratAbs_eq (q : Rat) : ratAbs q = |q| := by
  unfold ratAbs
  by_cases h : q < 0
  · rw [if_pos h, abs_of_neg h]; rfl
  · rw [if_neg h, abs_of_nonneg (not_lt.mp h)]

/-- C4: bandit cold start. For every candidate list, stats map, epsilon and
config, if some candidate is under-sampled (`sample_count <
min_initial_samples`), `epsilon_greedy_select` returns policy "coldstart",
propensity 1.0, explored true, and picks exactly the member of the
under-sampled subset selected by the rng choice index — uniformly in the
sense that index `j` yields the `j`-th under-sampled candidate, for every
epsilon (the epsilon branch is never consulted). -/
theorem C4_bandit_coldstart (candidates : List RecipeModel) (stats : Bandit.StatsMap)
    (epsilon : Rat) (config : Bandit.BanditConfig) (u : Rat) (j : Nat)
    (hj : j < (Bandit.coldStartSet candidates stats config).length) :
    Bandit.epsilon_greedy_select candidates stats epsilon config ⟨u, j⟩
      = some ((Bandit.coldStartSet candidates stats config).get ⟨j, hj⟩, 1, "coldstart", true)
    ∧ ∀ (rng : Bandit.Rng) (r : RecipeModel) (p : Rat) (pol : String) (ex : Bool),
        Bandit.epsilon_greedy_select candidates stats epsilon config rng = some (r, p, pol, ex) →
        r ∈ Bandit.coldStartSet candidates stats config ∧ p = 1 ∧ pol = "coldstart" ∧ ex = true := by
  have hlen : 0 < (Bandit.coldStartSet candidates stats config).length := Nat.lt_of_le_of_lt (Nat.zero_le j) hj
  have hunder : Bandit.coldStartSet candidates stats config ≠ [] := by
    intro h
    rw [h] at hlen
    exact Nat.lt_irrefl 0 hlen
  have hcand : candidates.isEmpty = false := by
    rcases candidates with _ | ⟨c, cs⟩
    · exact absurd (show Bandit.coldStartSet [] stats config = [] from rfl) hunder
    · rfl
  have hne : (!(Bandit.coldStartSet candidates stats config).isEmpty) = true := by
    rcases h : Bandit.coldStartSet candidates stats config with _ | ⟨c, cs⟩
    · exact absurd h hunder
    · rfl
  constructor
  · unfold Bandit.epsilon_greedy_select
    rw [hcand]
    simp only [Bool.false_eq_true, if_false, hne, if_true]
    rw [Bandit.rchoice, Nat.mod_eq_of_lt hj, List.get?_eq_get hj]
    rfl
  · intro rng r p pol ex hsel
    unfold Bandit.epsilon_greedy_select at hsel
    rw [hcand] at hsel
    simp only [Bool.false_eq_true, if_false, hne, if_true] at hsel
    rw [Bandit.rchoice] at hsel
    have hmod : rng.choiceIdx % (Bandit.coldStartSet candidates stats config).length
        < (Bandit.coldStartSet candidates stats config).length := Nat.mod_lt _ hlen
    rw [List.get?_eq_get hmod] at hsel
    simp only [Option.map_some', Option.some_inj, Prod.mk.injEq] at hsel
    obtain ⟨h1, h2, h3, h4⟩ := hsel
    exact ⟨h1 ▸ List.get_mem _ _ _, h2.symm, h3.symm, h4.symm⟩

/-- C10: for every non-empty candidate list, epsilon in [0,1], and unit
draw in [0,1), the propensity returned by `epsilon_greedy_select` is
strictly positive and at most 1: coldstart returns 1.0; the explore branch
fires only when the draw is below epsilon, so its propensity epsilon
exceeds the nonnegative draw; and when the exploit branch is reached the
draw witnesses epsilon < 1, so 1 - epsilon is positive. A caller dividing
by the propensity never divides by zero. -/
theorem C10_propensity_bounds (candidates : List RecipeModel) (stats : Bandit.StatsMap)
    (epsilon : Rat) (config : Bandit.BanditConfig) (rng : Bandit.Rng)
    (h0 : 0 ≤ epsilon) (h1 : epsilon ≤ 1) (hu0 : 0 ≤ rng.unitDraw) (hu1 : rng.unitDraw < 1)
    (r : RecipeModel) (p : Rat) (pol : String) (ex : Bool)
    (hsel : Bandit.epsilon_greedy_select candidates stats epsilon config rng
      = some (r, p, pol, ex)) :
    0 < p ∧ p ≤ 1 := by
  unfold Bandit.epsilon_greedy_select at hsel
  by_cases hc : candidates.isEmpty = true
  · rw [if_pos hc] at hsel; cases hsel
  · rw [if_neg hc] at hsel
    by_cases hcs : (!(Bandit.coldStartSet candidates stats config).isEmpty) = true
    · rw [if_pos hcs] at hsel
      obtain ⟨c, hc1, hc2⟩ := Option.map_eq_some'.mp hsel
      simp only [Prod.mk.injEq] at hc2
      obtain ⟨-, hp, -, -⟩ := hc2
      rw [← hp]
      exact ⟨one_pos, le_refl 1⟩
    · rw [if_neg hcs] at hsel
      by_cases hex : rng.unitDraw < epsilon
      · rw [if_pos hex] at hsel
        obtain ⟨c, hc1, hc2⟩ := Option.map_eq_some'.mp hsel
        simp only [Prod.mk.injEq] at hc2
        obtain ⟨-, hp, -, -⟩ := hc2
        rw [← hp]
        exact ⟨lt_of_le_of_lt hu0 hex, h1⟩
      · rw [if_neg hex] at hsel
        obtain ⟨c, hc1, hc2⟩ := Option.map_eq_some'.mp hsel
        simp only [Prod.mk.injEq] at hc2
        obtain ⟨-, hp, -, -⟩ := hc2
        rw [← hp, ratSub_eq]
        have heps1 : epsilon < 1 := lt_of_le_of_lt (not_lt.mp hex) hu1
        constructor
        · linarith
        · linarith

theorem eligible_mem_iff (candidates : List RecipeModel) (db : Optimizer.FeedbackDb)
    (t : Rat) (r : RecipeModel) (hmem : r ∈ candidates) :
    r ∉ Optimizer._eligible candidates db t ↔
      ((db r.id).take 3).length = 3 ∧ ∀ x ∈ (db r.id).take 3, x < t := by
  have hiff : r ∈ Optimizer._eligible candidates db t ↔
      (!(((db r.id).take 3).length == 3 &&
          ((db r.id).take 3).all (fun rv => decide (rv < t)))) = true := by
    simp only [Optimizer._eligible, Optimizer._last_n_rewards, List.mem_filter]
    constructor
    · rintro ⟨-, h⟩; exact h
    · intro h; exact ⟨hmem, h⟩
  rw [hiff]
  rw [Bool.not_eq_true', Bool.not_eq_false]
  rw [Bool.and_eq_true]
  rw [beq_iff_eq, List.all_eq_true]
  simp only [decide_eq_true_eq]

/-- C6: safety-filter fail-open. Before any selection policy runs,
`_eligible` excludes a candidate exactly when its most recent 3 feedback
rewards (the first three entries of its time-descending reward list) are
all below the 0.2 threshold; if that filter empties the candidate set,
`select_recipe` passes the original unfiltered candidates to
`epsilon_greedy_select` instead of raising, and otherwise passes the
filtered set. -/
theorem C6_safety_fail_open (candidates : List RecipeModel) (db : Optimizer.FeedbackDb)
    (stats : Bandit.StatsMap) (config : Bandit.BanditConfig) (epsilon : Rat)
    (rng : Bandit.Rng) (r : RecipeModel) :
    (r ∈ candidates →
      (r ∉ Optimizer._eligible candidates db (Rat.divInt 2 10) ↔
        ((db r.id).take 3).length = 3 ∧ ∀ x ∈ (db r.id).take 3, x < Rat.divInt 2 10))
    ∧ (Optimizer._eligible candidates db (Rat.divInt 2 10) = [] →
        Bandit.selectRecipeService config db stats candidates epsilon rng
          = Bandit.epsilon_greedy_select candidates stats epsilon config rng)
    ∧ (Optimizer._eligible candidates db (Rat.divInt 2 10) ≠ [] →
        Bandit.selectRecipeService config db stats candidates epsilon rng
          = Bandit.epsilon_greedy_select
              (Optimizer._eligible candidates db (Rat.divInt 2 10)) stats epsilon config rng) := by
  refine ⟨fun hmem => eligible_mem_iff candidates db _ r hmem, ?_, ?_⟩
  · intro h
    unfold Bandit.selectRecipeService
    dsimp only
    rw [h]
    rfl
  · intro h
    unfold Bandit.selectRecipeService
    have : (Optimizer._eligible candidates db (Rat.divInt 2 10)).isEmpty = false := by
      rcases he : Optimizer._eligible candidates db (Rat.divInt 2 10) with _ | ⟨a, b⟩
      · exact absurd he h
      · rfl
    dsimp only
    rw [this]
    rfl

theorem tieTol_pos : 0 < Bandit.tieTol := by decide

theorem exploitStep_some (stats : Bandit.StatsMap) (opt bs : Rat)
    (best : List RecipeModel) (r : RecipeModel) :
    Bandit.exploitStep stats opt (some bs, best) r =
      (if bs + Bandit.tieTol < Bandit._average_for r.id stats opt then
        (some (Bandit._average_for r.id stats opt), [r])
       else if |Bandit._average_for r.id stats opt - bs| ≤ Bandit.tieTol then
        (some bs, best ++ [r])
       else (some bs, best)) := by
  unfold Bandit.exploitStep
  simp only [ratAdd_eq, ratSub_eq, ratAbs_eq]

theorem exploitFold_inv (stats : Bandit.StatsMap) (opt : Rat) :
    ∀ (l : List RecipeModel) (bs : Rat) (best : List RecipeModel),
    best ≠ [] →
    (∀ r ∈ best, |Bandit._average_for r.id stats opt - bs| ≤ Bandit.tieTol) →
    ∃ bs' best',
      l.foldl (Bandit.exploitStep stats opt) (some bs, best) = (some bs', best')
      ∧ bs ≤ bs'
      ∧ best' ≠ []
      ∧ (∀ r ∈ best', r ∈ best ∨ r ∈ l)
      ∧ (∀ r ∈ best', |Bandit._average_for r.id stats opt - bs'| ≤ Bandit.tieTol)
      ∧ (∀ r ∈ l, Bandit._average_for r.id stats opt ≤ bs' + Bandit.tieTol) := by
  intro l
  induction l with
  | nil =>
      intro bs best hne hmem
      exact ⟨bs, best, rfl, le_refl bs, hne, fun r hr => Or.inl hr, hmem, fun r hr => absurd hr (List.not_mem_nil r)⟩
  | cons x xs ih =>
      intro bs best hne hmem
      rw [List.foldl_cons, exploitStep_some]
      by_cases c1 : bs + Bandit.tieTol < Bandit._average_for x.id stats opt
      · rw [if_pos c1]
        obtain ⟨bs', best', hfold, hle, hne', hsub, hbest, hbound⟩ :=
          ih (Bandit._average_for x.id stats opt) [x] (by simp)
            (by
              intro r hr
              rw [List.mem_singleton.mp hr, sub_self, abs_zero]
              exact le_of_lt tieTol_pos)
        refine ⟨bs', best', hfold, ?_, hne', ?_, hbest, ?_⟩
        · have h0 := le_of_lt tieTol_pos
          linarith
        · intro r hr
          rcases hsub r hr with h | h
          · exact Or.inr (List.mem_cons.mpr (Or.inl (List.mem_singleton.mp h)))
          · exact Or.inr (List.mem_cons_of_mem _ h)
        · intro r hr
          rcases List.mem_cons.mp hr with rfl | h
          · have h0 := le_of_lt tieTol_pos
            linarith
          · exact hbound r h
      · rw [if_neg c1]
        by_cases c2 : |Bandit._average_for x.id stats opt - bs| ≤ Bandit.tieTol
        · rw [if_pos c2]
          obtain ⟨bs', best', hfold, hle, hne', hsub, hbest, hbound⟩ :=
            ih bs (best ++ [x]) (by simp)
              (by
                intro r hr
                rcases List.mem_append.mp hr with h | h
                · exact hmem r h
                · rw [List.mem_singleton.mp h]
                  exact c2)
          refine ⟨bs', best', hfold, hle, hne', ?_, hbest, ?_⟩
          · intro r hr
            rcases hsub r hr with h | h
            · rcases List.mem_append.mp h with h' | h'
              · exact Or.inl h'
              · exact Or.inr (List.mem_cons.mpr (Or.inl (List.mem_singleton.mp h')))
            · exact Or.inr (List.mem_cons_of_mem _ h)
          · intro r hr
            rcases List.mem_cons.mp hr with rfl | h
            · have := not_lt.mp c1
              linarith
            · exact hbound r h
        · rw [if_neg c2]
          obtain ⟨bs', best', hfold, hle, hne', hsub, hbest, hbound⟩ := ih bs best hne hmem
          refine ⟨bs', best', hfold, hle, hne', ?_, hbest, ?_⟩
          · intro r hr
            rcases hsub r hr with h | h
            · exact Or.inl h
            · exact Or.inr (List.mem_cons_of_mem _ h)
          · intro r hr
            rcases List.mem_cons.mp hr with rfl | h
            · have := not_lt.mp c1
              linarith
            · exact hbound r h

/-- C5 (amended): bandit exploit. With no cold-start-eligible candidate
and the explore draw not firing, `epsilon_greedy_select` scores each
candidate as reward_sum/sample_count when sample_count > 0 and as
optimistic_initial_value otherwise, returns policy "exploit", propensity
1 - epsilon, explored false, and picks uniformly (by choice index) among a
non-empty tie subset of the candidates computed by a single-pass
running-best scan; every member of that subset scores within 2e-12 (twice
the 1e-12 tolerance) of every candidate's score, but the subset can omit
candidates lying within 1e-12 of the maximum (see the counterexample);
with epsilon = 0 and stats giving x mean 0.7 and y mean 0.6, x is chosen
on every trial (witness). -/
theorem C5_exploit_amended (candidates : List RecipeModel) (stats : Bandit.StatsMap)
    (epsilon : Rat) (config : Bandit.BanditConfig) (rng : Bandit.Rng)
    (hcold : Bandit.coldStartSet candidates stats config = [])
    (hex : ¬ rng.unitDraw < epsilon) :
    (Bandit.epsilon_greedy_select candidates stats epsilon config rng
      = (Bandit.rchoice rng.choiceIdx (Bandit.exploitPool candidates stats config)).map
          (fun c => (c, ratSub 1 epsilon, "exploit", false)))
    ∧ (candidates ≠ [] → Bandit.exploitPool candidates stats config ≠ []
        ∧ ∀ r ∈ Bandit.exploitPool candidates stats config, r ∈ candidates)
    ∧ (∀ r ∈ Bandit.exploitPool candidates stats config, ∀ q ∈ candidates,
        Bandit._average_for q.id stats config.optimistic_initial_value
          ≤ Bandit._average_for r.id stats config.optimistic_initial_value
            + 2 * Bandit.tieTol)
    ∧ (∀ rid s, List.lookup rid stats = some s → s.isEmpty = false →
        0 < Bandit.innerGet s "sample_count" 0 →
        Bandit._average_for rid stats config.optimistic_initial_value
          = Bandit.innerGet s "reward_sum" 0 / Bandit.innerGet s "sample_count" 0)
    ∧ (∀ rid s, List.lookup rid stats = some s → ¬ 0 < Bandit.innerGet s "sample_count" 0 →
        Bandit._average_for rid stats config.optimistic_initial_value
          = config.optimistic_initial_value)
    ∧ (∀ rid, List.lookup rid stats = none →
        Bandit._average_for rid stats config.optimistic_initial_value
          = config.optimistic_initial_value) := by
  refine ⟨?_, ?_, ?_, ?_, ?_, ?_⟩
  · by_cases hc : candidates.isEmpty = true
    · have hnil : candidates = [] := List.isEmpty_iff.mp hc
      subst hnil
      rfl
    · unfold Bandit.epsilon_greedy_select
      rw [if_neg hc]
      dsimp only
      have h1 : (!(Bandit.coldStartSet candidates stats config).isEmpty) = false := by
        rw [hcold]; rfl
      rw [h1]
      simp only [Bool.false_eq_true, if_false]
      rw [if_neg hex]
  · intro hne
    rcases candidates with _ | ⟨c, cs⟩
    · exact absurd rfl hne
    · obtain ⟨bs', best', hfold, hle, hne', hsub, hbest, hbound⟩ :=
        exploitFold_inv stats config.optimistic_initial_value cs
          (Bandit._average_for c.id stats config.optimistic_initial_value) [c]
          (by simp)
          (by
            intro r hr
            rw [List.mem_singleton.mp hr, sub_self, abs_zero]
            exact le_of_lt tieTol_pos)
      have hpool : Bandit.exploitPool (c :: cs) stats config = best' := by
        unfold Bandit.exploitPool
        dsimp only
        rw [List.foldl_cons]
        have hstep0 : Bandit.exploitStep stats config.optimistic_initial_value (none, []) c
            = (some (Bandit._average_for c.id stats config.optimistic_initial_value), [c]) := rfl
        rw [hstep0, hfold]
        have : best'.isEmpty = false := by
          rcases hb : best' with _ | ⟨b, bb⟩
          · exact absurd hb hne'
          · rfl
        rw [this]
        rfl
      rw [hpool]
      refine ⟨hne', fun r hr => ?_⟩
      rcases hsub r hr with h | h
      · exact List.mem_cons.mpr (Or.inl (List.mem_singleton.mp h))
      · exact List.mem_cons_of_mem _ h
  · rcases candidates with _ | ⟨c, cs⟩
    · intro r hr
      have hpool : Bandit.exploitPool [] stats config = [] := rfl
      rw [hpool] at hr
      exact absurd hr (List.not_mem_nil r)
    · obtain ⟨bs', best', hfold, hle, hne', hsub, hbest, hbound⟩ :=
        exploitFold_inv stats config.optimistic_initial_value cs
          (Bandit._average_for c.id stats config.optimistic_initial_value) [c]
          (by simp)
          (by
            intro r hr
            rw [List.mem_singleton.mp hr, sub_self, abs_zero]
            exact le_of_lt tieTol_pos)
      have hpool : Bandit.exploitPool (c :: cs) stats config = best' := by
        unfold Bandit.exploitPool
        dsimp only
        rw [List.foldl_cons]
        have hstep0 : Bandit.exploitStep stats config.optimistic_initial_value (none, []) c
            = (some (Bandit._average_for c.id stats config.optimistic_initial_value), [c]) := rfl
        rw [hstep0, hfold]
        have : best'.isEmpty = false := by
          rcases hb : best' with _ | ⟨b, bb⟩
          · exact absurd hb hne'
          · rfl
        rw [this]
        rfl
      intro r hr q hq
      rw [hpool] at hr
      have hrabs := hbest r hr
      have hrlow : bs' - Bandit.tieTol ≤ Bandit._average_for r.id stats config.optimistic_initial_value := by
        have := abs_le.mp hrabs
        linarith [this.1]
      have h0 := le_of_lt tieTol_pos
      rcases List.mem_cons.mp hq with rfl | hq'
      · linarith
      · have := hbound q hq'
        linarith
  · intro rid s hs hsne hcnt
    unfold Bandit._average_for
    rw [hs]
    dsimp only
    rw [hsne]
    simp only [Bool.false_eq_true, if_false]
    rw [if_neg (not_le.mpr hcnt), ratDiv_eq]
  · intro rid s hs hcnt
    unfold Bandit._average_for
    rw [hs]
    dsimp only
    by_cases hse : s.isEmpty = true
    · rw [hse]
      rfl
    · rw [Bool.eq_false_iff.mpr hse]
      simp only [Bool.false_eq_true, if_false]
      rw [if_pos (not_lt.mp hcnt)]
  · intro rid hs
    unfold Bandit._average_for
    rw [hs]

/-- C4 witness: with `min_initial_samples = 1`, candidates x (no stats row,
so sample_count 0) and y (5 samples), and epsilon = 1, the selector always
returns x by policy "coldstart". -/
theorem C4_bandit_coldstart_witness :
    Bandit.epsilon_greedy_select [rmX, rmY] statsColdY 1 ⟨1, 0⟩ ⟨Rat.divInt 99 100, 0⟩
      = some (rmX, 1, "coldstart", true) := by
  have h := (C4_bandit_coldstart [rmX, rmY] statsColdY 1 ⟨1, 0⟩ (Rat.divInt 99 100) 0
    (by decide)).1
  rw [h]
  decide

/-- C10 witness: at epsilon 1/2 with unit draw 1/4 the explore branch fires
and its propensity 1/2 lies in (0, 1]. -/
theorem C10_propensity_bounds_witness :
    0 < Rat.divInt 1 2 ∧ Rat.divInt 1 2 ≤ 1 :=
  C10_propensity_bounds [rmX] statsXY (Rat.divInt 1 2) ⟨1, 0⟩ ⟨Rat.divInt 1 4, 0⟩
    (by decide) (by decide) (by decide) (by decide)
    rmX (Rat.divInt 1 2) "explore" true (by decide)

/-- C6 witness: x's last three rewards are all 0.1 < 0.2, so x is excluded,
and since the filtered set [y] is non-empty the service selects over it. -/
theorem C6_safety_fail_open_witness :
    rmX ∉ Optimizer._eligible [rmX, rmY] fdbC6 (Rat.divInt 2 10)
    ∧ Bandit.selectRecipeService ⟨1, 0⟩ fdbC6 statsXY [rmX, rmY] (Rat.divInt 1 2)
        ⟨Rat.divInt 3 4, 0⟩
      = Bandit.epsilon_greedy_select (Optimizer._eligible [rmX, rmY] fdbC6 (Rat.divInt 2 10))
          statsXY (Rat.divInt 1 2) ⟨1, 0⟩ ⟨Rat.divInt 3 4, 0⟩ := by
  constructor
  · exact ((C6_safety_fail_open [rmX, rmY] fdbC6 statsXY ⟨1, 0⟩ (Rat.divInt 1 2)
      ⟨Rat.divInt 3 4, 0⟩ rmX).1 (by decide)).mpr ⟨by decide, by decide⟩
  · exact (C6_safety_fail_open [rmX, rmY] fdbC6 statsXY ⟨1, 0⟩ (Rat.divInt 1 2)
      ⟨Rat.divInt 3 4, 0⟩ rmX).2.2 (by decide)

/-- C5 witness: epsilon 0, stats x mean 0.7 and y mean 0.6: the selector
returns x with policy "exploit" and propensity 1. -/
theorem C5_exploit_amended_witness :
    Bandit.epsilon_greedy_select [rmX, rmY] statsXY 0 ⟨1, 0⟩ ⟨0, 7⟩
      = some (rmX, 1, "exploit", false) := by
  have h := (C5_exploit_amended [rmX, rmY] statsXY 0 ⟨1, 0⟩ ⟨0, 7⟩ (by decide) (by decide)).1
  rw [h]
  decide

/-- C5 counterexample: with scores 0, 0.6e-12 and 1.2e-12 (all sample
counts 1), y scores within the 1e-12 tolerance of the maximum, yet the
code's running-best tie set is [z] alone: the claimed "within tolerance of
the maximum" set differs from the set the code picks from, and y can never
be selected (the selector returns z). -/
theorem C5_counterexample :
    Bandit.specExploitTieSet [rmX, rmY, rmZ] statsDrift 0
        ≠ Bandit.exploitPool [rmX, rmY, rmZ] statsDrift ⟨1, 0⟩
    ∧ rmY ∈ Bandit.specExploitTieSet [rmX, rmY, rmZ] statsDrift 0
    ∧ rmY ∉ Bandit.exploitPool [rmX, rmY, rmZ] statsDrift ⟨1, 0⟩
    ∧ Bandit.epsilon_greedy_select [rmX, rmY, rmZ] statsDrift 0 ⟨1, 0⟩ ⟨0, 1⟩
        = some (rmZ, 1, "exploit", false) := by
  decide

/-- C8: candidate fallback ladder. The five tiers are evaluated in fixed
order and the first non-empty one wins: tier 1 (exact assistant+category)
returns all matches, tiers 2-5 (assistant with ".baseline"-suffixed id,
any recipe for the assistant, any recipe for the category, any recipe at
all) each return only the first match in load order; an empty result with
tier "none" occurs exactly when the compiled recipe list is empty. -/
theorem C8_fallback_ladder (recipes : List RecipeModel) (assistant category : String) :
    (recipes = [] → Recipes.filter_recipes recipes assistant category = ([], "none", []))
    ∧ (recipes ≠ [] → (Recipes.filter_recipes recipes assistant category).1 ≠ []
        ∧ (Recipes.filter_recipes recipes assistant category).2.1 ≠ "none")
    ∧ (Recipes.tierExact recipes assistant category ≠ [] →
        Recipes.filter_recipes recipes assistant category
          = (Recipes.tierExact recipes assistant category, "assistant+category",
              ["tier=assistant+category"]))
    ∧ (Recipes.tierExact recipes assistant category = [] →
        Recipes.tierBaseline recipes assistant ≠ [] →
        Recipes.filter_recipes recipes assistant category
          = ((Recipes.tierBaseline recipes assistant).take 1, "assistant+baseline",
              ["tier=assistant+baseline"]))
    ∧ (Recipes.tierExact recipes assistant category = [] →
        Recipes.tierBaseline recipes assistant = [] →
        Recipes.tierAssistant recipes assistant ≠ [] →
        Recipes.filter_recipes recipes assistant category
          = ((Recipes.tierAssistant recipes assistant).take 1, "assistant+any",
              ["tier=assistant+any"]))
    ∧ (Recipes.tierExact recipes assistant category = [] →
        Recipes.tierBaseline recipes assistant = [] →
        Recipes.tierAssistant recipes assistant = [] →
        Recipes.tierCategory recipes category ≠ [] →
        Recipes.filter_recipes recipes assistant category
          = ((Recipes.tierCategory recipes category).take 1, "any+category",
              ["tier=any+category"]))
    ∧ (Recipes.tierExact recipes assistant category = [] →
        Recipes.tierBaseline recipes assistant = [] →
        Recipes.tierAssistant recipes assistant = [] →
        Recipes.tierCategory recipes category = [] →
        recipes ≠ [] →
        Recipes.filter_recipes recipes assistant category
          = (recipes.take 1, "any+any", ["tier=any+any"]))
    ∧ (((Recipes.filter_recipes recipes assistant category).1 = []
        ∧ (Recipes.filter_recipes recipes assistant category).2.1 = "none") ↔ recipes = []) := by
  have hne : ∀ (l : List RecipeModel), l ≠ [] → l.isEmpty = false := by
    intro l h
    rcases l with _ | ⟨a, b⟩
    · exact absurd rfl h
    · rfl
  have htake : ∀ (l : List RecipeModel), l ≠ [] → l.take 1 ≠ [] := by
    intro l h
    rcases l with _ | ⟨a, b⟩
    · exact absurd rfl h
    · simp
  have hB6 : recipes = [] → Recipes.filter_recipes recipes assistant category = ([], "none", []) := by
    intro h; subst h; rfl
  have hB1 : Recipes.tierExact recipes assistant category ≠ [] →
      Recipes.filter_recipes recipes assistant category
        = (Recipes.tierExact recipes assistant category, "assistant+category",
            ["tier=assistant+category"]) := by
    intro h1
    unfold Recipes.filter_recipes
    simp only [hne _ h1, Bool.not_false, if_true]
  have hB2 : Recipes.tierExact recipes assistant category = [] →
      Recipes.tierBaseline recipes assistant ≠ [] →
      Recipes.filter_recipes recipes assistant category
        = ((Recipes.tierBaseline recipes assistant).take 1, "assistant+baseline",
            ["tier=assistant+baseline"]) := by
    intro h1 h2
    unfold Recipes.filter_recipes
    simp only [h1, List.isEmpty_nil, Bool.not_true, Bool.false_eq_true, if_false,
      hne _ h2, Bool.not_false, if_true]
  have hB3 : Recipes.tierExact recipes assistant category = [] →
      Recipes.tierBaseline recipes assistant = [] →
      Recipes.tierAssistant recipes assistant ≠ [] →
      Recipes.filter_recipes recipes assistant category
        = ((Recipes.tierAssistant recipes assistant).take 1, "assistant+any",
            ["tier=assistant+any"]) := by
    intro h1 h2 h3
    unfold Recipes.filter_recipes
    simp only [h1, h2, List.isEmpty_nil, Bool.not_true, Bool.false_eq_true, if_false,
      hne _ h3, Bool.not_false, if_true]
  have hB4 : Recipes.tierExact recipes assistant category = [] →
      Recipes.tierBaseline recipes assistant = [] →
      Recipes.tierAssistant recipes assistant = [] →
      Recipes.tierCategory recipes category ≠ [] →
      Recipes.filter_recipes recipes assistant category
        = ((Recipes.tierCategory recipes category).take 1, "any+category",
            ["tier=any+category"]) := by
    intro h1 h2 h3 h4
    unfold Recipes.filter_recipes
    simp only [h1, h2, h3, List.isEmpty_nil, Bool.not_true, Bool.false_eq_true, if_false,
      hne _ h4, Bool.not_false, if_true]
  have hB5 : Recipes.tierExact recipes assistant category = [] →
      Recipes.tierBaseline recipes assistant = [] →
      Recipes.tierAssistant recipes assistant = [] →
      Recipes.tierCategory recipes category = [] →
      recipes ≠ [] →
      Recipes.filter_recipes recipes assistant category
        = (recipes.take 1, "any+any", ["tier=any+any"]) := by
    intro h1 h2 h3 h4 h5
    unfold Recipes.filter_recipes
    simp only [h1, h2, h3, h4, List.isEmpty_nil, Bool.not_true, Bool.false_eq_true, if_false,
      hne _ h5, Bool.not_false, if_true]
  have hB0 : recipes ≠ [] → (Recipes.filter_recipes recipes assistant category).1 ≠ []
      ∧ (Recipes.filter_recipes recipes assistant category).2.1 ≠ "none" := by
    intro hrec
    by_cases h1 : Recipes.tierExact recipes assistant category = []
    · by_cases h2 : Recipes.tierBaseline recipes assistant = []
      · by_cases h3 : Recipes.tierAssistant recipes assistant = []
        · by_cases h4 : Recipes.tierCategory recipes category = []
          · rw [hB5 h1 h2 h3 h4 hrec]
            exact ⟨htake _ hrec, by simp⟩
          · rw [hB4 h1 h2 h3 h4]
            exact ⟨htake _ h4, by simp⟩
        · rw [hB3 h1 h2 h3]
          exact ⟨htake _ h3, by simp⟩
      · rw [hB2 h1 h2]
        exact ⟨htake _ h2, by simp⟩
    · rw [hB1 h1]
      exact ⟨h1, by simp⟩
  refine ⟨hB6, hB0, hB1, hB2, hB3, hB4, hB5, ?_⟩
  constructor
  · intro ⟨hc, ht⟩
    by_contra hrec
    exact (hB0 hrec).1 hc
  · intro h
    rw [hB6 h]
    exact ⟨rfl, rfl⟩

/-- C8 witness: a known assistant with an unknown category and only a
baseline-suffixed recipe present returns tier "assistant+baseline" with
that single recipe; and an empty compiled set returns tier "none". -/
theorem C8_fallback_ladder_witness :
    Recipes.filter_recipes [rmBase] "chatgpt" "politics"
      = ([rmBase], "assistant+baseline", ["tier=assistant+baseline"])
    ∧ Recipes.filter_recipes [] "chatgpt" "politics" = ([], "none", []) := by
  constructor
  · have h := (C8_fallback_ladder [rmBase] "chatgpt" "politics").2.2.2.1
      (by decide) (by decide)
    rw [h]
    decide
  · exact (C8_fallback_ladder [] "chatgpt" "politics").1 rfl

/-- C7 (amended): loader totality and error classification. `_parse_yaml`
always returns exactly one of a document or an error (totality of the
embedding stands in for "never raises"); a file whose size exceeds the
limit fails with `security_validation` before any parsing (for every read
outcome); I/O failures fail with `io_error`; a file whose YAML root parses
to a truthy non-mapping value is recorded as a `schema_validation` error
by the scan loop; but a falsy root (null, false, 0, empty string, empty
sequence, empty mapping) is coerced to the empty mapping by the
`safe_load(f) or {}` idiom and accepted (see the counterexample). -/
theorem C7_loader_amended (w : Recipes.World) (path : String) (acc : Recipes.ScanAcc)
    (v : Yaml) (msg : String) :
    ((Recipes._parse_yaml w path).1.isSome ↔ (Recipes._parse_yaml w path).2 = none)
    ∧ (w.maxFileSize < (w.statSize path).getD 0 →
        Recipes._parse_yaml w path
          = (none, some ⟨path, "file too large", "security_validation", none⟩))
    ∧ (¬ w.maxFileSize < (w.statSize path).getD 0 → w.readYaml path = .ioErr msg →
        Recipes._parse_yaml w path = (none, some ⟨path, msg, "io_error", none⟩))
    ∧ (¬ w.maxFileSize < (w.statSize path).getD 0 → w.readYaml path = .ok v →
        v.falsy = false → (∀ m, v ≠ .map m) →
        (Recipes.processFile w acc path).errors
          = acc.errors ++ [⟨path, "YAML root must be a mapping", "schema_validation", none⟩])
    ∧ (¬ w.maxFileSize < (w.statSize path).getD 0 → w.readYaml path = .ok v →
        v.falsy = true →
        Recipes._parse_yaml w path = (some (.map .nil), none)) := by
  refine ⟨?_, ?_, ?_, ?_, ?_⟩
  · by_cases hs : w.maxFileSize < (w.statSize path).getD 0
    · have hp : Recipes._parse_yaml w path
          = (none, some ⟨path, "file too large", "security_validation", none⟩) := by
        unfold Recipes._parse_yaml
        rw [if_pos hs]
      rw [hp]
      simp
    · rcases hr : w.readYaml path with v2 | ⟨m, l⟩ | m | m
      · have hp : Recipes._parse_yaml w path
            = (some (if v2.falsy then Yaml.map .nil else v2), none) := by
          unfold Recipes._parse_yaml
          rw [if_neg hs, hr]
        rw [hp]
        simp
      · have hp : Recipes._parse_yaml w path
            = (none, some ⟨path, m, "yaml_parse", l.map (· + 1)⟩) := by
          unfold Recipes._parse_yaml
          rw [if_neg hs, hr]
        rw [hp]
        simp
      · have hp : Recipes._parse_yaml w path
            = (none, some ⟨path, m, "yaml_parse", none⟩) := by
          unfold Recipes._parse_yaml
          rw [if_neg hs, hr]
        rw [hp]
        simp
      · have hp : Recipes._parse_yaml w path
            = (none, some ⟨path, m, "io_error", none⟩) := by
          unfold Recipes._parse_yaml
          rw [if_neg hs, hr]
        rw [hp]
        simp
  · intro hs
    unfold Recipes._parse_yaml
    rw [if_pos hs]
  · intro hs hio
    unfold Recipes._parse_yaml
    rw [if_neg hs, hio]

  · intro hs hok hfalsy hnm
    unfold Recipes.processFile
    have hp : Recipes._parse_yaml w path = (some v, none) := by
      unfold Recipes._parse_yaml
      rw [if_neg hs, hok]
      dsimp only
      rw [hfalsy]
      rfl
    rw [hp]
    dsimp only
    rcases v with _ | b | i | f | s | xs | kvs
    · rfl
    · rfl
    · rfl
    · rfl
    · rfl
    · rfl
    · exact absurd rfl (hnm kvs)
  · intro hs hok hfalsy
    unfold Recipes._parse_yaml
    rw [if_neg hs, hok]
    dsimp only
    rw [hfalsy]
    rfl

/-- C7 witness: the size guard, the I/O classification, and the truthy
non-mapping root error, each at a concrete file of `wC7`. -/
theorem C7_loader_amended_witness :
    Recipes._parse_yaml wC7 "/r/big.yaml"
      = (none, some ⟨"/r/big.yaml", "file too large", "security_validation", none⟩)
    ∧ Recipes._parse_yaml wC7 "/r/io.yaml"
      = (none, some ⟨"/r/io.yaml", "permission denied", "io_error", none⟩)
    ∧ (Recipes.processFile wC7 ⟨[], [], [], [], [], [], []⟩ "/r/seq.yaml").errors
      = [⟨"/r/seq.yaml", "YAML root must be a mapping", "schema_validation", none⟩] := by
  refine ⟨?_, ?_, ?_⟩
  · exact (C7_loader_amended wC7 "/r/big.yaml" ⟨[], [], [], [], [], [], []⟩ .null "m").2.1
      (by decide)
  · exact (C7_loader_amended wC7 "/r/io.yaml" ⟨[], [], [], [], [], [], []⟩ .null
      "permission denied").2.2.1 (by decide) (by decide)
  · have h := (C7_loader_amended wC7 "/r/seq.yaml" ⟨[], [], [], [], [], [], []⟩
      (.list (.cons (.i 1) .nil)) "m").2.2.2.1 (by decide) (by decide) (by decide)
      (fun m hcon => by cases hcon)
    exact h

/-- C7 counterexample: a file whose YAML root is `false` is not a mapping,
yet the loader coerces it to the empty mapping and the scan loop records
no error at all — the claim's "non-mapping root fails with
schema_validation" does not hold for falsy roots. -/
theorem C7_counterexample :
    wC7.readYaml "/r/_fragments/f.yaml" = .ok (.b false)
    ∧ Recipes._parse_yaml wC7 "/r/_fragments/f.yaml" = (some (.map .nil), none)
    ∧ (Recipes.processFile wC7 ⟨[], [], [], [], [], [], []⟩ "/r/_fragments/f.yaml").errors
      = [] := by
  decide

/- Structural induction for the mutual `YMap`/`YList` types, recursing on
   the map/list spine only (values are not traversed). -/
@[induction_eliminator]
theorem ymapInductionOn {P : YMap → Prop} (nil : P .nil)
    (cons : ∀ (k : String) (v : Yaml) (tl : YMap), P tl → P (.cons k v tl)) :
    ∀ m, P m
  | .nil => nil
  | .cons k v tl => cons k v tl (ymapInductionOn nil cons tl)

@[induction_eliminator]
theorem ylistInductionOn {P : YList → Prop} (nil : P .nil)
    (cons : ∀ (hd : Yaml) (tl : YList), P tl → P (.cons hd tl)) :
    ∀ l, P l
  | .nil => nil
  | .cons hd tl => cons hd tl (ylistInductionOn nil cons tl)

theorem lookup_setKey_self (m : YMap) (k : String) (v : Yaml) :
    (m.setKey k v).lookup k = some v := by
  induction m with
  | nil => simp [YMap.setKey, YMap.lookup]
  | cons k' v' tl ih =>
      by_cases h : k' = k
      · subst h
        simp [YMap.setKey, YMap.lookup]
      · rw [YMap.setKey, if_neg h, YMap.lookup, if_neg h]
        exact ih

theorem lookup_setKey_ne (m : YMap) (k k' : String) (v : Yaml) (h : k' ≠ k) :
    (m.setKey k v).lookup k' = m.lookup k' := by
  induction m with
  | nil =>
      simp only [YMap.setKey, YMap.lookup]
      rw [if_neg (fun hk => h hk.symm)]
  | cons k2 v2 tl ih =>
      by_cases h2 : k2 = k
      · subst h2
        rw [YMap.setKey, if_pos rfl, YMap.lookup, YMap.lookup,
          if_neg (fun hk => h hk.symm), if_neg (fun hk => h hk.symm)]
      · rw [YMap.setKey, if_neg h2, YMap.lookup, YMap.lookup]
        by_cases h3 : k2 = k'
        · rw [if_pos h3, if_pos h3]
        · rw [if_neg h3, if_neg h3]
          exact ih

theorem lookup_removeKey_ne (m : YMap) (k k' : String) (h : k' ≠ k) :
    (m.removeKey k).lookup k' = m.lookup k' := by
  induction m with
  | nil => rfl
  | cons k2 v2 tl ih =>
      by_cases h2 : k2 = k
      · subst h2
        rw [YMap.removeKey, if_pos rfl, YMap.lookup, if_neg (fun hk => h hk.symm)]
      · rw [YMap.removeKey, if_neg h2, YMap.lookup, YMap.lookup]
        by_cases h3 : k2 = k'
        · rw [if_pos h3, if_pos h3]
        · rw [if_neg h3, if_neg h3]
          exact ih

theorem lookup_removeKey_self (m : YMap) (k : String) (hn : m.keyList.Nodup) :
    (m.removeKey k).lookup k = none := by
  induction m with
  | nil => rfl
  | cons k2 v2 tl ih =>
      rw [YMap.keyList, List.nodup_cons] at hn
      by_cases h2 : k2 = k
      · subst h2
        rw [YMap.removeKey, if_pos rfl]
        clear ih
        induction tl with
        | nil => rfl
        | cons k3 v3 tl2 ih2 =>
            rw [YMap.keyList] at hn
            rw [YMap.lookup]
            have h3 : k3 ≠ k2 := by
              intro h
              exact hn.1 (h ▸ List.mem_cons_self _ _)
            rw [if_neg h3]
            exact ih2 ⟨fun hm => hn.1 (List.mem_cons_of_mem _ hm), (List.nodup_cons.mp hn.2).2⟩
      · rw [YMap.removeKey, if_neg h2, YMap.lookup, if_neg h2]
        exact ih hn.2

theorem deep_merge_lookup_absent (overlay : YMap) (k : String)
    (h : overlay.keyList.contains k = false) :
    ∀ base : YMap, (Recipes._deep_merge base overlay).lookup k = base.lookup k := by
  induction overlay with
  | nil => intro base; rfl
  | cons k2 v2 tl ih =>
      intro base
      rw [YMap.keyList] at h
      simp only [List.contains_cons, Bool.or_eq_false_iff, beq_eq_false_iff_ne] at h
      by_cases hc : ∃ m1 m2, base.lookup k2 = some (.map m1) ∧ v2 = .map m2
      · obtain ⟨m1, m2, hl, hveq⟩ := hc
        subst hveq
        rw [Recipes._deep_merge.eq_2 base k2 tl m1 m2 hl]
        rw [ih h.2, lookup_setKey_ne base k2 k _ h.1]
      · rw [Recipes._deep_merge.eq_3 base k2 tl v2 (fun m1 m2 hl hv => hc ⟨m1, m2, hl, hv⟩)]
        rw [ih h.2, lookup_setKey_ne base k2 k _ h.1]

theorem deep_merge_lookup_override (overlay : YMap) (k : String) (v : Yaml)
    (hv : ∀ m2, v ≠ .map m2) :
    ∀ base : YMap, overlay.lookup k = some v → overlay.keyList.Nodup →
    (Recipes._deep_merge base overlay).lookup k = some v := by
  induction overlay with
  | nil => intro base hl _; cases hl
  | cons k2 v2 tl ih =>
      intro base hl hn
      rw [YMap.keyList, List.nodup_cons] at hn
      by_cases h2 : k2 = k
      · subst h2
        rw [YMap.lookup, if_pos rfl] at hl
        injection hl with hveq
        subst hveq
        have hcontains : tl.keyList.contains k2 = false := by
          rcases hc : tl.keyList.contains k2 with _ | _
          · rfl
          · exact absurd ((Planner.containsEq _ _).mp hc) hn.1
        rw [Recipes._deep_merge.eq_3 base k2 tl v2 (fun m1 m2 _ hveq => hv m2 hveq)]
        rw [deep_merge_lookup_absent tl k2 hcontains, lookup_setKey_self]
      · rw [YMap.lookup, if_neg h2] at hl
        by_cases hcm : ∃ m1 m2, base.lookup k2 = some (.map m1) ∧ v2 = .map m2
        · obtain ⟨m1, m2, hl2, hveq⟩ := hcm
          subst hveq
          rw [Recipes._deep_merge.eq_2 base k2 tl m1 m2 hl2]
          exact ih _ hl hn.2
        · rw [Recipes._deep_merge.eq_3 base k2 tl v2 (fun m1 m2 hl2 hv2 => hcm ⟨m1, m2, hl2, hv2⟩)]
          exact ih _ hl hn.2

theorem yamlContainsEq (l : List Yaml) (a : Yaml) : l.contains a = true ↔ a ∈ l :=
  List.elem_iff

theorem ylistDedup_sublist (l : YList) : ∀ seen, (Recipes.ylistDedup seen l).toList.Sublist l.toList := by
  induction l with
  | nil => intro seen; exact List.Sublist.refl _
  | cons x tl ih =>
      intro seen
      rw [Recipes.ylistDedup]
      by_cases h : seen.contains x
      · rw [if_pos h]
        exact (ih seen).trans (List.sublist_cons_self x tl.toList)
      · rw [if_neg h, YList.toList, YList.toList]
        exact (ih (x :: seen)).cons₂ x

theorem ylistDedup_not_mem_seen (l : YList) :
    ∀ seen a, a ∈ (Recipes.ylistDedup seen l).toList → a ∉ seen := by
  induction l with
  | nil => intro seen a h; cases h
  | cons x tl ih =>
      intro seen a h
      rw [Recipes.ylistDedup] at h
      by_cases hc : seen.contains x
      · rw [if_pos hc] at h
        exact ih seen a h
      · rw [if_neg hc, YList.toList] at h
        rcases List.mem_cons.mp h with h1 | h2
        · subst h1
          intro hmem
          exact hc ((yamlContainsEq seen a).mpr hmem)
        · intro hmem
          exact ih (x :: seen) a h2 (List.mem_cons_of_mem x hmem)

theorem ylistDedup_nodup (l : YList) : ∀ seen, (Recipes.ylistDedup seen l).toList.Nodup := by
  induction l with
  | nil => intro seen; exact List.nodup_nil
  | cons x tl ih =>
      intro seen
      rw [Recipes.ylistDedup]
      by_cases hc : seen.contains x
      · rw [if_pos hc]
        exact ih seen
      · rw [if_neg hc, YList.toList]
        refine List.nodup_cons.mpr ⟨?_, ih (x :: seen)⟩
        intro hmem
        exact ylistDedup_not_mem_seen tl (x :: seen) x hmem (List.mem_cons_self x seen)

/-- C1: operator-list algebra of recipe compilation.  (1) When the merged
document holds `operators+` as a list and `operators` as a list, the
operator-plus pass removes the `operators+` key and replaces `operators`
by the inherited list with the plus values appended, deduplicated in
order.  (2) The deduplication keeps order (the result is a sublist of the
concatenation) and is duplicate-free.  (3) A plain `operators` value in
the child document overrides the parent's deep-merged value outright.
(4) The spec's concrete example: a child with `operators: [io_format]`
and `operators+: [quality_bar]` extending a parent with
`operators: [role_hdr, constraints]` compiles to exactly
`["io_format", "quality_bar"]`. -/
theorem C1_operator_algebra :
    (∀ (merged : YMap) (plus baseOps : YList),
        merged.keyList.Nodup →
        merged.lookup "operators+" = some (.list plus) →
        merged.lookup "operators" = some (.list baseOps) →
        (Recipes._apply_operators_plus merged).lookup "operators+" = none
        ∧ (Recipes._apply_operators_plus merged).lookup "operators"
            = some (.list (Recipes.ylistDedup [] (Recipes.ylistAppend baseOps plus))))
    ∧ (∀ (seen : List Yaml) (l : YList),
        (Recipes.ylistDedup seen l).toList.Nodup
        ∧ (Recipes.ylistDedup seen l).toList.Sublist l.toList)
    ∧ (∀ (parent child : YMap) (v : Yaml),
        (∀ m2, v ≠ .map m2) →
        child.lookup "operators" = some v →
        child.keyList.Nodup →
        (Recipes._deep_merge parent child).lookup "operators" = some v)
    ∧ (Recipes._apply_operators_plus
          (Recipes._deep_merge parentC1 (Recipes.dropIncludeExtends childC1))).lookup "operators"
        = some (.list (YList.ofList [.s "io_format", .s "quality_bar"])) := by
  refine ⟨?_, fun seen l => ⟨ylistDedup_nodup l seen, ylistDedup_sublist l seen⟩, ?_, by decide⟩
  · intro merged plus baseOps hn hplus hops
    rw [Recipes._apply_operators_plus, hplus]
    dsimp only
    have hops1 : (merged.removeKey "operators+").lookup "operators"
        = some (Yaml.list baseOps) := by
      rw [lookup_removeKey_ne merged "operators+" "operators" (by decide)]
      exact hops
    rw [hops1]
    constructor
    · rw [lookup_setKey_ne _ "operators" "operators+" _ (by decide)]
      exact lookup_removeKey_self merged "operators+" hn
    · exact lookup_setKey_self _ "operators" _
  · intro parent child v hv hl hn
    exact deep_merge_lookup_override child "operators" v hv parent hl hn

theorem C1_operator_algebra_witness :
    ((Recipes._apply_operators_plus
        (Recipes._deep_merge parentC1 (Recipes.dropIncludeExtends childC1))).lookup "operators+"
      = none)
    ∧ ((Recipes._deep_merge parentC1
          (YMap.ofList [("operators", .list (YList.ofList [.s "io_format"]))])).lookup "operators"
        = some (.list (YList.ofList [.s "io_format"]))) := by
  constructor
  · exact (C1_operator_algebra.1
      (Recipes._deep_merge parentC1 (Recipes.dropIncludeExtends childC1))
      (YList.ofList [.s "quality_bar"])
      (YList.ofList [.s "io_format"])
      (by decide) (by decide) (by decide)).1
  · exact C1_operator_algebra.2.2.1 parentC1
      (YMap.ofList [("operators", .list (YList.ofList [.s "io_format"]))])
      (.list (YList.ofList [.s "io_format"]))
      (fun m2 h => by cases h) (by decide) (by decide)

theorem foldlInv {α β : Type _} (f : β → α → β) (P : β → Prop)
    (hf : ∀ b a, P b → P (f b a)) : ∀ (l : List α) (b : β), P b → P (l.foldl f b) := by
  intro l
  induction l with
  | nil => intro b hb; exact hb
  | cons x xs ih => intro b hb; exact ih (f b x) (hf b x hb)

/- With `VALIDATION_STRICT` unset every error path records the error but
   never sets the blocking flag. -/
theorem compileOne_nonstrict_noblock (w : Recipes.World) (idToFile : List (String × String))
    (compiledById : List (String × YMap)) (parents includes : List String)
    (raw : YMap) (rid file_path : String) :
    (Recipes.compileOne w false idToFile compiledById parents includes raw rid file_path).2.2.1
      = false := by
  unfold Recipes.compileOne
  lift_lets
  extract_lets s1 s2 merged3 merged4 sub merged5 errs5 block5 opsCheck block6 errs6
    model_input asstY catY prefixCheck compatCheck jsEnabled jsCheck block7 errs7
  have hs1 : s1.2.1 = false := by
    unfold s1
    refine foldlInv _ (fun (b : YMap × Bool × List Recipes.RecipeError) => b.2.1 = false)
      ?_ parents _ rfl
    intro b a hb
    cases hl : List.lookup a compiledById <;> simp [hb]
  have hs2 : s2.2.1 = false := by
    unfold s2
    refine foldlInv _ (fun (b : YMap × Bool × List Recipes.RecipeError) => b.2.1 = false)
      ?_ includes _ hs1
    intro b a hb
    rcases hr : Recipes.read_fragment w a file_path with ⟨o, fe⟩
    cases o <;> simp [hr, hb]
  have hb5 : block5 = false := by
    unfold block5
    exact hs2
  have hops : opsCheck.1 = false := by
    unfold opsCheck
    cases hl : merged5.lookup "operators" with
    | none => rfl
    | some y =>
        cases y <;> try rfl
        case list l =>
          refine foldlInv _ (fun (b : Bool × List Recipes.RecipeError) => b.1 = false)
            ?_ l.toList _ rfl
          intro b a hb
          cases a <;> dsimp only <;> try split
          all_goals simp [hb]
  have hb6 : block6 = false := by
    unfold block6
    rw [hb5, hops]
    rfl
  have hpre : prefixCheck.1 = false := by
    unfold prefixCheck
    cases hl : model_input.lookup "id" with
    | none => rfl
    | some y =>
        cases y <;> try rfl
        case s idv =>
          dsimp only
          repeat' split
          all_goals rfl
  have hcompat : compatCheck.1 = false := by
    unfold compatCheck
    refine foldlInv _ (fun (b : Bool × List Recipes.RecipeError) => b.1 = false)
      ?_ parents _ rfl
    intro b a hb
    cases h1 : List.lookup a idToFile <;> cases h2 : List.lookup a compiledById
      <;> dsimp only <;> try split
    all_goals try split
    all_goals simp [hb]
  have hjs : jsCheck.1 = false := by
    unfold jsCheck
    split
    · cases hv : w.jsonValidator with
      | none => rfl
      | some f =>
          dsimp only
          cases hm2 : f model_input <;> rfl
    · rfl
  have hb7 : block7 = false := by
    unfold block7
    rw [hb6, hpre, hcompat, hjs]
    rfl
  cases hm : Recipes.mkRecipeModel model_input with
  | none =>
      dsimp only
      exact hb7
  | some model =>
      dsimp only
      rw [hb7]
      simp only [Bool.false_or, Bool.false_and, Bool.or_false]
      refine foldlInv _ (fun (b : Bool × List Recipes.RecipeError) => b.1 = false)
        ?_ model.examples _ rfl
      intro b a hb
      dsimp only
      split
      · cases hr : Recipes.relTo w.recipesDir (Recipes.pathJoin w.recipesDir a)
          <;> dsimp only <;> try split
        all_goals simp [hb]
      · exact hb

/- Each compile step either leaves the output model list alone or appends
   the model freshly compiled for this id: the last-known-good reuse
   branch requires a blocking error in non-strict mode, and non-strict
   runs never block. -/
theorem compileLoopStep_outModels (w : Recipes.World) (strict : Bool) (scan : Recipes.ScanAcc)
    (idGraph : List (String × List String)) (indegFinal : List (String × Nat))
    (st : Recipes.CompileSt) (rid : String) :
    (Recipes.compileLoopStep w strict scan idGraph indegFinal st rid).outModels = st.outModels
    ∨ ∃ fp model,
        List.lookup rid scan.idToFile = some fp
        ∧ (Recipes.compileOne w strict scan.idToFile st.compiledById
            ((List.lookup rid idGraph).getD []) ((List.lookup fp scan.includesByFile).getD [])
            ((List.lookup fp scan.rawDocs).getD .nil) rid fp).2.1 = some model
        ∧ (Recipes.compileLoopStep w strict scan idGraph indegFinal st rid).outModels
            = st.outModels ++ [model] := by
  unfold Recipes.compileLoopStep
  split
  · exact Or.inl rfl
  · cases hf : List.lookup rid scan.idToFile with
    | none => exact Or.inl rfl
    | some fp =>
        dsimp only
        rcases hco : Recipes.compileOne w strict scan.idToFile st.compiledById
            ((List.lookup rid idGraph).getD []) ((List.lookup fp scan.includesByFile).getD [])
            ((List.lookup fp scan.rawDocs).getD .nil) rid fp with ⟨mi, mo, b0, ne⟩
        dsimp only
        cases mo with
        | none => exact Or.inl rfl
        | some model =>
            dsimp only
            by_cases hs : strict = true
        
            · subst hs
              split
              · exact Or.inl rfl
              · exact Or.inr ⟨fp, model, rfl, by rw [hco], rfl⟩
            · have hsf : strict = false := by
                cases strict
                · rfl
                · exact absurd rfl hs
              subst hsf
              have hb0 : b0 = false := by
                have h := compileOne_nonstrict_noblock w scan.idToFile st.compiledById
                  ((List.lookup rid idGraph).getD []) ((List.lookup fp scan.includesByFile).getD [])
                  ((List.lookup fp scan.rawDocs).getD .nil) rid fp
                rw [hco] at h
                exact h
              subst hb0
              simp only [Bool.and_false, Bool.or_false]
              exact Or.inr ⟨fp, model, rfl, by rw [hco], rfl⟩

/-- C3: full-reload swap guard.  On a reload pass (forced or needed), the
cached recipe list and all graph/compiled-state maps are replaced by the
newly compiled state exactly when the pass produced at least one compiled
model; when it produced none, the returned recipe list and all cached
maps keep their previous values; the error list is replaced by the new
pass's errors in either case.  The final conjunct ties "produced a model"
to "compiled successfully this pass": each compile step either leaves the
output list unchanged or appends the model freshly compiled for its id
(the last-known-good reuse branch is unreachable, because it requires a
blocking error in non-strict mode and non-strict runs never set the
blocking flag). -/
theorem C3_swap_guard (w : Recipes.World) (st : Recipes.CacheState) (force : Bool)
    (hre : (!force && !(Recipes._need_reload w st)) = false) :
    ((Recipes.fullReload w st).compile.outModels ≠ [] →
        (Recipes.ensure_loaded w st force).1.recipes = (Recipes.fullReload w st).compile.outModels
      ∧ (Recipes.ensure_loaded w st force).1.mtimes = (Recipes.fullReload w st).scan.mtimes
      ∧ (Recipes.ensure_loaded w st force).1.rawDocsByFile
          = (Recipes.fullReload w st).scan.rawDocs
      ∧ (Recipes.ensure_loaded w st force).1.definesByFile
          = (Recipes.fullReload w st).scan.definesByFile
      ∧ (Recipes.ensure_loaded w st force).1.includesByFile
          = (Recipes.fullReload w st).scan.includesByFile
      ∧ (Recipes.ensure_loaded w st force).1.idToFile = (Recipes.fullReload w st).scan.idToFile
      ∧ (Recipes.ensure_loaded w st force).1.idGraph = (Recipes.fullReload w st).idGraph
      ∧ (Recipes.ensure_loaded w st force).1.idGraphRev = (Recipes.fullReload w st).idGraphRev
      ∧ (Recipes.ensure_loaded w st force).1.compiledById
          = (Recipes.fullReload w st).compile.compiledById
      ∧ (Recipes.ensure_loaded w st force).2.1 = (Recipes.fullReload w st).compile.outModels)
    ∧ ((Recipes.fullReload w st).compile.outModels = [] →
        (Recipes.ensure_loaded w st force).2.1 = st.recipes
      ∧ (Recipes.ensure_loaded w st force).1.recipes = st.recipes
      ∧ (Recipes.ensure_loaded w st force).1.mtimes = st.mtimes
      ∧ (Recipes.ensure_loaded w st force).1.rawDocsByFile = st.rawDocsByFile
      ∧ (Recipes.ensure_loaded w st force).1.definesByFile = st.definesByFile
      ∧ (Recipes.ensure_loaded w st force).1.includesByFile = st.includesByFile
      ∧ (Recipes.ensure_loaded w st force).1.idToFile = st.idToFile
      ∧ (Recipes.ensure_loaded w st force).1.idGraph = st.idGraph
      ∧ (Recipes.ensure_loaded w st force).1.idGraphRev = st.idGraphRev
      ∧ (Recipes.ensure_loaded w st force).1.compiledById = st.compiledById)
    ∧ (Recipes.ensure_loaded w st force).1.errors = (Recipes.fullReload w st).compile.errors
    ∧ (Recipes.ensure_loaded w st force).2.2 = (Recipes.fullReload w st).compile.errors
    ∧ (∀ (strict : Bool) (scan : Recipes.ScanAcc) (idGraph : List (String × List String))
        (indegFinal : List (String × Nat)) (cst : Recipes.CompileSt) (rid : String),
        (Recipes.compileLoopStep w strict scan idGraph indegFinal cst rid).outModels
            = cst.outModels
        ∨ ∃ fp model,
            List.lookup rid scan.idToFile = some fp
            ∧ (Recipes.compileOne w strict scan.idToFile cst.compiledById
                ((List.lookup rid idGraph).getD [])
                ((List.lookup fp scan.includesByFile).getD [])
                ((List.lookup fp scan.rawDocs).getD .nil) rid fp).2.1 = some model
            ∧ (Recipes.compileLoopStep w strict scan idGraph indegFinal cst rid).outModels
                = cst.outModels ++ [model]) := by
  refine ⟨?_, ?_, ?_, ?_, compileLoopStep_outModels w⟩
  · intro h
    have hem : (Recipes.fullReload w st).compile.outModels.isEmpty = false := by
      cases hEmp : (Recipes.fullReload w st).compile.outModels.isEmpty
      · rfl
      · exact absurd (List.isEmpty_iff.mp hEmp) h
    simp [Recipes.ensure_loaded, hre, hem]
  · intro h
    have hem : (Recipes.fullReload w st).compile.outModels.isEmpty = true := by
      rw [h]
      rfl
    simp [Recipes.ensure_loaded, hre, hem]
  · cases hEmp : (Recipes.fullReload w st).compile.outModels.isEmpty
      <;> simp [Recipes.ensure_loaded, hre, hEmp]
  · cases hEmp : (Recipes.fullReload w st).compile.outModels.isEmpty
      <;> simp [Recipes.ensure_loaded, hre, hEmp]

theorem C3_swap_guard_witness :
    ((!true && !(Recipes._need_reload wC3 Recipes.emptyCache)) = false)
    ∧ (Recipes.fullReload wC3 Recipes.emptyCache).compile.outModels ≠ []
    ∧ (Recipes.ensure_loaded wC3 Recipes.emptyCache true).1.recipes
        = (Recipes.fullReload wC3 Recipes.emptyCache).compile.outModels
    ∧ (Recipes.ensure_loaded wC3 Recipes.emptyCache true).2.2
        = (Recipes.fullReload wC3 Recipes.emptyCache).compile.errors := by
  have h := C3_swap_guard wC3 Recipes.emptyCache true (by decide)
  exact ⟨by decide, by decide, (h.1 (by decide)).1, h.2.2.2.1⟩

namespace Recipes

theorem bfsFold_shape (cs : List String) : ∀ (q s : List String),
    ∃ t, bfsFold cs (q, s) = (q ++ t, s ++ t)
      ∧ (∀ x ∈ t, x ∈ cs) ∧ (∀ x ∈ t, ¬ x ∈ s) ∧ t.Nodup := by
  induction cs with
  | nil =>
      intro q s
      exact ⟨[], by simp [bfsFold], by simp, by simp, List.nodup_nil⟩
  | cons c cs ih =>
      intro q s
      rw [bfsFold]
      by_cases hc : s.contains c
      · rw [if_pos hc]
        obtain ⟨t, heq, hsub, hdisj, hnd⟩ := ih q s
        exact ⟨t, heq, fun x hx => List.mem_cons_of_mem c (hsub x hx), hdisj, hnd⟩
      · rw [if_neg hc]
        obtain ⟨t, heq, hsub, hdisj, hnd⟩ := ih (q ++ [c]) (s ++ [c])
        refine ⟨c :: t, ?_, ?_, ?_, ?_⟩
        · rw [heq]
          simp
        · intro x hx
          rcases List.mem_cons.mp hx with h | h
          · exact h ▸ List.mem_cons_self c cs
          · exact List.mem_cons_of_mem c (hsub x h)
        · intro x hx
          rcases List.mem_cons.mp hx with h | h
          · subst h
            intro hmem
            exact hc ((Planner.containsEq s x).mpr hmem)
          · intro hmem
            exact hdisj x h (List.mem_append_left [c] hmem)
        · refine List.nodup_cons.mpr ⟨fun hmem => ?_, hnd⟩
          exact hdisj c hmem (List.mem_append_right s (List.mem_cons_self c []))

theorem bfsFold_covers (cs : List String) : ∀ (q s : List String) (c : String), c ∈ cs →
    c ∈ (bfsFold cs (q, s)).2 := by
  induction cs with
  | nil => intro q s c hc; cases hc
  | cons c0 cs ih =>
      intro q s c hc
      rw [bfsFold]
      rcases List.mem_cons.mp hc with h | h
      · subst h
        by_cases hc0 : s.contains c
        · rw [if_pos hc0]
          obtain ⟨t, heq, _, _, _⟩ := bfsFold_shape cs q s
          rw [heq]
          exact List.mem_append_left t ((Planner.containsEq s c).mp hc0)
        · rw [if_neg hc0]
          obtain ⟨t, heq, _, _, _⟩ := bfsFold_shape cs (q ++ [c]) (s ++ [c])
          rw [heq]
          exact List.mem_append_left t
            (List.mem_append_right s (List.mem_cons_self c []))
      · by_cases hc0 : s.contains c0
        · rw [if_pos hc0]
          exact ih q s c h
        · rw [if_neg hc0]
          exact ih (q ++ [c0]) (s ++ [c0]) c h

theorem weightSum_init (rev : List (String × List String)) (xs : List String) :
    ∀ n : Nat, xs.foldl (fun a x => a + 1 + ((List.lookup x rev).getD []).length) n
      = n + weightSum rev xs := by
  induction xs with
  | nil => intro n; simp [weightSum]
  | cons x xs ih =>
      intro n
      rw [weightSum, List.foldl_cons, List.foldl_cons, ih, ih]
      omega

theorem weightSum_cons (rev : List (String × List String)) (x : String) (xs : List String) :
    weightSum rev (x :: xs)
      = 1 + ((List.lookup x rev).getD []).length + weightSum rev xs := by
  rw [weightSum, List.foldl_cons, weightSum_init]

theorem weightSum_filter_le (rev : List (String × List String)) (p : String → Bool) :
    ∀ xs : List String, weightSum rev (xs.filter p) ≤ weightSum rev xs := by
  intro xs
  induction xs with
  | nil => simp [weightSum]
  | cons x xs ih =>
      rw [weightSum_cons, List.filter_cons]
      by_cases hp : p x = true
      · rw [if_pos hp, weightSum_cons]
        omega
      · rw [if_neg hp]
        omega

theorem contains_append_ne (s : List String) (c x : String) (hx : x ≠ c) :
    (s ++ [c]).contains x = s.contains x := by
  rcases hsx : s.contains x with _ | _
  · rcases hcx : (s ++ [c]).contains x with _ | _
    · rfl
    · rcases List.mem_append.mp ((Planner.containsEq _ _).mp hcx) with h | h
      · exact absurd ((Planner.containsEq s x).mpr h)
          (by rw [hsx]; exact Bool.false_ne_true)
      · exact absurd (List.mem_singleton.mp h) hx
  · exact (Planner.containsEq _ _).mpr
      (List.mem_append_left [c] ((Planner.containsEq s x).mp hsx))

theorem weightSum_remove_one (rev : List (String × List String)) (c : String)
    (s : List String) (hcs : ¬ c ∈ s) :
    ∀ univ : List String, univ.Nodup → c ∈ univ →
      weightSum rev (univ.filter (fun x => !((s ++ [c]).contains x)))
          + (1 + ((List.lookup c rev).getD []).length)
        = weightSum rev (univ.filter (fun x => !(s.contains x))) := by
  intro univ
  induction univ with
  | nil => intro _ hc; cases hc
  | cons u univ ih =>
      intro hnd hc
      rw [List.nodup_cons] at hnd
      rcases List.mem_cons.mp hc with heq | hmem
      · subst heq
        have h1 : (s ++ [c]).contains c = true :=
          (Planner.containsEq _ _).mpr
            (List.mem_append_right s (List.mem_cons_self c []))
        have h2 : s.contains c = false := by
          rcases hsx : s.contains c with _ | _
          · rfl
          · exact absurd ((Planner.containsEq s c).mp hsx) hcs
        have hfeq : univ.filter (fun x => !((s ++ [c]).contains x))
            = univ.filter (fun x => !(s.contains x)) := by
          apply List.filter_congr
          intro x hx
          rw [contains_append_ne s c x (fun he => hnd.1 (he ▸ hx))]
        rw [List.filter_cons, List.filter_cons,
          if_neg (by rw [h1]; simp), if_pos (by rw [h2]; rfl),
          weightSum_cons, hfeq]
        omega
      · have hne : u ≠ c := fun he => hnd.1 (he ▸ hmem)
        rw [List.filter_cons, List.filter_cons]
        by_cases hp : (!(s.contains u)) = true
        · rw [if_pos hp, if_pos (by rw [contains_append_ne s c u hne]; exact hp),
            weightSum_cons, weightSum_cons, ← ih hnd.2 hmem]
          omega
        · rw [if_neg hp, if_neg (by rw [contains_append_ne s c u hne]; exact hp)]
          exact ih hnd.2 hmem

theorem weightSum_remove_block (rev : List (String × List String)) (univ : List String)
    (hu : univ.Nodup) :
    ∀ (t s : List String), t.Nodup → (∀ x ∈ t, x ∈ univ) → (∀ x ∈ t, ¬ x ∈ s) →
      weightSum rev (univ.filter (fun x => !((s ++ t).contains x))) + weightSum rev t
        = weightSum rev (univ.filter (fun x => !(s.contains x))) := by
  intro t
  induction t with
  | nil => intro s _ _ _; simp [weightSum]
  | cons c t ih =>
      intro s hnd hsub hdisj
      rw [List.nodup_cons] at hnd
      have hstep := weightSum_remove_one rev c s (hdisj c (List.mem_cons_self c t))
        univ hu (hsub c (List.mem_cons_self c t))
      have hih := ih (s ++ [c]) hnd.2 (fun x hx => hsub x (List.mem_cons_of_mem c hx))
        (fun x hx hmem => by
          rcases List.mem_append.mp hmem with h | h
          · exact hdisj x (List.mem_cons_of_mem c hx) h
          · exact hnd.1 (List.mem_singleton.mp h ▸ hx))
      rw [weightSum_cons]
      have hassoc : (s ++ [c]) ++ t = s ++ (c :: t) := by simp
      rw [hassoc] at hih
      omega

theorem weightSum_ge_length (rev : List (String × List String)) :
    ∀ xs : List String, xs.length ≤ weightSum rev xs := by
  intro xs
  induction xs with
  | nil => simp [weightSum]
  | cons x xs ih =>
      rw [weightSum_cons, List.length_cons]
      omega

theorem lookup_mem {β : Type} : ∀ (l : List (String × β)) (k : String) (v : β),
    List.lookup k l = some v → (k, v) ∈ l := by
  intro l
  induction l with
  | nil => intro k v h; cases h
  | cons kv tl ih =>
      intro k v h
      obtain ⟨k2, v2⟩ := kv
      rw [List.lookup] at h
      rcases hbeq : k == k2 with _ | _
      · rw [hbeq] at h
        exact List.mem_cons_of_mem _ (ih k v h)
      · rw [hbeq] at h
        injection h with hv
        have hk : k = k2 := by
          have := eq_of_beq hbeq
          exact this
        exact hk ▸ hv ▸ List.mem_cons_self _ _

theorem foldlConcat_mem_init : ∀ (l : List (String × List String)) (init : List String)
    (x : String), x ∈ init → x ∈ l.foldl (fun (a : List String) kv => a ++ kv.2) init := by
  intro l
  induction l with
  | nil => intro init x hx; exact hx
  | cons kv tl ih =>
      intro init x hx
      rw [List.foldl_cons]
      exact ih _ x (List.mem_append_left _ hx)

theorem foldlConcat_mem : ∀ (l : List (String × List String)) (init : List String)
    (kv : String × List String), kv ∈ l → ∀ c ∈ kv.2,
      c ∈ l.foldl (fun (a : List String) kv => a ++ kv.2) init := by
  intro l
  induction l with
  | nil => intro init kv hkv; cases hkv
  | cons kv0 tl ih =>
      intro init kv hkv c hc
      rw [List.foldl_cons]
      rcases List.mem_cons.mp hkv with h | h
      · subst h
        exact foldlConcat_mem_init tl _ c (List.mem_append_right init hc)
      · exact ih _ kv h c hc

theorem bfsGo_grow (rev : List (String × List String)) :
    ∀ (fuel : Nat) (queue s : List String) (x : String), x ∈ s →
      x ∈ bfsGo rev fuel queue s := by
  intro fuel
  induction fuel with
  | zero => intro queue s x hx; exact hx
  | succ fuel ih =>
      intro queue s x hx
      cases queue with
      | nil => exact hx
      | cons cur q =>
          obtain ⟨t, heq, _, _, _⟩ := bfsFold_shape ((List.lookup cur rev).getD []) q s
          have hred : bfsGo rev (fuel + 1) (cur :: q) s = bfsGo rev fuel (q ++ t) (s ++ t) := by
            rw [show bfsGo rev (fuel + 1) (cur :: q) s
                = bfsGo rev fuel (bfsFold ((List.lookup cur rev).getD []) (q, s)).1
                    (bfsFold ((List.lookup cur rev).getD []) (q, s)).2 from rfl, heq]
          rw [hred]
          exact ih (q ++ t) (s ++ t) x (List.mem_append_left t hx)

theorem bfsGo_nodup (rev : List (String × List String)) :
    ∀ (fuel : Nat) (queue s : List String), s.Nodup → (bfsGo rev fuel queue s).Nodup := by
  intro fuel
  induction fuel with
  | zero => intro queue s h; exact h
  | succ fuel ih =>
      intro queue s h
      cases queue with
      | nil => exact h
      | cons cur q =>
          obtain ⟨t, heq, _, htdisj, htnd⟩ :=
            bfsFold_shape ((List.lookup cur rev).getD []) q s
          have hred : bfsGo rev (fuel + 1) (cur :: q) s = bfsGo rev fuel (q ++ t) (s ++ t) := by
            rw [show bfsGo rev (fuel + 1) (cur :: q) s
                = bfsGo rev fuel (bfsFold ((List.lookup cur rev).getD []) (q, s)).1
                    (bfsFold ((List.lookup cur rev).getD []) (q, s)).2 from rfl, heq]
          rw [hred]
          exact ih (q ++ t) (s ++ t)
            (List.nodup_append.mpr ⟨h, htnd, fun x hxs hxt => htdisj x hxt hxs⟩)

theorem bfsGo_minimal (rev : List (String × List String)) (S : List String)
    (hSclosed : ∀ x ∈ S, ∀ c ∈ (List.lookup x rev).getD [], c ∈ S) :
    ∀ (fuel : Nat) (queue s : List String),
      (∀ x ∈ s, x ∈ S) → (∀ x ∈ queue, x ∈ s) →
      ∀ x ∈ bfsGo rev fuel queue s, x ∈ S := by
  intro fuel
  induction fuel with
  | zero => intro queue s hsS _ x hx; exact hsS x hx
  | succ fuel ih =>
      intro queue s hsS hqs x hx
      cases queue with
      | nil => exact hsS x hx
      | cons cur q =>
          obtain ⟨t, heq, htcs, _, _⟩ :=
            bfsFold_shape ((List.lookup cur rev).getD []) q s
          have hred : bfsGo rev (fuel + 1) (cur :: q) s = bfsGo rev fuel (q ++ t) (s ++ t) := by
            rw [show bfsGo rev (fuel + 1) (cur :: q) s
                = bfsGo rev fuel (bfsFold ((List.lookup cur rev).getD []) (q, s)).1
                    (bfsFold ((List.lookup cur rev).getD []) (q, s)).2 from rfl, heq]
          rw [hred] at hx
          have hstS : ∀ y ∈ s ++ t, y ∈ S := by
            intro y hy
            rcases List.mem_append.mp hy with h | h
            · exact hsS y h
            · exact hSclosed cur (hsS cur (hqs cur (List.mem_cons_self cur q))) y (htcs y h)
          have hqts : ∀ y ∈ q ++ t, y ∈ s ++ t := by
            intro y hy
            rcases List.mem_append.mp hy with h | h
            · exact List.mem_append_left t (hqs y (List.mem_cons_of_mem cur h))
            · exact List.mem_append_right s h
          exact ih (q ++ t) (s ++ t) hstS hqts x hx

theorem bfsGo_closed_aux (rev : List (String × List String)) (univ : List String)
    (hU : ∀ (x c : String), c ∈ (List.lookup x rev).getD [] → c ∈ univ)
    (hun : univ.Nodup) :
    ∀ (fuel : Nat) (queue s : List String),
      bfsPotential rev univ queue s < fuel →
      s.Nodup →
      (∀ x ∈ queue, x ∈ s) →
      (∀ x ∈ s, x ∈ queue ∨ ∀ c ∈ (List.lookup x rev).getD [], c ∈ s) →
      ∀ x ∈ bfsGo rev fuel queue s, ∀ c ∈ (List.lookup x rev).getD [],
        c ∈ bfsGo rev fuel queue s := by
  intro fuel
  induction fuel with
  | zero =>
      intro queue s hpot
      exact absurd hpot (Nat.not_lt_zero _)
  | succ fuel ih =>
      intro queue s hpot hnd hqs hinv
      cases queue with
      | nil =>
          intro x hx c hc
          rcases hinv x hx with h | h
          · cases h
          · exact h c hc
      | cons cur q =>
          obtain ⟨t, heq, htcs, htdisj, htnd⟩ :=
            bfsFold_shape ((List.lookup cur rev).getD []) q s
          have hred : bfsGo rev (fuel + 1) (cur :: q) s = bfsGo rev fuel (q ++ t) (s ++ t) := by
            rw [show bfsGo rev (fuel + 1) (cur :: q) s
                = bfsGo rev fuel (bfsFold ((List.lookup cur rev).getD []) (q, s)).1
                    (bfsFold ((List.lookup cur rev).getD []) (q, s)).2 from rfl, heq]
          rw [hred]
          have htuniv : ∀ x ∈ t, x ∈ univ := fun x hx => hU cur x (htcs x hx)
          have hblock := weightSum_remove_block rev univ hun t s htnd htuniv htdisj
          have hwlen := weightSum_ge_length rev t
          refine ih (q ++ t) (s ++ t) ?_ ?_ ?_ ?_
          · simp only [bfsPotential] at hpot ⊢
            rw [List.length_append]
            rw [List.length_cons] at hpot
            omega
          · exact List.nodup_append.mpr ⟨hnd, htnd, fun x hxs hxt => htdisj x hxt hxs⟩
          · intro x hx
            rcases List.mem_append.mp hx with h | h
            · exact List.mem_append_left t (hqs x (List.mem_cons_of_mem cur h))
            · exact List.mem_append_right s h
          · intro x hx
            rcases List.mem_append.mp hx with hxs | hxt
            · by_cases hxc : x = cur
              · subst hxc
                refine Or.inr (fun c hc => ?_)
                have := bfsFold_covers ((List.lookup x rev).getD []) q s c hc
                rw [heq] at this
                exact this
              · rcases hinv x hxs with h | h
                · rcases List.mem_cons.mp h with h2 | h2
                  · exact absurd h2 hxc
                  · exact Or.inl (List.mem_append_left t h2)
                · exact Or.inr (fun c hc => List.mem_append_left t (h c hc))
            · exact Or.inl (List.mem_append_right q hxt)

/- The impacted-id closure: contains the seeds, is duplicate-free, is
   closed under reverse-`extends` children, and is the least such set. -/
theorem bfsClosure_spec (rev : List (String × List String)) (seeds : List String)
    (hnd : seeds.Nodup) :
    (∀ x ∈ seeds, x ∈ bfsClosure rev seeds)
    ∧ (bfsClosure rev seeds).Nodup
    ∧ (∀ x ∈ bfsClosure rev seeds, ∀ c ∈ (List.lookup x rev).getD [],
        c ∈ bfsClosure rev seeds)
    ∧ (∀ S : List String, (∀ x ∈ seeds, x ∈ S) →
        (∀ x ∈ S, ∀ c ∈ (List.lookup x rev).getD [], c ∈ S) →
        ∀ x ∈ bfsClosure rev seeds, x ∈ S) := by
  refine ⟨fun x hx => bfsGo_grow rev _ seeds seeds x hx,
    bfsGo_nodup rev _ seeds seeds hnd, ?_,
    fun S hseedS hSclosed => bfsGo_minimal rev S hSclosed _ seeds seeds hseedS (fun x hx => hx)⟩
  have hU : ∀ (x c : String), c ∈ (List.lookup x rev).getD [] →
      c ∈ (seeds ++ rev.foldl (fun (a : List String) kv => a ++ kv.2) []).dedup := by
    intro x c hc
    rw [List.mem_dedup]
    refine List.mem_append_right seeds ?_
    cases hl : List.lookup x rev with
    | none => rw [hl] at hc; cases hc
    | some l =>
        rw [hl] at hc
        exact foldlConcat_mem rev [] (x, l) (lookup_mem rev x l hl) c hc
  have hun : ((seeds ++ rev.foldl (fun (a : List String) kv => a ++ kv.2) []).dedup).Nodup :=
    List.nodup_dedup _
  have hpot : bfsPotential rev
      ((seeds ++ rev.foldl (fun (a : List String) kv => a ++ kv.2) []).dedup)
      seeds seeds < bfsFuel rev seeds := by
    have hle := weightSum_filter_le rev (fun x => !(seeds.contains x))
      ((seeds ++ rev.foldl (fun (a : List String) kv => a ++ kv.2) []).dedup)
    have hfe : bfsFuel rev seeds = seeds.length
        + weightSum rev ((seeds ++ rev.foldl (fun (a : List String) kv => a ++ kv.2) []).dedup)
        + 1 := rfl
    simp only [bfsPotential]
    omega
  exact bfsGo_closed_aux rev _ hU hun (bfsFuel rev seeds) seeds seeds hpot hnd
    (fun x hx => hx) (fun x hx => Or.inl hx)

theorem lookup_setA {β : Type} : ∀ (l : List (String × β)) (k k2 : String) (v : β),
    List.lookup k2 (setA l k v) = if k = k2 then some v else List.lookup k2 l := by
  intro l
  induction l with
  | nil =>
      intro k k2 v
      by_cases h : k = k2
      · subst h
        simp [setA]
      · rw [if_neg h, setA, List.lookup_cons,
          show (k2 == k) = false from beq_eq_false_iff_ne.mpr (fun he => h he.symm)]
  | cons kv tl ih =>
      intro k k2 v
      obtain ⟨k3, v3⟩ := kv
      rw [setA]
      by_cases h3 : k3 = k
      · rw [if_pos h3]
        subst h3
        by_cases h : k3 = k2
        · subst h
          simp
        · rw [if_neg h, List.lookup_cons, List.lookup_cons,
            show (k2 == k3) = false from beq_eq_false_iff_ne.mpr (fun he => h he.symm)]
      · rw [if_neg h3, List.lookup_cons]
        rcases hb : (k2 == k3) with _ | _
        · dsimp only
          rw [ih k k2 v, List.lookup_cons, hb]
        · dsimp only
          have hk2 : k2 = k3 := eq_of_beq hb
          rw [if_neg (fun he => h3 ((hk2 ▸ he : k = k3)).symm), List.lookup_cons, hb]

theorem mem_lookup_isSome {β : Type} : ∀ (l : List (String × β)) (k : String) (v : β),
    (k, v) ∈ l → (List.lookup k l).isSome = true := by
  intro l
  induction l with
  | nil => intro k v h; cases h
  | cons kv tl ih =>
      intro k v h
      obtain ⟨k2, v2⟩ := kv
      rw [List.lookup_cons]
      rcases hb : (k == k2) with _ | _
      · dsimp only
        rcases List.mem_cons.mp h with h2 | h2
        · injection h2 with ha hb2
          rw [ha] at hb
          rw [beq_self_eq_true] at hb
          cases hb
        · exact ih k v h2
      · rfl

theorem lookup_of_mem_nodupKeys {β : Type} :
    ∀ (l : List (String × β)), (l.map Prod.fst).Nodup →
      ∀ (k : String) (v : β), (k, v) ∈ l → List.lookup k l = some v := by
  intro l
  induction l with
  | nil => intro _ k v h; cases h
  | cons kv tl ih =>
      intro hnd k v h
      obtain ⟨k2, v2⟩ := kv
      rw [List.map_cons, List.nodup_cons] at hnd
      rcases List.mem_cons.mp h with h2 | h2
      · injection h2 with ha hb2
        subst ha
        subst hb2
        rw [List.lookup_cons, beq_self_eq_true]
      · have hk : k ≠ k2 := by
          intro he
          subst he
          exact hnd.1 (List.mem_map.mpr ⟨(k, v), h2, rfl⟩)
        rw [List.lookup_cons, show (k == k2) = false from beq_eq_false_iff_ne.mpr hk]
        exact ih hnd.2 k v h2

theorem setA_keys {β : Type} : ∀ (l : List (String × β)) (k : String) (v : β),
    (List.lookup k l).isSome = true → (setA l k v).map Prod.fst = l.map Prod.fst := by
  intro l
  induction l with
  | nil => intro k v h; cases h
  | cons kv tl ih =>
      intro k v h
      obtain ⟨k2, v2⟩ := kv
      rw [setA]
      by_cases h2 : k2 = k
      · rw [if_pos h2, List.map_cons, List.map_cons, h2]
      · rw [if_neg h2, List.map_cons, List.map_cons, ih k v ?_]
        rw [List.lookup_cons, show (k == k2) = false from
          beq_eq_false_iff_ne.mpr (fun he => h2 he.symm)] at h
        exact h

theorem getD_one_eq_getD_zero (o : Option Nat) (h : o.isSome = true) :
    o.getD 1 = o.getD 0 := by
  cases o
  · cases h
  · rfl

theorem kahnFold_spec : ∀ (cs : List String), cs.Nodup →
    ∀ (indeg : List (String × Nat)) (q : List String),
      ∃ e,
        (kahnFold cs (indeg, q)).2 = q ++ e
        ∧ (∀ x ∈ e, x ∈ cs)
        ∧ e.length ≤ cs.length
        ∧ (∀ k, (List.lookup k (kahnFold cs (indeg, q)).1).isSome
            = (List.lookup k indeg).isSome)
        ∧ (∀ k, ¬ k ∈ cs → List.lookup k (kahnFold cs (indeg, q)).1 = List.lookup k indeg)
        ∧ (∀ k, k ∈ cs → (List.lookup k indeg).isSome = true →
            (List.lookup k (kahnFold cs (indeg, q)).1).getD 0
              = (List.lookup k indeg).getD 0 - 1
            ∧ ((List.lookup k (kahnFold cs (indeg, q)).1).getD 0 = 0 → k ∈ e))
        ∧ (∀ k, k ∈ cs → (List.lookup k indeg).isSome = false →
            List.lookup k (kahnFold cs (indeg, q)).1 = List.lookup k indeg)
        ∧ (∀ x ∈ e, (List.lookup x indeg).isSome = true)
        ∧ (∀ x ∈ e, (List.lookup x (kahnFold cs (indeg, q)).1).getD 0 = 0) := by
  intro cs
  induction cs with
  | nil =>
      intro _ indeg q
      exact ⟨[], by simp [kahnFold], by simp, by simp, fun k => rfl, fun k _ => rfl,
        fun k hk => absurd hk (List.not_mem_nil k), fun k hk => absurd hk (List.not_mem_nil k),
        fun x hx => absurd hx (List.not_mem_nil x), fun x hx => absurd hx (List.not_mem_nil x)⟩
  | cons c cs ih =>
      intro hnd indeg q
      rw [List.nodup_cons] at hnd
      rw [kahnFold]
      by_cases hc : (List.lookup c indeg).isSome = true
      · rw [if_pos hc]
        dsimp only
        have hsl : List.lookup c (setA indeg c ((List.lookup c indeg).getD 1 - 1))
            = some ((List.lookup c indeg).getD 1 - 1) := by
          rw [lookup_setA indeg c c _, if_pos rfl]
        have hset_ne : ∀ k, ¬ k = c →
            List.lookup k (setA indeg c ((List.lookup c indeg).getD 1 - 1))
              = List.lookup k indeg := by
          intro k hk
          rw [lookup_setA indeg c k _, if_neg (fun he => hk he.symm)]
        have hset_some : ∀ k,
            (List.lookup k (setA indeg c ((List.lookup c indeg).getD 1 - 1))).isSome
              = (List.lookup k indeg).isSome := by
          intro k
          by_cases hk : k = c
          · subst hk
            rw [hsl, hc]
            rfl
          · rw [hset_ne k hk]
        rw [hsl, Option.getD_some]
        have hd0 : (List.lookup c indeg).getD 1 = (List.lookup c indeg).getD 0 :=
          getD_one_eq_getD_zero _ hc
        by_cases hz : (List.lookup c indeg).getD 1 - 1 = 0
        · rw [if_pos hz]
          obtain ⟨e2, hq, hsub, hlen, hsome, hout, hdec, hnokey, hesome, hezero⟩ :=
            ih hnd.2 (setA indeg c ((List.lookup c indeg).getD 1 - 1)) (q ++ [c])
          refine ⟨c :: e2, ?_, ?_, ?_, ?_, ?_, ?_, ?_, ?_, ?_⟩
          · rw [hq]
            simp
          · intro x hx
            rcases List.mem_cons.mp hx with h | h
            · exact h ▸ List.mem_cons_self c cs
            · exact List.mem_cons_of_mem c (hsub x h)
          · rw [List.length_cons, List.length_cons]
            omega
          · intro k
            rw [hsome k, hset_some k]
          · intro k hk
            have hkc : ¬ k = c := fun he => hk (he ▸ List.mem_cons_self c cs)
            have hkcs : ¬ k ∈ cs := fun hm => hk (List.mem_cons_of_mem c hm)
            rw [hout k hkcs, hset_ne k hkc]
          · intro k hk hks
            rcases List.mem_cons.mp hk with hkc | hkcs
            · subst hkc
              constructor
              · rw [hout k hnd.1, hsl, Option.getD_some, hd0]
              · intro _
                exact List.mem_cons_self k e2
            · have hkc : ¬ k = c := fun he => hnd.1 (he ▸ hkcs)
              obtain ⟨hdecv, hzero⟩ := hdec k hkcs (by rw [hset_ne k hkc]; exact hks)
              constructor
              · rw [hdecv, hset_ne k hkc]
              · intro h0
                exact List.mem_cons_of_mem c (hzero h0)
          · intro k hk hks
            rcases List.mem_cons.mp hk with hkc | hkcs
            · subst hkc
              rw [hks] at hc
              cases hc
            · have hkc : ¬ k = c := fun he => hnd.1 (he ▸ hkcs)
              rw [hnokey k hkcs (by rw [hset_ne k hkc]; exact hks), hset_ne k hkc]
          · intro x hx
            rcases List.mem_cons.mp hx with h | h
            · exact h ▸ hc
            · have := hesome x h
              rw [hset_some x] at this
              exact this
          · intro x hx
            rcases List.mem_cons.mp hx with h | h
            · subst h
              rw [hout x hnd.1, hsl, Option.getD_some]
              exact hz
            · exact hezero x h
        · rw [if_neg hz]
          obtain ⟨e2, hq, hsub, hlen, hsome, hout, hdec, hnokey, hesome, hezero⟩ :=
            ih hnd.2 (setA indeg c ((List.lookup c indeg).getD 1 - 1)) q
          refine ⟨e2, hq, fun x hx => List.mem_cons_of_mem c (hsub x hx),
            Nat.le_succ_of_le hlen, ?_, ?_, ?_, ?_, ?_, hezero⟩
          · intro k
            rw [hsome k, hset_some k]
          · intro k hk
            have hkc : ¬ k = c := fun he => hk (he ▸ List.mem_cons_self c cs)
            have hkcs : ¬ k ∈ cs := fun hm => hk (List.mem_cons_of_mem c hm)
            rw [hout k hkcs, hset_ne k hkc]
          · intro k hk hks
            rcases List.mem_cons.mp hk with hkc | hkcs
            · subst hkc
              constructor
              · rw [hout k hnd.1, hsl, Option.getD_some, hd0]
              · intro h0
                rw [hout k hnd.1, hsl, Option.getD_some] at h0
                exact absurd h0 hz
            · have hkc : ¬ k = c := fun he => hnd.1 (he ▸ hkcs)
              obtain ⟨hdecv, hzero⟩ := hdec k hkcs (by rw [hset_ne k hkc]; exact hks)
              exact ⟨by rw [hdecv, hset_ne k hkc], hzero⟩
          · intro k hk hks
            rcases List.mem_cons.mp hk with hkc | hkcs
            · subst hkc
              rw [hks] at hc
              cases hc
            · have hkc : ¬ k = c := fun he => hnd.1 (he ▸ hkcs)
              rw [hnokey k hkcs (by rw [hset_ne k hkc]; exact hks), hset_ne k hkc]
          · intro x hx
            have := hesome x hx
            rw [hset_some x] at this
            exact this
      · rw [if_neg hc]
        obtain ⟨e2, hq, hsub, hlen, hsome, hout, hdec, hnokey, hesome, hezero⟩ :=
          ih hnd.2 indeg q
        have hcf : (List.lookup c indeg).isSome = false := by
          rcases hv : (List.lookup c indeg).isSome with _ | _
          · rfl
          · exact absurd hv hc
        refine ⟨e2, hq, fun x hx => List.mem_cons_of_mem c (hsub x hx),
          Nat.le_succ_of_le hlen, hsome, ?_, ?_, ?_, hesome, hezero⟩
        · intro k hk
          exact hout k (fun hm => hk (List.mem_cons_of_mem c hm))
        · intro k hk hks
          rcases List.mem_cons.mp hk with hkc | hkcs
          · subst hkc
            rw [hks] at hcf
            cases hcf
          · exact hdec k hkcs hks
        · intro k hk hks
          rcases List.mem_cons.mp hk with hkc | hkcs
          · subst hkc
            exact hout k hnd.1
          · exact hnokey k hkcs hks

theorem countP_pointwise_congr (p q : String → Bool) :
    ∀ l : List String, (∀ x ∈ l, p x = q x) → l.countP p = l.countP q := by
  intro l
  induction l with
  | nil => intro _; rfl
  | cons x l ih =>
      intro h
      rw [List.countP_cons, List.countP_cons,
        ih (fun y hy => h y (List.mem_cons_of_mem x hy)), h x (List.mem_cons_self x l)]

theorem countP_mark_absent (keys order : List String) (n : String) :
    ∀ l : List String, ¬ n ∈ l →
      l.countP (fun p => keys.contains p && !((order ++ [n]).contains p))
        = l.countP (fun p => keys.contains p && !(order.contains p)) := by
  intro l hn
  apply countP_pointwise_congr
  intro x hx
  rw [contains_append_ne order n x (fun he => hn (he ▸ hx))]

theorem countP_mark_one (keys order : List String) (n : String)
    (hkn : keys.contains n = true) (hon : order.contains n = false) :
    ∀ l : List String, l.Nodup → n ∈ l →
      l.countP (fun p => keys.contains p && !((order ++ [n]).contains p)) + 1
        = l.countP (fun p => keys.contains p && !(order.contains p)) := by
  intro l
  induction l with
  | nil => intro _ hn; cases hn
  | cons x l ih =>
      intro hnd hn
      rw [List.nodup_cons] at hnd
      rw [List.countP_cons, List.countP_cons]
      rcases List.mem_cons.mp hn with h | h
      · subst h
        have hmem : (order ++ [n]).contains n = true :=
          (Planner.containsEq _ _).mpr
            (List.mem_append_right order (List.mem_cons_self n []))
        have hnew : (keys.contains n && !((order ++ [n]).contains n)) = false := by
          rw [hmem]
          simp
        have hold : (keys.contains n && !(order.contains n)) = true := by
          rw [hkn, hon]
          rfl
        rw [hnew, hold, countP_mark_absent keys order n l hnd.1]
        simp
      · have hxn : x ≠ n := fun he => hnd.1 (he ▸ h)
        have hsame : (keys.contains x && !((order ++ [n]).contains x))
            = (keys.contains x && !(order.contains x)) := by
          rw [contains_append_ne order n x hxn]
        rw [hsame, ← ih hnd.2 h]
        omega

theorem append_singleton_split {α : Type} (A : List α) (n : α) (l1 : List α) (n2 : α)
    (l2 : List α) (h : A ++ [n] = l1 ++ n2 :: l2) :
    (l1 = A ∧ n2 = n ∧ l2 = []) ∨ ∃ l3, l2 = l3 ++ [n] ∧ A = l1 ++ n2 :: l3 := by
  rcases List.eq_nil_or_concat l2 with hnil | ⟨l3, x, hx⟩
  · subst hnil
    have hinj := List.append_inj' h (by rfl)
    exact Or.inl ⟨hinj.1.symm, by injection hinj.2 with h1 _; exact h1.symm, rfl⟩
  · subst hx
    rw [List.concat_eq_append] at h
    rw [show l1 ++ n2 :: (l3 ++ [x]) = (l1 ++ n2 :: l3) ++ [x] by simp] at h
    have hinj := List.append_inj' h (by rfl)
    have hx : x = n := by injection hinj.2 with h1 _; exact h1.symm
    exact Or.inr ⟨l3, by rw [hx, List.concat_eq_append], hinj.1⟩

theorem kahnSubLoop_spec (graph rev : List (String × List String)) (keys : List String)
    (hkeysnd : keys.Nodup)
    (hcons : ∀ p c, p ∈ keys → c ∈ keys →
      (c ∈ (List.lookup p rev).getD [] ↔ p ∈ (List.lookup c graph).getD []))
    (hrevnd : ∀ p ∈ keys, ((List.lookup p rev).getD []).Nodup)
    (hgrnd : ∀ c ∈ keys, ((List.lookup c graph).getD []).Nodup) :
    ∀ (fuel : Nat) (queue : List String) (indeg : List (String × Nat)) (order : List String),
      queue.length + weightSum rev (keys.filter (fun x => !(order.contains x))) < fuel →
      (∀ k, (List.lookup k indeg).isSome = true ↔ k ∈ keys) →
      order.Nodup →
      (∀ x ∈ order, x ∈ keys) →
      (∀ x ∈ queue, x ∈ keys) →
      (∀ m ∈ keys, (List.lookup m indeg).getD 0
        = ((List.lookup m graph).getD []).countP
            (fun p => keys.contains p && !(order.contains p))) →
      (∀ m ∈ queue, (List.lookup m indeg).getD 0 = 0) →
      (∀ m ∈ keys, (List.lookup m indeg).getD 0 = 0 → m ∈ order ∨ m ∈ queue) →
      (∀ l1 n2 l2, order = l1 ++ n2 :: l2 →
        ∀ p ∈ (List.lookup n2 graph).getD [], p ∈ keys → p ∈ l1) →
      (∃ ext, (kahnSubLoop rev fuel queue indeg order order).1 = order ++ ext)
      ∧ (kahnSubLoop rev fuel queue indeg order order).1.Nodup
      ∧ (∀ x ∈ (kahnSubLoop rev fuel queue indeg order order).1, x ∈ keys)
      ∧ (∀ l1 n2 l2, (kahnSubLoop rev fuel queue indeg order order).1 = l1 ++ n2 :: l2 →
          ∀ p ∈ (List.lookup n2 graph).getD [], p ∈ keys → p ∈ l1)
      ∧ ((∀ m ∈ keys,
            (List.lookup m (kahnSubLoop rev fuel queue indeg order order).2).getD 0 = 0)
          → ∀ m ∈ keys, m ∈ (kahnSubLoop rev fuel queue indeg order order).1) := by
  intro fuel
  induction fuel with
  | zero =>
      intro queue indeg order hpot
      exact absurd hpot (Nat.not_lt_zero _)
  | succ fuel ih =>
      intro queue indeg order hpot hkeys hond hosub hqsub hcount hzeroq hzcov hpbc
      cases queue with
      | nil =>
          have hred : kahnSubLoop rev (fuel + 1) [] indeg order order = (order, indeg) := rfl
          rw [hred]
          refine ⟨⟨[], by simp⟩, hond, hosub, hpbc, ?_⟩
          intro hallz m hm
          rcases hzcov m hm (hallz m hm) with h | h
          · exact h
          · cases h
      | cons n rest =>
          by_cases hv : order.contains n = true
          · have hred : kahnSubLoop rev (fuel + 1) (n :: rest) indeg order order
                = kahnSubLoop rev fuel rest indeg order order := by
              rw [kahnSubLoop, if_pos hv]
            rw [hred]
            refine ih rest indeg order ?_ hkeys hond hosub
              (fun x hx => hqsub x (List.mem_cons_of_mem n hx)) hcount
              (fun m hm => hzeroq m (List.mem_cons_of_mem n hm)) ?_ hpbc
            · rw [List.length_cons] at hpot
              omega
            · intro m hm h0
              rcases hzcov m hm h0 with h | h
              · exact Or.inl h
              · rcases List.mem_cons.mp h with h2 | h2
                · exact Or.inl (h2 ▸ (Planner.containsEq order n).mp hv)
                · exact Or.inr h2
          · have hnotin : ¬ n ∈ order := fun hm => hv ((Planner.containsEq order n).mpr hm)
            have hnk : n ∈ keys := hqsub n (List.mem_cons_self n rest)
            have hchnd : ((List.lookup n rev).getD []).Nodup := hrevnd n hnk
            obtain ⟨e, hq, hsub, hlen, hsome, hout, hdec, hnokey, hesome, hezero⟩ :=
              kahnFold_spec ((List.lookup n rev).getD []) hchnd indeg rest
            have hred : kahnSubLoop rev (fuel + 1) (n :: rest) indeg order order
                = kahnSubLoop rev fuel
                    (kahnFold ((List.lookup n rev).getD []) (indeg, rest)).2
                    (kahnFold ((List.lookup n rev).getD []) (indeg, rest)).1
                    (order ++ [n]) (order ++ [n]) := by
              rw [kahnSubLoop, if_neg hv]
            rw [hred, hq]
            have honf : order.contains n = false := by
              rcases h : order.contains n with _ | _
              · rfl
              · exact absurd h hv
            have hknc : keys.contains n = true := (Planner.containsEq keys n).mpr hnk
            have hwrem := weightSum_remove_one rev n order hnotin keys hkeysnd hnk
            have hcnt0 : ((List.lookup n graph).getD []).countP
                (fun p => keys.contains p && !(order.contains p)) = 0 := by
              rw [← hcount n hnk]
              exact hzeroq n (List.mem_cons_self n rest)
            have hparents_in : ∀ p ∈ (List.lookup n graph).getD [], p ∈ keys → p ∈ order := by
              intro p hp hpk
              have hnp := List.countP_eq_zero.mp hcnt0 p hp
              rcases hoc : order.contains p with _ | _
              · exact absurd (by
                  rw [(Planner.containsEq keys p).mpr hpk, hoc]
                  rfl) hnp
              · exact (Planner.containsEq order p).mp hoc
            have harg1 : (rest ++ e).length
                + weightSum rev (keys.filter (fun x => !((order ++ [n]).contains x)))
                < fuel := by
              rw [List.length_append]
              rw [List.length_cons] at hpot
              omega
            have harg2 : ∀ k, (List.lookup k
                (kahnFold ((List.lookup n rev).getD []) (indeg, rest)).1).isSome = true
                ↔ k ∈ keys := by
              intro k
              rw [hsome k]
              exact hkeys k
            have harg3 : (order ++ [n]).Nodup :=
              List.nodup_append.mpr ⟨hond, List.nodup_singleton n,
                fun x hxo hxn => hnotin (List.mem_singleton.mp hxn ▸ hxo)⟩
            have harg4 : ∀ x ∈ order ++ [n], x ∈ keys := by
              intro x hx
              rcases List.mem_append.mp hx with h | h
              · exact hosub x h
              · exact List.mem_singleton.mp h ▸ hnk
            have harg5 : ∀ x ∈ rest ++ e, x ∈ keys := by
              intro x hx
              rcases List.mem_append.mp hx with h | h
              · exact hqsub x (List.mem_cons_of_mem n h)
              · exact (hkeys x).mp (hesome x h)
            have harg6 : ∀ m ∈ keys,
                (List.lookup m (kahnFold ((List.lookup n rev).getD []) (indeg, rest)).1).getD 0
                  = ((List.lookup m graph).getD []).countP
                      (fun p => keys.contains p && !((order ++ [n]).contains p)) := by
              intro m hm
              by_cases hmc : m ∈ (List.lookup n rev).getD []
              · have hms : (List.lookup m indeg).isSome = true := (hkeys m).mpr hm
                obtain ⟨hdecv, _⟩ := hdec m hmc hms
                have hng : n ∈ (List.lookup m graph).getD [] :=
                  (hcons n m hnk hm).mp hmc
                have hmark := countP_mark_one keys order n hknc honf
                  ((List.lookup m graph).getD []) (hgrnd m hm) hng
                rw [hdecv, hcount m hm]
                omega
              · rw [hout m hmc, hcount m hm]
                have hng : ¬ n ∈ (List.lookup m graph).getD [] := by
                  intro hng
                  exact hmc ((hcons n m hnk hm).mpr hng)
                rw [countP_mark_absent keys order n ((List.lookup m graph).getD []) hng]
            have harg7 : ∀ m ∈ rest ++ e,
                (List.lookup m (kahnFold ((List.lookup n rev).getD []) (indeg, rest)).1).getD 0
                  = 0 := by
              intro m hm
              rcases List.mem_append.mp hm with h | h
              · have hm0 := hzeroq m (List.mem_cons_of_mem n h)
                by_cases hmc : m ∈ (List.lookup n rev).getD []
                · have hms : (List.lookup m indeg).isSome = true :=
                    (hkeys m).mpr (hqsub m (List.mem_cons_of_mem n h))
                  obtain ⟨hdecv, _⟩ := hdec m hmc hms
                  rw [hdecv, hm0]
                · rw [hout m hmc]
                  exact hm0
              · exact hezero m h
            have harg8 : ∀ m ∈ keys,
                (List.lookup m (kahnFold ((List.lookup n rev).getD []) (indeg, rest)).1).getD 0
                    = 0 →
                  m ∈ order ++ [n] ∨ m ∈ rest ++ e := by
              intro m hm h0
              by_cases hmc : m ∈ (List.lookup n rev).getD []
              · have hms : (List.lookup m indeg).isSome = true := (hkeys m).mpr hm
                obtain ⟨_, hzmem⟩ := hdec m hmc hms
                exact Or.inr (List.mem_append_right rest (hzmem h0))
              · rw [hout m hmc] at h0
                rcases hzcov m hm h0 with h | h
                · exact Or.inl (List.mem_append_left [n] h)
                · rcases List.mem_cons.mp h with h2 | h2
                  · exact Or.inl (List.mem_append_right order
                      (h2 ▸ List.mem_cons_self n []))
                  · exact Or.inr (List.mem_append_left e h2)
            have harg9 : ∀ l1 n2 l2, order ++ [n] = l1 ++ n2 :: l2 →
                ∀ p ∈ (List.lookup n2 graph).getD [], p ∈ keys → p ∈ l1 := by
              intro l1 n2 l2 hsplit p hp hpk
              rcases append_singleton_split order n l1 n2 l2 hsplit with
                ⟨hl1, hn2, _⟩ | ⟨l3, _, hA⟩
              · subst hl1
                subst hn2
                exact hparents_in p hp hpk
              · exact hpbc l1 n2 l3 hA p hp hpk
            obtain ⟨⟨ext2, hext⟩, hnd2, hsub2, hpbc2, hcomp2⟩ :=
              ih (rest ++ e) (kahnFold ((List.lookup n rev).getD []) (indeg, rest)).1
                (order ++ [n]) harg1 harg2 harg3 harg4 harg5 harg6 harg7 harg8 harg9
            refine ⟨⟨n :: ext2, ?_⟩, hnd2, hsub2, hpbc2, hcomp2⟩
            rw [hext]
            simp

theorem mem_mapfst_lookup_isSome {β : Type} (l : List (String × β)) (k : String)
    (h : k ∈ l.map Prod.fst) : (List.lookup k l).isSome = true := by
  obtain ⟨kv, hkv, hfst⟩ := List.mem_map.mp h
  exact mem_lookup_isSome l k kv.2 (by rw [← hfst]; exact hkv)

theorem innerBump_other (keys : List String) (n : String) :
    ∀ (ps : List String) (ind : List (String × Nat)) (k : String), k ≠ n →
      List.lookup k
          (ps.foldl (fun ind2 p => if keys.contains p then bumpAssoc ind2 n else ind2) ind)
        = List.lookup k ind := by
  intro ps
  induction ps with
  | nil => intro ind k _; rfl
  | cons p ps ih =>
      intro ind k hk
      rw [List.foldl_cons]
      by_cases hp : keys.contains p = true
      · rw [if_pos hp, ih (bumpAssoc ind n) k hk, bumpAssoc,
          lookup_setA ind n k _, if_neg (fun he => hk he.symm)]
      · rw [if_neg hp, ih ind k hk]

theorem innerBump_lookup (keys : List String) (n : String) :
    ∀ (ps : List String) (ind : List (String × Nat)),
      (List.lookup n ind).isSome = true →
      List.lookup n
          (ps.foldl (fun ind2 p => if keys.contains p then bumpAssoc ind2 n else ind2) ind)
        = some ((List.lookup n ind).getD 0 + ps.countP (fun p => keys.contains p)) := by
  intro ps
  induction ps with
  | nil =>
      intro ind hs
      rw [List.foldl_nil, List.countP_nil]
      cases hv : List.lookup n ind with
      | none => rw [hv] at hs; cases hs
      | some v => simp
  | cons p ps ih =>
      intro ind hs
      rw [List.foldl_cons]
      by_cases hp : keys.contains p = true
      · have hcnt : List.countP (fun p => keys.contains p) (p :: ps)
            = List.countP (fun p => keys.contains p) ps + 1 := by
          rw [List.countP_cons, hp]
          rfl
        rw [if_pos hp, hcnt]
        have hlb : List.lookup n (bumpAssoc ind n)
            = some ((List.lookup n ind).getD 0 + 1) := by
          rw [bumpAssoc, lookup_setA ind n n _, if_pos rfl]
        rw [ih (bumpAssoc ind n) (by rw [hlb]; rfl), hlb, Option.getD_some]
        exact congrArg some (by omega)
      · have hpf : keys.contains p = false := by
          rcases h : keys.contains p with _ | _
          · rfl
          · exact absurd h hp
        have hcnt : List.countP (fun p => keys.contains p) (p :: ps)
            = List.countP (fun p => keys.contains p) ps := by
          rw [List.countP_cons, hpf]
          rfl
        rw [if_neg hp, hcnt, ih ind hs]

theorem lookup_none_of_not_mem_keys {β : Type} :
    ∀ (l : List (String × β)) (k : String), ¬ k ∈ l.map Prod.fst →
      List.lookup k l = none := by
  intro l
  induction l with
  | nil => intro k _; rfl
  | cons kv tl ih =>
      intro k hk
      obtain ⟨k2, v2⟩ := kv
      rw [List.map_cons] at hk
      have hne : ¬ k = k2 := fun he => hk (he ▸ List.mem_cons_self _ _)
      rw [List.lookup_cons, show (k == k2) = false from beq_eq_false_iff_ne.mpr hne]
      exact ih k (fun hm => hk (List.mem_cons_of_mem _ hm))

theorem outerBump_other (graph : List (String × List String)) (keys : List String) :
    ∀ (ns : List String) (ind : List (String × Nat)) (m : String), ¬ m ∈ ns →
      List.lookup m (ns.foldl (fun ind n => ((List.lookup n graph).getD []).foldl
          (fun ind2 p => if keys.contains p then bumpAssoc ind2 n else ind2) ind) ind)
        = List.lookup m ind := by
  intro ns
  induction ns with
  | nil => intro ind m _; rfl
  | cons n ns ih =>
      intro ind m hm
      rw [List.foldl_cons]
      have hmn : m ≠ n := fun he => hm (he ▸ List.mem_cons_self n ns)
      rw [ih _ m (fun h => hm (List.mem_cons_of_mem n h)),
        innerBump_other keys n ((List.lookup n graph).getD []) ind m hmn]

theorem outerBump_lookup (graph : List (String × List String)) (keys : List String) :
    ∀ (ns : List String), ns.Nodup → ∀ (ind : List (String × Nat)) (m : String),
      m ∈ ns → (List.lookup m ind).isSome = true →
      List.lookup m (ns.foldl (fun ind n => ((List.lookup n graph).getD []).foldl
          (fun ind2 p => if keys.contains p then bumpAssoc ind2 n else ind2) ind) ind)
        = some ((List.lookup m ind).getD 0
            + ((List.lookup m graph).getD []).countP (fun p => keys.contains p)) := by
  intro ns
  induction ns with
  | nil => intro _ ind m hm; cases hm
  | cons n ns ih =>
      intro hnd ind m hm hs
      rw [List.nodup_cons] at hnd
      rw [List.foldl_cons]
      rcases List.mem_cons.mp hm with h | h
      · subst h
        rw [outerBump_other graph keys ns _ m hnd.1,
          innerBump_lookup keys m ((List.lookup m graph).getD []) ind hs]
      · have hmn : m ≠ n := fun he => hnd.1 (he ▸ h)
        have hin := innerBump_other keys n ((List.lookup n graph).getD []) ind m hmn
        rw [ih hnd.2 _ m h (by rw [hin]; exact hs), hin]

theorem subIndegInit_lookup (graph : List (String × List String)) (keys : List String)
    (hnd : keys.Nodup) (m : String) (hm : m ∈ keys) :
    List.lookup m (subIndegInit graph keys)
      = some (((List.lookup m graph).getD []).countP (fun p => keys.contains p)) := by
  have hkeys0 : (keys.map (fun n => (n, (0 : Nat)))).map Prod.fst = keys := by
    rw [List.map_map]
    exact List.map_id _
  have h0 : List.lookup m (keys.map (fun n => (n, (0 : Nat)))) = some 0 :=
    lookup_of_mem_nodupKeys _ (by rw [hkeys0]; exact hnd) m 0
      (List.mem_map.mpr ⟨m, hm, rfl⟩)
  rw [subIndegInit, outerBump_lookup graph keys keys hnd _ m hm (by rw [h0]; rfl), h0,
    Option.getD_some]
  exact congrArg some (Nat.zero_add _)

theorem subIndegInit_isSome (graph : List (String × List String)) (keys : List String)
    (hnd : keys.Nodup) :
    ∀ k, (List.lookup k (subIndegInit graph keys)).isSome = true ↔ k ∈ keys := by
  intro k
  constructor
  · intro hs
    by_cases hk : k ∈ keys
    · exact hk
    · have hkeys0 : (keys.map (fun n => (n, (0 : Nat)))).map Prod.fst = keys := by
        rw [List.map_map]
        exact List.map_id _
      rw [subIndegInit, outerBump_other graph keys keys _ k hk,
        lookup_none_of_not_mem_keys _ k (by rw [hkeys0]; exact hk)] at hs
      cases hs
  · intro hk
    rw [subIndegInit_lookup graph keys hnd k hk]
    rfl

theorem innerBump_keys (keys : List String) (n : String) :
    ∀ (ps : List String) (ind : List (String × Nat)), n ∈ ind.map Prod.fst →
      (ps.foldl (fun ind2 p => if keys.contains p then bumpAssoc ind2 n else ind2)
          ind).map Prod.fst
        = ind.map Prod.fst := by
  intro ps
  induction ps with
  | nil => intro ind _; rfl
  | cons p ps ih =>
      intro ind hn
      rw [List.foldl_cons]
      by_cases hp : keys.contains p = true
      · have hbk : (bumpAssoc ind n).map Prod.fst = ind.map Prod.fst := by
          rw [bumpAssoc]
          exact setA_keys ind n _ (mem_mapfst_lookup_isSome ind n hn)
        rw [if_pos hp, ih (bumpAssoc ind n) (by rw [hbk]; exact hn), hbk]
      · rw [if_neg hp, ih ind hn]

theorem outerBump_keys (graph : List (String × List String)) (keys : List String) :
    ∀ (ns : List String) (ind : List (String × Nat)), (∀ n ∈ ns, n ∈ ind.map Prod.fst) →
      (ns.foldl (fun ind n => ((List.lookup n graph).getD []).foldl
          (fun ind2 p => if keys.contains p then bumpAssoc ind2 n else ind2) ind)
          ind).map Prod.fst
        = ind.map Prod.fst := by
  intro ns
  induction ns with
  | nil => intro ind _; rfl
  | cons n ns ih =>
      intro ind hns
      rw [List.foldl_cons]
      have hik := innerBump_keys keys n ((List.lookup n graph).getD []) ind
        (hns n (List.mem_cons_self n ns))
      rw [ih _ (fun x hx => by rw [hik]; exact hns x (List.mem_cons_of_mem n hx)), hik]

theorem subIndegInit_keys (graph : List (String × List String)) (keys : List String) :
    (subIndegInit graph keys).map Prod.fst = keys := by
  have hkeys0 : (keys.map (fun n => (n, (0 : Nat)))).map Prod.fst = keys := by
    rw [List.map_map]
    exact List.map_id _
  rw [subIndegInit, outerBump_keys graph keys keys _ (fun n hn => by rw [hkeys0]; exact hn),
    hkeys0]

/- The restricted topological sort of `apply_fs_events`: the emitted order
   is duplicate-free, stays inside the impacted set, lists every impacted
   parent before its child, and — when no residual positive in-degree is
   left (the no-cycle branch) — covers the whole impacted set. -/
theorem kahnSub_spec (graph rev : List (String × List String)) (keys : List String)
    (hkeysnd : keys.Nodup)
    (hcons : ∀ p c, p ∈ keys → c ∈ keys →
      (c ∈ (List.lookup p rev).getD [] ↔ p ∈ (List.lookup c graph).getD []))
    (hrevnd : ∀ p ∈ keys, ((List.lookup p rev).getD []).Nodup)
    (hgrnd : ∀ c ∈ keys, ((List.lookup c graph).getD []).Nodup) :
    (kahnSub graph rev keys).1.Nodup
    ∧ (∀ x ∈ (kahnSub graph rev keys).1, x ∈ keys)
    ∧ (∀ l1 n2 l2, (kahnSub graph rev keys).1 = l1 ++ n2 :: l2 →
        ∀ p ∈ (List.lookup n2 graph).getD [], p ∈ keys → p ∈ l1)
    ∧ ((∀ m ∈ keys, (List.lookup m (kahnSub graph rev keys).2).getD 0 = 0)
        → ∀ m ∈ keys, m ∈ (kahnSub graph rev keys).1) := by
  have hkeys1 : ∀ k, (List.lookup k (subIndegInit graph keys)).isSome = true ↔ k ∈ keys :=
    subIndegInit_isSome graph keys hkeysnd
  have hnkeys : ((subIndegInit graph keys).map Prod.fst).Nodup := by
    rw [subIndegInit_keys graph keys]
    exact hkeysnd
  have hq0 : ∀ x ∈ ((subIndegInit graph keys).filter
      (fun kv => kv.2 = 0)).map Prod.fst, x ∈ keys := by
    intro x hx
    obtain ⟨kv, hkv, hfst⟩ := List.mem_map.mp hx
    have hmem : kv ∈ subIndegInit graph keys := (List.mem_filter.mp hkv).1
    exact (hkeys1 x).mp (by
      rw [← hfst]
      exact mem_lookup_isSome _ kv.1 kv.2 hmem)
  have hzq0 : ∀ m ∈ ((subIndegInit graph keys).filter
      (fun kv => kv.2 = 0)).map Prod.fst,
        (List.lookup m (subIndegInit graph keys)).getD 0 = 0 := by
    intro m hm
    obtain ⟨kv, hkv, hfst⟩ := List.mem_map.mp hm
    have hmem := List.mem_filter.mp hkv
    have hl : List.lookup kv.1 (subIndegInit graph keys) = some kv.2 :=
      lookup_of_mem_nodupKeys (subIndegInit graph keys) hnkeys kv.1 kv.2 hmem.1
    have hz : kv.2 = 0 := of_decide_eq_true hmem.2
    rw [← hfst, hl, Option.getD_some, hz]
  have hzcov0 : ∀ m ∈ keys, (List.lookup m (subIndegInit graph keys)).getD 0 = 0 →
      m ∈ ([] : List String)
        ∨ m ∈ ((subIndegInit graph keys).filter (fun kv => kv.2 = 0)).map Prod.fst := by
    intro m hm h0
    refine Or.inr ?_
    have hl := subIndegInit_lookup graph keys hkeysnd m hm
    rw [hl, Option.getD_some] at h0
    refine List.mem_map.mpr ⟨(m, ((List.lookup m graph).getD []).countP
      (fun p => keys.contains p)), ?_, rfl⟩
    refine List.mem_filter.mpr ⟨lookup_mem _ m _ hl, ?_⟩
    exact decide_eq_true h0
  have hcount0 : ∀ m ∈ keys, (List.lookup m (subIndegInit graph keys)).getD 0
      = ((List.lookup m graph).getD []).countP
          (fun p => keys.contains p && !(List.contains ([] : List String) p)) := by
    intro m hm
    rw [subIndegInit_lookup graph keys hkeysnd m hm, Option.getD_some]
    exact (countP_pointwise_congr _ _ _ (fun x _ => by
      show (keys.contains x && true) = keys.contains x
      exact Bool.and_true _)).symm
  have hpot : (((subIndegInit graph keys).filter (fun kv => kv.2 = 0)).map Prod.fst).length
      + weightSum rev (keys.filter (fun x => !(List.contains ([] : List String) x)))
      < kahnSubFuel rev
          (((subIndegInit graph keys).filter (fun kv => kv.2 = 0)).map Prod.fst) keys := by
    have hfe : kahnSubFuel rev
        (((subIndegInit graph keys).filter (fun kv => kv.2 = 0)).map Prod.fst) keys
      = (((subIndegInit graph keys).filter (fun kv => kv.2 = 0)).map Prod.fst).length
        + weightSum rev keys + 1 := rfl
    have hfl : keys.filter (fun x => !(List.contains ([] : List String) x)) = keys :=
      List.filter_eq_self.mpr (fun a _ => rfl)
    rw [hfe, hfl]
    omega
  have hspec := kahnSubLoop_spec graph rev keys hkeysnd hcons hrevnd hgrnd
    (kahnSubFuel rev
      (((subIndegInit graph keys).filter (fun kv => kv.2 = 0)).map Prod.fst) keys)
    (((subIndegInit graph keys).filter (fun kv => kv.2 = 0)).map Prod.fst)
    (subIndegInit graph keys) [] hpot hkeys1 List.nodup_nil
    (fun x hx => absurd hx (List.not_mem_nil x)) hq0 hcount0 hzq0 hzcov0
    (fun l1 n2 l2 habs => absurd habs.symm (List.append_ne_nil_of_right_ne_nil l1
      (List.cons_ne_nil n2 l2)))
  have hred : kahnSub graph rev keys
      = kahnSubLoop rev
          (kahnSubFuel rev
            (((subIndegInit graph keys).filter (fun kv => kv.2 = 0)).map Prod.fst) keys)
          (((subIndegInit graph keys).filter (fun kv => kv.2 = 0)).map Prod.fst)
          (subIndegInit graph keys) [] [] := rfl
  rw [hred]
  exact ⟨hspec.2.1, hspec.2.2.1, hspec.2.2.2.1, hspec.2.2.2.2⟩

theorem fragsGo_none (w : Recipes.World) (pfx : String) :
    ∀ (ps acc : List String),
      (∃ p ∈ ps, ¬(w.pathExists p = true ∧ PyStr.startsWith p pfx = true)) →
      Recipes.fragsGo w pfx ps acc = none := by
  intro ps
  induction ps with
  | nil =>
      intro acc h
      obtain ⟨p, hp, _⟩ := h
      cases hp
  | cons p ps ih =>
      intro acc h
      rw [Recipes.fragsGo]
      by_cases he : w.pathExists p = true
      · rw [if_neg (by rw [he]; exact Bool.false_ne_true)]
        by_cases hs : PyStr.startsWith p pfx = true
        · rw [if_pos hs]
          obtain ⟨q, hq, hbad⟩ := h
          rcases List.mem_cons.mp hq with h2 | h2
          · exact absurd ⟨h2 ▸ he, h2 ▸ hs⟩ hbad
          · exact ih _ ⟨q, h2, hbad⟩
        · rw [if_neg hs]
      · have hf : w.pathExists p = false := by
          rcases hv : w.pathExists p with _ | _
          · rfl
          · exact absurd hv he
        rw [if_pos (by rw [hf]; rfl)]

theorem applyStep_compiled (w : Recipes.World) (strict : Bool)
    (itf : List (String × String)) (g inc : List (String × List String))
    (raw : List (String × YMap)) (st : Recipes.ApplySt) (r : String) :
    (Recipes.applyStep w strict itf g inc raw st r).compiledById = st.compiledById
    ∨ ∃ v, (Recipes.applyStep w strict itf g inc raw st r).compiledById
        = Recipes.setA st.compiledById r v := by
  unfold Recipes.applyStep
  cases hf : List.lookup r itf with
  | none => exact Or.inl rfl
  | some fp =>
      dsimp only
      by_cases hfp : fp = ""
      · rw [if_pos hfp]
        exact Or.inl rfl
      · rw [if_neg hfp]
        rcases hco : Recipes.compileOne w strict itf st.compiledById
            ((List.lookup r g).getD []) ((List.lookup fp inc).getD [])
            ((List.lookup fp raw).getD .nil) r fp with ⟨mi, mo, b, ne⟩
        dsimp only
        cases mo with
        | none => exact Or.inl rfl
        | some model =>
            dsimp only
            by_cases hb : b = true
            · rw [if_pos hb]
              by_cases hs : strict = true
              · rw [hs]
                exact Or.inl rfl
              · have hsf : strict = false := by
                  rcases hv : strict with _ | _
                  · rfl
                  · exact absurd hv hs
                rw [hsf]
                cases List.lookup r st.lkg with
                | none => exact Or.inl rfl
                | some lkgv => exact Or.inr ⟨lkgv, rfl⟩
            · rw [if_neg hb]
              exact Or.inr ⟨mi, rfl⟩

theorem applyFold_untouched (w : Recipes.World) (strict : Bool)
    (itf : List (String × String)) (g inc : List (String × List String))
    (raw : List (String × YMap)) :
    ∀ (order : List String) (st0 : Recipes.ApplySt) (rid : String), ¬ rid ∈ order →
      List.lookup rid
          ((order.foldl (Recipes.applyStep w strict itf g inc raw) st0).compiledById)
        = List.lookup rid st0.compiledById := by
  intro order
  induction order with
  | nil => intro st0 rid _; rfl
  | cons r order ih =>
      intro st0 rid hrid
      rw [List.foldl_cons]
      have hne : ¬ rid = r := fun he => hrid (he ▸ List.mem_cons_self r order)
      rw [ih _ rid (fun hm => hrid (List.mem_cons_of_mem r hm))]
      rcases applyStep_compiled w strict itf g inc raw st0 r with h | ⟨v, h⟩
      · rw [h]
      · rw [h, lookup_setA _ r rid v, if_neg (fun he => hne he.symm)]

theorem apply_fs_events_firstload (w : Recipes.World) (st : Recipes.CacheState)
    (ps : List String) (h : st.compiledById = []) :
    Recipes.apply_fs_events w st ps = Recipes.ensure_loaded w st true := by
  unfold Recipes.apply_fs_events
  rw [h]
  rfl

theorem apply_fs_events_noyaml (w : Recipes.World) (st : Recipes.CacheState)
    (ps : List String) (h2 : st.compiledById.isEmpty = false)
    (h : ps.filter (fun p => PyStr.endsWith p ".yaml") = []) :
    Recipes.apply_fs_events w st ps = (st, st.recipes, st.errors) := by
  unfold Recipes.apply_fs_events
  rw [h2, h]
  rfl

theorem apply_fs_events_degrade (w : Recipes.World) (st : Recipes.CacheState)
    (ps : List String) (h2 : st.compiledById.isEmpty = false)
    (h3 : Recipes.fragsGo w (Recipes.fragsPrefixOf w)
        ((ps.filter (fun p => PyStr.endsWith p ".yaml")).map Recipes.resolveAbs) [] = none) :
    Recipes.apply_fs_events w st ps = Recipes.ensure_loaded w st true := by
  unfold Recipes.apply_fs_events
  rw [h2]
  cases habs : (ps.filter (fun p => PyStr.endsWith p ".yaml")).map Recipes.resolveAbs with
  | nil =>
      rw [habs, Recipes.fragsGo] at h3
      cases h3
  | cons a as =>
      rw [habs] at h3
      rw [if_neg Bool.false_ne_true]
      dsimp only
      rw [h3, show (a :: as).isEmpty = false from rfl, if_neg Bool.false_ne_true]

/-- C2 (amended): incremental reload propagation.  (1) Before any
successful load, `apply_fs_events` degrades to a forced full reload.
(2) Correction to the claim: a changed path that does not end in
`.yaml` is silently dropped by the normalisation filter rather than
degrading to a full reload; if every changed path is dropped, the call
returns the current snapshot unchanged.  (3) A changed `.yaml` path
that is missing on disk or not under `_fragments/` degrades to a
forced full reload.  (4) The impacted id set is the breadth-first
closure of the seed ids over the reverse `extends` graph: it contains
the seeds, is duplicate-free, is closed under reverse-`extends`
children, and is the least such set.  (5) The restricted topological
sort emits a duplicate-free order inside the impacted set, places
every impacted `extends` parent before its child, and covers the whole
impacted set whenever no positive in-degree remains (the branch that
does not degrade).  (6) The recompile loop leaves the compiled
document of every id outside its order untouched. -/
theorem C2_incremental_amended (w : Recipes.World) (st : Recipes.CacheState)
    (ps : List String) :
    (st.compiledById = [] →
      Recipes.apply_fs_events w st ps = Recipes.ensure_loaded w st true)
    ∧ (st.compiledById.isEmpty = false →
        ps.filter (fun p => PyStr.endsWith p ".yaml") = [] →
        Recipes.apply_fs_events w st ps = (st, st.recipes, st.errors))
    ∧ (st.compiledById.isEmpty = false →
        (∃ p ∈ (ps.filter (fun p => PyStr.endsWith p ".yaml")).map Recipes.resolveAbs,
          ¬(w.pathExists p = true
            ∧ PyStr.startsWith p (Recipes.fragsPrefixOf w) = true)) →
        Recipes.apply_fs_events w st ps = Recipes.ensure_loaded w st true)
    ∧ (∀ (rev : List (String × List String)) (seeds : List String), seeds.Nodup →
        (∀ x ∈ seeds, x ∈ Recipes.bfsClosure rev seeds)
        ∧ (Recipes.bfsClosure rev seeds).Nodup
        ∧ (∀ x ∈ Recipes.bfsClosure rev seeds, ∀ c ∈ (List.lookup x rev).getD [],
            c ∈ Recipes.bfsClosure rev seeds)
        ∧ (∀ S : List String, (∀ x ∈ seeds, x ∈ S) →
            (∀ x ∈ S, ∀ c ∈ (List.lookup x rev).getD [], c ∈ S) →
            ∀ x ∈ Recipes.bfsClosure rev seeds, x ∈ S))
    ∧ (∀ (graph rev : List (String × List String)) (keys : List String),
        keys.Nodup →
        (∀ p c, p ∈ keys → c ∈ keys →
          (c ∈ (List.lookup p rev).getD [] ↔ p ∈ (List.lookup c graph).getD [])) →
        (∀ p ∈ keys, ((List.lookup p rev).getD []).Nodup) →
        (∀ c ∈ keys, ((List.lookup c graph).getD []).Nodup) →
        (Recipes.kahnSub graph rev keys).1.Nodup
        ∧ (∀ x ∈ (Recipes.kahnSub graph rev keys).1, x ∈ keys)
        ∧ (∀ l1 n2 l2, (Recipes.kahnSub graph rev keys).1 = l1 ++ n2 :: l2 →
            ∀ p ∈ (List.lookup n2 graph).getD [], p ∈ keys → p ∈ l1)
        ∧ ((∀ m ∈ keys, (List.lookup m (Recipes.kahnSub graph rev keys).2).getD 0 = 0)
            → ∀ m ∈ keys, m ∈ (Recipes.kahnSub graph rev keys).1))
    ∧ (∀ (strict : Bool) (itf : List (String × String))
        (g inc : List (String × List String)) (raw : List (String × YMap))
        (order : List String) (st0 : Recipes.ApplySt) (rid : String),
        ¬ rid ∈ order →
        List.lookup rid
            ((order.foldl (Recipes.applyStep w strict itf g inc raw) st0).compiledById)
          = List.lookup rid st0.compiledById) := by
  refine ⟨apply_fs_events_firstload w st ps,
    apply_fs_events_noyaml w st ps,
    ?_,
    fun rev seeds hnd => bfsClosure_spec rev seeds hnd,
    fun graph rev keys h1 h2 h3 h4 => kahnSub_spec graph rev keys h1 h2 h3 h4,
    fun strict itf g inc raw => applyFold_untouched w strict itf g inc raw⟩
  intro h2 hex
  exact apply_fs_events_degrade w st ps h2
    (fragsGo_none w (Recipes.fragsPrefixOf w) _ [] hex)

theorem C2_incremental_amended_witness :
    Recipes.apply_fs_events wC2B stC2 ["/r/README.md"] = (stC2, stC2.recipes, stC2.errors)
    ∧ Recipes.apply_fs_events wC2B stC2 ["/r/gone.yaml"]
        = Recipes.ensure_loaded wC2B stC2 true := by
  constructor
  · exact (C2_incremental_amended wC2B stC2 ["/r/README.md"]).2.1 (by decide) (by decide)
  · refine (C2_incremental_amended wC2B stC2 ["/r/gone.yaml"]).2.2.1 (by decide) ?_
    exact ⟨"/r/gone.yaml", by decide, by decide⟩

/-- C2 counterexample: with a loaded cache, a changed path that is not a
fragment and no longer exists on disk (`/r/README.md`) does not cause a
full reload as the claim states: it is dropped by the `.yaml` filter and
the stale snapshot is returned, even though the recipe file's content
changed on disk and a full reload would produce a different recipe
list. -/
theorem C2_counterexample :
    stC2.compiledById ≠ []
    ∧ wC2B.pathExists "/r/README.md" = false
    ∧ Recipes.apply_fs_events wC2B stC2 ["/r/README.md"]
        = (stC2, stC2.recipes, stC2.errors)
    ∧ (Recipes.ensure_loaded wC2B stC2 true).2.1 ≠ stC2.recipes := by
  refine ⟨by decide, by decide, ?_, by decide⟩
  decide
